import Mathlib

/-!
Verification of `pygel`'s `NumberedEdgeDirectedGraph` (src/pygel/Graph/NumberedEdgeDirectedGraph.py).

The Python class keeps its dictionaries in insertion order and mutates them in
place; we model every dictionary as an association list `List (Int × α)` whose
operations (`dlookup`, `dset`, `derase`) mirror Python `d[k]`, `d[k] = v` and
`del d[k]`.  A Python `KeyError` / `ValueError` / `NameError` aborting an
operation is modelled by `Option`/`Except`.  Recursive procedures
(`getSCComponents`'s `visit`, `getOutComponent`'s `dfs`) receive an explicit
fuel argument; the top-level wrappers pass a fuel that is proved sufficient
where the claims need it.
-/

namespace Pygel

/-- Lookup in a Python-style dict modelled as an association list: the first
binding of the key, if any. -/
def dlookup {α : Type} : List (Int × α) → Int → Option α
  | [], _ => none
  | (k, v) :: rest, key => if k = key then some v else dlookup rest key

/-- Membership test `key in d` for a Python-style dict. -/
def dmem {α : Type} (m : List (Int × α)) (k : Int) : Bool :=
  (dlookup m k).isSome

/-- Assignment `d[key] = val`: update the existing binding in place, or append
a new binding at the end (Python dicts preserve insertion order). -/
def dset {α : Type} : List (Int × α) → Int → α → List (Int × α)
  | [], key, val => [(key, val)]
  | (k, v) :: rest, key, val =>
    if k = key then (k, val) :: rest else (k, v) :: dset rest key val

/-- Deletion `del d[key]`: removes the first binding of the key. -/
def derase {α : Type} : List (Int × α) → Int → List (Int × α)
  | [], _ => []
  | (k, v) :: rest, key => if k = key then rest else (k, v) :: derase rest key

/-- Python `list.remove(a)`: removes the first occurrence of `a`, or raises
`ValueError` (modelled as `none`) if absent. -/
def lremove {α : Type} [DecidableEq α] : List α → α → Option (List α)
  | [], _ => none
  | x :: rest, a =>
    if x = a then some rest else (lremove rest a).map (fun l => x :: l)

/-- Vertex value object (`pygel.BaseElements.Vertex`): identity is the number. -/
structure Vertex where
  vertexNumber : Int
deriving DecidableEq, Repr

/-- Edge value object (`pygel.BaseElements.Edge`): start and end vertices. -/
structure Edge where
  startVertex : Vertex
  endVertex : Vertex
deriving DecidableEq, Repr

/-- The state of a `NumberedEdgeDirectedGraph` instance. -/
structure Graph where
  edgeIndex : List (Int × Edge)
  vertexIndex : List (Int × Vertex)
  parentIndex : List (Int × List Int)
  parentEdgeIndex : List (Int × List (Int × Int))
  lastEdgeNumber : Int
  inDegreeCount : List (Int × Int)
  outDegreeCount : List (Int × Int)
  degreeCount : List (Int × Int)
deriving DecidableEq, Repr

/-- The freshly constructed graph (`__init__`). -/
def emptyGraph : Graph :=
  { edgeIndex := [], vertexIndex := [], parentIndex := [], parentEdgeIndex := []
    lastEdgeNumber := -1, inDegreeCount := [], outDegreeCount := [], degreeCount := [] }

/-- The `try: out[s] += 1; deg[s] += 1 except KeyError: out[s] = 1; deg[s] = 1`
block of `addEdge` (and its in-degree twin).  Note the faithful modelling of
the slip in the source: if the first counter is present but the second is not,
the first increment has already happened when the `KeyError` fires, and the
handler then resets both counters to 1. -/
def bumpCounters (primary : List (Int × Int)) (total : List (Int × Int)) (k : Int) :
    List (Int × Int) × List (Int × Int) :=
  match dlookup primary k with
  | none => (dset primary k 1, dset total k 1)
  | some p =>
    match dlookup total k with
    | none => (dset (dset primary k (p + 1)) k 1, dset total k 1)
    | some t => (dset primary k (p + 1), dset total k (t + 1))

/-- The `try: out[s] -= 1; deg[s] -= 1 except KeyError: pass` block of
`deleteEdge` (and its in-degree twin).  If the first counter is present but
the second is not, the first decrement survives and the handler does nothing. -/
def dropCounters (primary : List (Int × Int)) (total : List (Int × Int)) (k : Int) :
    List (Int × Int) × List (Int × Int) :=
  match dlookup primary k with
  | none => (primary, total)
  | some p =>
    match dlookup total k with
    | none => (dset primary k (p - 1), total)
    | some t => (dset primary k (p - 1), dset total k (t - 1))

/-- `addEdge(edge)` from the source: bump the edge counter, index the edge,
register unseen endpoints, extend both adjacency structures, and update the
three degree counters through the `try/except` blocks. -/
def addEdge (g : Graph) (edge : Edge) : Graph :=
  let lastEdgeNumber := g.lastEdgeNumber + 1
  let edgeIndex := dset g.edgeIndex lastEdgeNumber edge
  let startVertexNumber := edge.startVertex.vertexNumber
  let endVertexNumber := edge.endVertex.vertexNumber
  let vertexIndex :=
    if dmem g.vertexIndex startVertexNumber then g.vertexIndex
    else dset g.vertexIndex startVertexNumber edge.startVertex
  let vertexIndex :=
    if dmem vertexIndex endVertexNumber then vertexIndex
    else dset vertexIndex endVertexNumber edge.endVertex
  let parentIndex :=
    match dlookup g.parentIndex startVertexNumber with
    | none => dset g.parentIndex startVertexNumber [endVertexNumber]
    | some l => dset g.parentIndex startVertexNumber (l ++ [endVertexNumber])
  let parentEdgeIndex :=
    match dlookup g.parentEdgeIndex startVertexNumber with
    | none => dset g.parentEdgeIndex startVertexNumber [(endVertexNumber, lastEdgeNumber)]
    | some l => dset g.parentEdgeIndex startVertexNumber (l ++ [(endVertexNumber, lastEdgeNumber)])
  let (outDegreeCount, degreeCount) := bumpCounters g.outDegreeCount g.degreeCount startVertexNumber
  let (inDegreeCount, degreeCount) := bumpCounters g.inDegreeCount degreeCount endVertexNumber
  { edgeIndex := edgeIndex, vertexIndex := vertexIndex, parentIndex := parentIndex
    parentEdgeIndex := parentEdgeIndex, lastEdgeNumber := lastEdgeNumber
    inDegreeCount := inDegreeCount, outDegreeCount := outDegreeCount
    degreeCount := degreeCount }

/-- `deleteEdge(edgeNumber)` from the source.  `none` models an uncaught
`KeyError` (unknown edge number) or `ValueError` (a `list.remove` that finds
no matching entry); in every state reachable through the class API the
`remove` calls succeed. -/
def deleteEdge (g : Graph) (edgeNumber : Int) : Option Graph :=
  match dlookup g.edgeIndex edgeNumber with
  | none => none
  | some edge =>
    let startVertexNumber := edge.startVertex.vertexNumber
    let endVertexNumber := edge.endVertex.vertexNumber
    let parentIndexStep : Option (List (Int × List Int)) :=
      match dlookup g.parentIndex startVertexNumber with
      | none => some g.parentIndex
      | some l => (lremove l endVertexNumber).map (dset g.parentIndex startVertexNumber)
    match parentIndexStep with
    | none => none
    | some parentIndex =>
      let parentEdgeIndexStep : Option (List (Int × List (Int × Int))) :=
        match dlookup g.parentEdgeIndex startVertexNumber with
        | none => some g.parentEdgeIndex
        | some l =>
          (lremove l (endVertexNumber, edgeNumber)).map (dset g.parentEdgeIndex startVertexNumber)
      match parentEdgeIndexStep with
      | none => none
      | some parentEdgeIndex =>
        let (outDegreeCount, degreeCount) :=
          dropCounters g.outDegreeCount g.degreeCount startVertexNumber
        let (inDegreeCount, degreeCount) :=
          dropCounters g.inDegreeCount degreeCount endVertexNumber
        some { edgeIndex := derase g.edgeIndex edgeNumber
               vertexIndex := g.vertexIndex
               parentIndex := parentIndex, parentEdgeIndex := parentEdgeIndex
               lastEdgeNumber := g.lastEdgeNumber
               inDegreeCount := inDegreeCount, outDegreeCount := outDegreeCount
               degreeCount := degreeCount }

/-- `addVertex(vertexNumber)`: raises `VertexError` (modelled `none`) when the
number is present, otherwise inserts a fresh `Vertex`. -/
def addVertex (g : Graph) (vertexNumber : Int) : Option Graph :=
  match dlookup g.vertexIndex vertexNumber with
  | some _ => none
  | none => some { g with vertexIndex := dset g.vertexIndex vertexNumber ⟨vertexNumber⟩ }

/-- `deleteVertex(vertexNumber)`: `del self.vertexIndex[vertexNumber]`, a
`KeyError` (modelled `none`) when absent.  No other structure is touched. -/
def deleteVertex (g : Graph) (vertexNumber : Int) : Option Graph :=
  match dlookup g.vertexIndex vertexNumber with
  | none => none
  | some _ => some { g with vertexIndex := derase g.vertexIndex vertexNumber }

/-- `getOutNeighbors(vertexNumber)` translated literally: the source appends
`edge.startVertex` (not `edge.endVertex`) for every edge whose start matches. -/
def getOutNeighbors (g : Graph) (vertexNumber : Int) : List Vertex :=
  g.edgeIndex.foldl
    (fun acc kv =>
      if kv.2.startVertex.vertexNumber = vertexNumber then acc ++ [kv.2.startVertex] else acc)
    []

/-- Loop of `getInNeighbors`: the source body appends the unbound name
`endVertex`, so the first matching edge raises a `NameError`. -/
def inNeighborsLoop (vertexNumber : Int) :
    List (Int × Edge) → List Vertex → Except String (List Vertex)
  | [], acc => Except.ok acc
  | kv :: rest, acc =>
    if kv.2.endVertex.vertexNumber = vertexNumber then
      Except.error "NameError: endVertex"
    else inNeighborsLoop vertexNumber rest acc

/-- `getInNeighbors(vertexNumber)` translated literally (see `inNeighborsLoop`). -/
def getInNeighbors (g : Graph) (vertexNumber : Int) : Except String (List Vertex) :=
  inNeighborsLoop vertexNumber g.edgeIndex []

/-- `getDegreeDistribution()`: frequency table over the entries of
`degreeCount`, in key insertion order. -/
def getDegreeDistribution (g : Graph) : List (Int × Int) :=
  g.degreeCount.foldl
    (fun dist kv =>
      match dlookup dist kv.2 with
      | some c => dset dist kv.2 (c + 1)
      | none => dset dist kv.2 1)
    []

/-- Shared loop of `getVerticesByInDegree`/`getVerticesByOutDegree`: scan a
counter table and collect `vertexIndex[v]` for matching entries (`KeyError`
when a counted vertex was removed from the vertex index). -/
def verticesByDegreeLoop (g : Graph) (degree : Int) :
    List (Int × Int) → List Vertex → Except String (List Vertex)
  | [], acc => Except.ok acc
  | (v, d) :: rest, acc =>
    if d = degree then
      match dlookup g.vertexIndex v with
      | some vert => verticesByDegreeLoop g degree rest (acc ++ [vert])
      | none => Except.error "KeyError: vertexIndex"
    else verticesByDegreeLoop g degree rest acc

/-- `getVerticesByInDegree(degree)`: scans `__inDegreeCount`. -/
def getVerticesByInDegree (g : Graph) (degree : Int) : Except String (List Vertex) :=
  verticesByDegreeLoop g degree g.inDegreeCount []

/-- `getVerticesByOutDegree(degree)` translated literally: the source binds
`outDegreeCount = self.__inDegreeCount` (line 363), so this also scans the
in-degree table. -/
def getVerticesByOutDegree (g : Graph) (degree : Int) : Except String (List Vertex) :=
  verticesByDegreeLoop g degree g.inDegreeCount []

/-! ### Tarjan's strongly connected components (`getSCComponents`) -/

/-- The mutable state of one `getSCComponents` run: the dictionaries
`visitNumber`, `lowLinkNumber`, `vertexTracker` (pairs
`[vertexVisited, vertexTaken]`), the explicit `stack` (top element first; the
Python list appends and pops at its tail), and the cells `counter[0]`,
`largestComponentSize[0]` plus the result list `allSCC`. -/
structure TarjanSt where
  visitNumber : List (Int × Int)
  lowLinkNumber : List (Int × Int)
  vertexTracker : List (Int × (Int × Int))
  stack : List Int
  counter : Int
  largestComponentSize : Int
  allSCC : List (List Int)
deriving DecidableEq, Repr

/-- The local `min` of the source: returns `b` when `a >= b`, otherwise the
`elif b >= a` branch returns `a` (on integers that branch is the only other
case). -/
def pymin (a b : Int) : Int :=
  if a ≥ b then b else a

/-- Dictionary lookup that raises `KeyError` when the key is absent. -/
def getK {α : Type} (m : List (Int × α)) (k : Int) : Except String α :=
  match dlookup m k with
  | some v => Except.ok v
  | none => Except.error "KeyError"

/-- The component-attachment step at the end of `visit`: mode `getLargest > 0`
keeps only a strictly larger component (after `del allSCC[0]` when one is
kept), mode `getLargest == 0` appends every component, any other mode keeps
nothing. -/
def attachSCC (getLargest : Int) (scc : List Int) (largest : Int) (allSCC : List (List Int)) :
    Int × List (List Int) :=
  if getLargest > 0 then
    if (scc.length : Int) > largest then
      ((scc.length : Int), (if allSCC.length = 1 then allSCC.drop 1 else allSCC) ++ [scc])
    else (largest, allSCC)
  else if getLargest = 0 then (largest, allSCC ++ [scc])
  else (largest, allSCC)

/-- The `while stackGetItem(len(stack)-1) != vertexNumber` pop loop of `visit`:
pop, collect into `scc` and set `vertexTracker[popped][1] = 1` until the root
itself has been popped.  Checking the top of an empty stack raises
`IndexError`. -/
def popComponent (vertexNumber : Int) :
    List Int → List (Int × (Int × Int)) → List Int →
    Except String (List Int × List (Int × (Int × Int)) × List Int)
  | [], _, _ => Except.error "IndexError"
  | top :: rest, tracker, scc =>
    match dlookup tracker top with
    | none => Except.error "KeyError"
    | some t =>
      if top ≠ vertexNumber then
        popComponent vertexNumber rest (dset tracker top (t.1, 1)) (scc ++ [top])
      else
        Except.ok (rest, dset tracker top (t.1, 1), scc ++ [top])

/-- The `for child in children` loop of `visit`.  The `try` block evaluates
`lowLinkNumber[vertexNumber]` and then `visitNumber[child]`; a `KeyError` from
either lands in the handler, which (after `pass`) recurses into the child and
then takes the low-link minimum.  `visitF` is the recursion at the remaining
fuel. -/
def visitChildren (visitF : Int → TarjanSt → Except String TarjanSt) (vertexNumber : Int) :
    List Int → TarjanSt → Except String TarjanSt
  | [], st => Except.ok st
  | child :: rest, st =>
    match dlookup st.vertexTracker child with
    | none => Except.error "KeyError"
    | some t =>
      if t.2 ≠ 1 then
        match dlookup st.lowLinkNumber vertexNumber, dlookup st.visitNumber child with
        | some a, some b =>
          visitChildren visitF vertexNumber rest
            { st with lowLinkNumber := dset st.lowLinkNumber vertexNumber (pymin a b) }
        | _, _ =>
          match visitF child st with
          | Except.error e => Except.error e
          | Except.ok st1 =>
            match dlookup st1.lowLinkNumber vertexNumber, dlookup st1.lowLinkNumber child with
            | some a, some b =>
              visitChildren visitF vertexNumber rest
                { st1 with lowLinkNumber := dset st1.lowLinkNumber vertexNumber (pymin a b) }
            | _, _ => Except.error "KeyError"
      else visitChildren visitF vertexNumber rest st

/-- The recursive `visit` of `getSCComponents`, with fuel standing in for the
native call stack (the fuel passed by `getSCComponents` is an upper bound on
the recursion depth): mark visited, assign discovery and low-link numbers,
push, process children, and pop a completed component when the vertex is a
root. -/
def visit (getLargest : Int) (parentIndex : List (Int × List Int)) :
    Nat → Int → TarjanSt → Except String TarjanSt
  | 0, _, _ => Except.error "RecursionError"
  | n + 1, vertexNumber, st =>
    match dlookup st.vertexTracker vertexNumber with
    | none => Except.error "KeyError"
    | some t =>
      let st1 : TarjanSt :=
        { visitNumber := dset st.visitNumber vertexNumber st.counter
          lowLinkNumber := dset st.lowLinkNumber vertexNumber st.counter
          vertexTracker := dset st.vertexTracker vertexNumber (1, t.2)
          stack := vertexNumber :: st.stack
          counter := st.counter + 1
          largestComponentSize := st.largestComponentSize
          allSCC := st.allSCC }
      let children := (dlookup parentIndex vertexNumber).getD []
      match visitChildren (visit getLargest parentIndex n) vertexNumber children st1 with
      | Except.error e => Except.error e
      | Except.ok st2 =>
        match dlookup st2.lowLinkNumber vertexNumber, dlookup st2.visitNumber vertexNumber with
        | some ll, some vn =>
          if ll = vn then
            match popComponent vertexNumber st2.stack st2.vertexTracker [] with
            | Except.error e => Except.error e
            | Except.ok (stack2, tracker2, scc) =>
              let la := attachSCC getLargest scc st2.largestComponentSize st2.allSCC
              Except.ok { st2 with
                          stack := stack2
                          vertexTracker := tracker2
                          largestComponentSize := la.1
                          allSCC := la.2 }
          else Except.ok st2
        | _, _ => Except.error "KeyError"

/-- The outer `for vertexNumber in allVertices` loop of `getSCComponents`. -/
def sccLoop (getLargest : Int) (parentIndex : List (Int × List Int)) (fuel : Nat) :
    List (Int × Vertex) → TarjanSt → Except String TarjanSt
  | [], st => Except.ok st
  | kv :: rest, st =>
    match dlookup st.vertexTracker kv.1 with
    | none => Except.error "KeyError"
    | some t =>
      if t.1 = 0 then
        match visit getLargest parentIndex fuel kv.1
            { st with vertexTracker := dset st.vertexTracker kv.1 (1, t.2) } with
        | Except.error e => Except.error e
        | Except.ok st1 => sccLoop getLargest parentIndex fuel rest st1
      else sccLoop getLargest parentIndex fuel rest st

/-- `getSCComponents(getLargest)`: initialize the tracker over all vertices and
run the outer loop.  Each ground-level `visit` receives fuel
`|vertexIndex| + 1`, an upper bound on the depth of the native recursion. -/
def getSCComponents (g : Graph) (getLargest : Int) : Except String (List (List Int)) :=
  let st0 : TarjanSt :=
    { visitNumber := [], lowLinkNumber := []
      vertexTracker := g.vertexIndex.foldl (fun tr kv => dset tr kv.1 (0, 0)) []
      stack := [], counter := 0, largestComponentSize := 0, allSCC := [] }
  match sccLoop getLargest g.parentIndex (g.vertexIndex.length + 1) g.vertexIndex st0 with
  | Except.error e => Except.error e
  | Except.ok st => Except.ok st.allSCC

/-! ### Out-component of an SCC (`getOutComponent`) -/

/-- Body of the condensation loop of `getOutComponent`: for each
`(parent, oldChildren)` entry of `parentIndex`, children inside the SCC are
replaced by the sentinel `-1`; a parent inside the SCC contributes its
collapsed children to the sentinel's list, any other parent keeps its own
entry. -/
def outComponentFold (stronglyCCLookup : List (Int × String)) :
    List (Int × List Int) → List (Int × List Int) → List (Int × List Int)
  | [], cpi => cpi
  | (parent, oldChildren) :: rest, cpi =>
    let newChildren := oldChildren.foldl
      (fun acc child =>
        match dlookup stronglyCCLookup child with
        | some s => if s = "" then acc ++ [-1] else acc
        | none => acc ++ [child])
      []
    let cpi2 :=
      match dlookup stronglyCCLookup parent with
      | some s =>
        if s = "" then dset cpi (-1) (((dlookup cpi (-1)).getD []) ++ newChildren) else cpi
      | none => dset cpi parent newChildren
    outComponentFold stronglyCCLookup rest cpi2

/-- Deduplication of the sentinel's child list: keep each value once, in first
occurrence order, and drop `-1` itself. -/
def dedupeSentinel (l : List Int) : List Int :=
  l.foldl (fun acc x => if x ≠ -1 ∧ x ∉ acc then acc ++ [x] else acc) []

/-- The condensation adjacency built by `getOutComponent` before its DFS. -/
def buildCollapsed (parentIndex : List (Int × List Int)) (stronglyCC : List Int) :
    List (Int × List Int) :=
  let stronglyCCLookup := stronglyCC.foldl (fun lk each => dset lk each "") []
  let cpi := outComponentFold stronglyCCLookup parentIndex [(-1, [])]
  dset cpi (-1) (dedupeSentinel ((dlookup cpi (-1)).getD []))

/-- The `for child in children` loop of the local `dfs`: unvisited children are
appended to the shared visited list and explored.  `dfsF` is the recursion at
the remaining fuel. -/
def dfsChildren (dfsF : Int → List Int → Option (List Int)) :
    List Int → List Int → Option (List Int)
  | [], visited => some visited
  | child :: rest, visited =>
    if child ∈ visited then dfsChildren dfsF rest visited
    else
      match dfsF child (visited ++ [child]) with
      | none => none
      | some visited2 => dfsChildren dfsF rest visited2

/-- The local `dfs` of `getOutComponent`, with fuel standing in for the native
call stack. -/
def dfs (cpi : List (Int × List Int)) : Nat → Int → List Int → Option (List Int)
  | 0, _, _ => none
  | n + 1, v, visited => dfsChildren (dfs cpi n) ((dlookup cpi v).getD []) visited

/-- Fuel bound for the out-component DFS: one more than the total number of
adjacency entries, an upper bound on the recursion depth. -/
def outComponentFuel (cpi : List (Int × List Int)) : Nat :=
  cpi.foldl (fun n kv => n + kv.2.length) 0 + 1

/-- `getOutComponent(stronglyCC)`: collapse the SCC onto the sentinel `-1`,
deduplicate the sentinel's children, and run the DFS from the sentinel with
the empty visited list (which becomes the returned `outComponent`). -/
def getOutComponent (g : Graph) (stronglyCC : List Int) : Option (List Int) :=
  let cpi := buildCollapsed g.parentIndex stronglyCC
  dfs cpi (outComponentFuel cpi) (-1) []

/-! ### Basic facts about the dictionary model -/

/-- Keys of a dictionary, in insertion order. -/
def dkeys {α : Type} (m : List (Int × α)) : List Int :=
  m.map Prod.fst

theorem dlookup_dset_self {α : Type} (m : List (Int × α)) (k : Int) (v : α) :
    dlookup (dset m k v) k = some v := by
  induction m with
  | nil => simp [dset, dlookup]
  | cons hd tl ih =>
    by_cases h : hd.1 = k <;> simp [dset, dlookup, h, ih]

theorem dlookup_dset_ne {α : Type} (m : List (Int × α)) {k k' : Int} (v : α) (h : k' ≠ k) :
    dlookup (dset m k v) k' = dlookup m k' := by
  induction m with
  | nil => simp [dset, dlookup, Ne.symm h]
  | cons hd tl ih =>
    by_cases hk : hd.1 = k
    · simp [dset, hk, dlookup, Ne.symm h]
    · simp only [dset, if_neg hk]
      by_cases hk' : hd.1 = k' <;> simp [dlookup, hk', ih]

theorem dset_dset_self {α : Type} (m : List (Int × α)) (k : Int) (a b : α) :
    dset (dset m k a) k b = dset m k b := by
  induction m with
  | nil => simp [dset]
  | cons hd tl ih =>
    by_cases h : hd.1 = k <;> simp [dset, h, ih]

theorem dset_eq_of_lookup {α : Type} {m : List (Int × α)} {k : Int} {v : α}
    (h : dlookup m k = some v) : dset m k v = m := by
  induction m with
  | nil => simp [dlookup] at h
  | cons hd tl ih =>
    obtain ⟨k0, v0⟩ := hd
    by_cases hk : k0 = k
    · simp only [dlookup, if_pos hk] at h
      cases h
      simp [dset, hk]
    · simp only [dlookup, if_neg hk] at h
      simp [dset, hk, ih h]

theorem dset_comm {α : Type} {m : List (Int × α)} {k k' : Int} (a b : α)
    (hk : (dlookup m k).isSome) (hne : k ≠ k') :
    dset (dset m k a) k' b = dset (dset m k' b) k a := by
  induction m with
  | nil => simp [dlookup] at hk
  | cons hd tl ih =>
    by_cases h1 : hd.1 = k
    · simp [dset, h1, hne, Ne.symm hne]
    · by_cases h2 : hd.1 = k'
      · simp [dset, h1, h2, hne, Ne.symm hne]
      · simp only [dlookup, if_neg h1] at hk
        simp [dset, h1, h2, ih hk]

theorem dlookup_eq_none_iff {α : Type} (m : List (Int × α)) (k : Int) :
    dlookup m k = none ↔ k ∉ dkeys m := by
  induction m with
  | nil => simp [dlookup, dkeys]
  | cons hd tl ih =>
    by_cases h : hd.1 = k
    · simp [dlookup, dkeys, h]
    · simp only [dlookup, if_neg h, dkeys, List.map_cons, List.mem_cons]
      rw [ih]
      simp [dkeys, Ne.symm h]

theorem dlookup_isSome_iff {α : Type} (m : List (Int × α)) (k : Int) :
    (dlookup m k).isSome = true ↔ k ∈ dkeys m := by
  rw [← Decidable.not_iff_not, Option.not_isSome_iff_eq_none, dlookup_eq_none_iff]

theorem derase_dset_fresh {α : Type} {m : List (Int × α)} {k : Int} (v : α)
    (h : dlookup m k = none) : derase (dset m k v) k = m := by
  induction m with
  | nil => simp [dset, derase]
  | cons hd tl ih =>
    by_cases hk : hd.1 = k
    · simp [dlookup, hk] at h
    · simp only [dlookup, if_neg hk] at h
      simp [dset, derase, hk, ih h]

theorem dlookup_derase_ne {α : Type} (m : List (Int × α)) {k k' : Int} (h : k' ≠ k) :
    dlookup (derase m k) k' = dlookup m k' := by
  induction m with
  | nil => simp [derase]
  | cons hd tl ih =>
    obtain ⟨k0, v0⟩ := hd
    rw [derase]
    by_cases hk : k0 = k
    · have hne : ¬ k0 = k' := by rw [hk]; exact Ne.symm h
      rw [if_pos hk]
      simp [dlookup, hne]
    · rw [if_neg hk]
      by_cases hk' : k0 = k' <;> simp [dlookup, hk', ih]

theorem dlookup_derase_self {α : Type} {m : List (Int × α)} {k : Int}
    (h : (dkeys m).Nodup) : dlookup (derase m k) k = none := by
  induction m with
  | nil => simp [derase, dlookup]
  | cons hd tl ih =>
    simp only [dkeys, List.map_cons, List.nodup_cons] at h
    by_cases hk : hd.1 = k
    · rw [derase, if_pos hk, dlookup_eq_none_iff]
      rw [hk] at h
      exact h.1
    · rw [derase, if_neg hk, dlookup, if_neg hk]
      exact ih h.2

theorem dkeys_dset_mem {α : Type} {m : List (Int × α)} {k : Int} (v : α)
    (h : k ∈ dkeys m) : dkeys (dset m k v) = dkeys m := by
  simp only [dkeys] at h ⊢
  induction m with
  | nil => simp at h
  | cons hd tl ih =>
    by_cases hk : hd.1 = k
    · simp [dset, hk]
    · simp only [List.map_cons, List.mem_cons] at h
      rcases h with h | h
      · exact absurd h.symm hk
      · simp [dset, if_neg hk, ih h]

theorem dkeys_dset_fresh {α : Type} {m : List (Int × α)} {k : Int} (v : α)
    (h : k ∉ dkeys m) : dkeys (dset m k v) = dkeys m ++ [k] := by
  simp only [dkeys] at h ⊢
  induction m with
  | nil => simp [dset]
  | cons hd tl ih =>
    simp only [List.map_cons, List.mem_cons] at h
    push_neg at h
    simp [dset, Ne.symm h.1, ih h.2]

theorem dkeys_nodup_dset {α : Type} {m : List (Int × α)} {k : Int} (v : α)
    (h : (dkeys m).Nodup) : (dkeys (dset m k v)).Nodup := by
  by_cases hk : k ∈ dkeys m
  · rw [dkeys_dset_mem v hk]; exact h
  · rw [dkeys_dset_fresh v hk]
    simpa [List.nodup_append] using And.intro h hk

theorem derase_sublist {α : Type} (m : List (Int × α)) (k : Int) :
    (derase m k).Sublist m := by
  induction m with
  | nil => simp [derase]
  | cons hd tl ih =>
    by_cases hk : hd.1 = k
    · rw [derase, if_pos hk]
      exact List.sublist_cons_self hd tl
    · rw [derase, if_neg hk]
      exact ih.cons₂ hd

theorem dkeys_nodup_derase {α : Type} {m : List (Int × α)} (k : Int)
    (h : (dkeys m).Nodup) : (dkeys (derase m k)).Nodup := by
  exact h.sublist ((derase_sublist m k).map Prod.fst)

/-! Facts about `lremove` (Python `list.remove`). -/

theorem lremove_isSome_iff {α : Type} [DecidableEq α] (l : List α) (a : α) :
    (lremove l a).isSome = true ↔ a ∈ l := by
  induction l with
  | nil => simp [lremove]
  | cons hd tl ih =>
    by_cases h : hd = a
    · simp [lremove, h]
    · rw [lremove, if_neg h]
      have hmap : (Option.map (fun l => hd :: l) (lremove tl a)).isSome = (lremove tl a).isSome := by
        cases lremove tl a <;> rfl
      rw [hmap, ih, List.mem_cons]
      constructor
      · exact fun hmem => Or.inr hmem
      · exact fun hor => hor.resolve_left fun ha => h ha.symm

theorem lremove_perm {α : Type} [DecidableEq α] {l l2 : List α} {a : α}
    (h : lremove l a = some l2) : l.Perm (a :: l2) := by
  induction l generalizing l2 with
  | nil => simp [lremove] at h
  | cons hd tl ih =>
    by_cases hd_eq : hd = a
    · rw [lremove, if_pos hd_eq] at h
      cases h
      exact hd_eq ▸ List.Perm.refl _
    · rw [lremove, if_neg hd_eq] at h
      rcases htl : lremove tl a with _ | tl2
      · rw [htl] at h; simp at h
      · rw [htl] at h
        simp only [Option.map] at h
        cases h
        have h1 : (hd :: tl).Perm (hd :: a :: tl2) := (ih htl).cons hd
        have h2 : (hd :: a :: tl2).Perm (a :: hd :: tl2) := List.Perm.swap a hd tl2
        exact h1.trans h2

theorem lremove_sublist {α : Type} [DecidableEq α] {l l2 : List α} {a : α}
    (h : lremove l a = some l2) : l2.Sublist l := by
  induction l generalizing l2 with
  | nil => simp [lremove] at h
  | cons hd tl ih =>
    by_cases hd_eq : hd = a
    · rw [lremove, if_pos hd_eq] at h
      cases h
      exact List.sublist_cons_self hd tl
    · rw [lremove, if_neg hd_eq] at h
      rcases htl : lremove tl a with _ | tl2
      · rw [htl] at h; simp at h
      · rw [htl] at h
        simp only [Option.map] at h
        cases h
        exact (ih htl).cons₂ hd

theorem lremove_mem_of_ne {α : Type} [DecidableEq α] {l l2 : List α} {a x : α}
    (h : lremove l a = some l2) (hx : x ≠ a) : x ∈ l ↔ x ∈ l2 := by
  have hp := lremove_perm h
  constructor
  · intro hmem
    have hmem2 := hp.mem_iff.mp hmem
    simp only [List.mem_cons] at hmem2
    exact hmem2.resolve_left hx
  · intro hmem
    exact hp.mem_iff.mpr (List.mem_cons_of_mem a hmem)

/-! ### Reachable states and the structural invariant -/

/-- Graph states reachable through the class API.  A failed operation
(`KeyError` in `deleteEdge`/`deleteVertex`, `VertexError` in `addVertex`)
raises before mutating anything, so only successful operations appear. -/
inductive Reachable : Graph → Prop
  | init : Reachable emptyGraph
  | addE {g : Graph} (edge : Edge) : Reachable g → Reachable (addEdge g edge)
  | delE {g g' : Graph} (n : Int) : Reachable g → deleteEdge g n = some g' → Reachable g'
  | addV {g g' : Graph} (n : Int) : Reachable g → addVertex g n = some g' → Reachable g'
  | delV {g g' : Graph} (n : Int) : Reachable g → deleteVertex g n = some g' → Reachable g'

/-- Graph states reachable without ever calling `deleteEdge`. -/
inductive ReachableNoDeleteEdge : Graph → Prop
  | init : ReachableNoDeleteEdge emptyGraph
  | addE {g : Graph} (edge : Edge) : ReachableNoDeleteEdge g → ReachableNoDeleteEdge (addEdge g edge)
  | addV {g g' : Graph} (n : Int) :
      ReachableNoDeleteEdge g → addVertex g n = some g' → ReachableNoDeleteEdge g'
  | delV {g g' : Graph} (n : Int) :
      ReachableNoDeleteEdge g → deleteVertex g n = some g' → ReachableNoDeleteEdge g'

/-- Adjacency list of a vertex (`parentIndex`, empty when absent). -/
def pIdxList (g : Graph) (v : Int) : List Int :=
  (dlookup g.parentIndex v).getD []

/-- Adjacency-with-edge-number list of a vertex (`parentEdgeIndex`). -/
def peiList (g : Graph) (v : Int) : List (Int × Int) :=
  (dlookup g.parentEdgeIndex v).getD []

/-- Value of a degree counter, an absent entry counting as zero. -/
def counterVal (m : List (Int × Int)) (k : Int) : Int :=
  (dlookup m k).getD 0

/-- Structural invariant of every reachable graph state. -/
structure GraphInv (g : Graph) : Prop where
  edgeKeysNodup : (dkeys g.edgeIndex).Nodup
  edgeKeysLe : ∀ e : Int, (dlookup g.edgeIndex e).isSome = true → e ≤ g.lastEdgeNumber
  peiSndLe : ∀ a : Int, ∀ p ∈ peiList g a, p.2 ≤ g.lastEdgeNumber
  outDeg : ∀ v : Int,
    (dlookup g.outDegreeCount v).isSome = true → (dlookup g.degreeCount v).isSome = true
  inDeg : ∀ v : Int,
    (dlookup g.inDegreeCount v).isSome = true → (dlookup g.degreeCount v).isSome = true
  coherent : ∀ a b e : Int, ((b, e) ∈ peiList g a ↔
    (∃ ed, dlookup g.edgeIndex e = some ed ∧ ed.startVertex.vertexNumber = a ∧
      ed.endVertex.vertexNumber = b))
  sndNodup : ∀ a : Int, ((peiList g a).map Prod.snd).Nodup
  adjPerm : ∀ a : Int, (pIdxList g a).Perm ((peiList g a).map Prod.fst)
  domEq : ∀ v : Int, (dlookup g.parentIndex v).isSome = (dlookup g.parentEdgeIndex v).isSome

theorem inv_empty : GraphInv emptyGraph := by
  constructor <;> simp [emptyGraph, dlookup, dkeys, peiList, pIdxList]

/-! Unfolding equations for `addEdge`. -/

theorem addEdge_lastEdgeNumber (g : Graph) (edge : Edge) :
    (addEdge g edge).lastEdgeNumber = g.lastEdgeNumber + 1 := rfl

theorem addEdge_edgeIndex (g : Graph) (edge : Edge) :
    (addEdge g edge).edgeIndex = dset g.edgeIndex (g.lastEdgeNumber + 1) edge := rfl

theorem addEdge_parentIndex (g : Graph) (edge : Edge) :
    (addEdge g edge).parentIndex =
      dset g.parentIndex edge.startVertex.vertexNumber
        (pIdxList g edge.startVertex.vertexNumber ++ [edge.endVertex.vertexNumber]) := by
  show (match dlookup g.parentIndex edge.startVertex.vertexNumber with
    | none => dset g.parentIndex edge.startVertex.vertexNumber [edge.endVertex.vertexNumber]
    | some l =>
      dset g.parentIndex edge.startVertex.vertexNumber (l ++ [edge.endVertex.vertexNumber])) = _
  rcases h : dlookup g.parentIndex edge.startVertex.vertexNumber with _ | l <;>
    simp [pIdxList, h]

theorem addEdge_parentEdgeIndex (g : Graph) (edge : Edge) :
    (addEdge g edge).parentEdgeIndex =
      dset g.parentEdgeIndex edge.startVertex.vertexNumber
        (peiList g edge.startVertex.vertexNumber ++
          [(edge.endVertex.vertexNumber, g.lastEdgeNumber + 1)]) := by
  show (match dlookup g.parentEdgeIndex edge.startVertex.vertexNumber with
    | none => dset g.parentEdgeIndex edge.startVertex.vertexNumber
        [(edge.endVertex.vertexNumber, g.lastEdgeNumber + 1)]
    | some l => dset g.parentEdgeIndex edge.startVertex.vertexNumber
        (l ++ [(edge.endVertex.vertexNumber, g.lastEdgeNumber + 1)])) = _
  rcases h : dlookup g.parentEdgeIndex edge.startVertex.vertexNumber with _ | l <;>
    simp [peiList, h]

theorem addEdge_outDegreeCount (g : Graph) (edge : Edge) :
    (addEdge g edge).outDegreeCount =
      (bumpCounters g.outDegreeCount g.degreeCount edge.startVertex.vertexNumber).1 := rfl

theorem addEdge_inDegreeCount (g : Graph) (edge : Edge) :
    (addEdge g edge).inDegreeCount =
      (bumpCounters g.inDegreeCount
        (bumpCounters g.outDegreeCount g.degreeCount edge.startVertex.vertexNumber).2
        edge.endVertex.vertexNumber).1 := rfl

theorem addEdge_degreeCount (g : Graph) (edge : Edge) :
    (addEdge g edge).degreeCount =
      (bumpCounters g.inDegreeCount
        (bumpCounters g.outDegreeCount g.degreeCount edge.startVertex.vertexNumber).2
        edge.endVertex.vertexNumber).2 := rfl

theorem addEdge_vertexIndex_mem (g : Graph) (edge : Edge)
    (hs : (dlookup g.vertexIndex edge.startVertex.vertexNumber).isSome = true)
    (he : (dlookup g.vertexIndex edge.endVertex.vertexNumber).isSome = true) :
    (addEdge g edge).vertexIndex = g.vertexIndex := by
  show (let vi :=
      if dmem g.vertexIndex edge.startVertex.vertexNumber then g.vertexIndex
      else dset g.vertexIndex edge.startVertex.vertexNumber edge.startVertex
    if dmem vi edge.endVertex.vertexNumber then vi
    else dset vi edge.endVertex.vertexNumber edge.endVertex) = g.vertexIndex
  simp [dmem, hs, he]

/-! Behaviour of the counter helpers. -/

theorem bumpCounters_fst_ne (p t : List (Int × Int)) (k k' : Int) (h : k' ≠ k) :
    dlookup (bumpCounters p t k).1 k' = dlookup p k' := by
  unfold bumpCounters
  rcases dlookup p k with _ | a
  · simp [dlookup_dset_ne _ _ h]
  · rcases dlookup t k with _ | b <;> simp [dlookup_dset_ne _ _ h]

theorem bumpCounters_snd_ne (p t : List (Int × Int)) (k k' : Int) (h : k' ≠ k) :
    dlookup (bumpCounters p t k).2 k' = dlookup t k' := by
  unfold bumpCounters
  rcases dlookup p k with _ | a
  · simp [dlookup_dset_ne _ _ h]
  · rcases dlookup t k with _ | b <;> simp [dlookup_dset_ne _ _ h]

theorem bumpCounters_fst_self (p t : List (Int × Int)) (k : Int) :
    (dlookup (bumpCounters p t k).1 k).isSome = true := by
  unfold bumpCounters
  rcases dlookup p k with _ | a
  · simp [dlookup_dset_self]
  · rcases dlookup t k with _ | b <;> simp [dlookup_dset_self]

theorem bumpCounters_snd_self (p t : List (Int × Int)) (k : Int) :
    (dlookup (bumpCounters p t k).2 k).isSome = true := by
  unfold bumpCounters
  rcases dlookup p k with _ | a
  · simp [dlookup_dset_self]
  · rcases dlookup t k with _ | b <;> simp [dlookup_dset_self]

theorem bumpCounters_snd_isSome (p t : List (Int × Int)) (k v : Int)
    (h : (dlookup t v).isSome = true) : (dlookup (bumpCounters p t k).2 v).isSome = true := by
  by_cases hv : v = k
  · subst hv; exact bumpCounters_snd_self p t v
  · rw [bumpCounters_snd_ne p t k v hv]; exact h

theorem dropCounters_fst_ne (p t : List (Int × Int)) (k k' : Int) (h : k' ≠ k) :
    dlookup (dropCounters p t k).1 k' = dlookup p k' := by
  unfold dropCounters
  rcases dlookup p k with _ | a
  · simp
  · rcases dlookup t k with _ | b <;> simp [dlookup_dset_ne _ _ h]

theorem dropCounters_snd_ne (p t : List (Int × Int)) (k k' : Int) (h : k' ≠ k) :
    dlookup (dropCounters p t k).2 k' = dlookup t k' := by
  unfold dropCounters
  rcases dlookup p k with _ | a
  · simp
  · rcases dlookup t k with _ | b <;> simp [dlookup_dset_ne _ _ h]

theorem dropCounters_fst_isSome (p t : List (Int × Int)) (k v : Int) :
    (dlookup (dropCounters p t k).1 v).isSome = (dlookup p v).isSome := by
  by_cases hv : v = k
  · subst hv
    unfold dropCounters
    rcases hp : dlookup p v with _ | a
    · simp [hp]
    · rcases dlookup t v with _ | b <;> simp [dlookup_dset_self, hp]
  · rw [dropCounters_fst_ne p t k v hv]

theorem dropCounters_snd_isSome (p t : List (Int × Int)) (k v : Int) :
    (dlookup (dropCounters p t k).2 v).isSome = (dlookup t v).isSome := by
  by_cases hv : v = k
  · subst hv
    unfold dropCounters
    rcases hp : dlookup p v with _ | a
    · simp
    · rcases ht : dlookup t v with _ | b <;> simp [dlookup_dset_self, ht]
  · rw [dropCounters_snd_ne p t k v hv]

/-! Adjacency lists after `addEdge`. -/

theorem pIdxList_addEdge_self (g : Graph) (edge : Edge) :
    pIdxList (addEdge g edge) edge.startVertex.vertexNumber =
      pIdxList g edge.startVertex.vertexNumber ++ [edge.endVertex.vertexNumber] := by
  rw [pIdxList, addEdge_parentIndex, dlookup_dset_self]
  rfl

theorem pIdxList_addEdge_ne (g : Graph) (edge : Edge) {x : Int}
    (h : x ≠ edge.startVertex.vertexNumber) :
    pIdxList (addEdge g edge) x = pIdxList g x := by
  rw [pIdxList, addEdge_parentIndex, dlookup_dset_ne _ _ h]
  rfl

theorem peiList_addEdge_self (g : Graph) (edge : Edge) :
    peiList (addEdge g edge) edge.startVertex.vertexNumber =
      peiList g edge.startVertex.vertexNumber ++
        [(edge.endVertex.vertexNumber, g.lastEdgeNumber + 1)] := by
  rw [peiList, addEdge_parentEdgeIndex, dlookup_dset_self]
  rfl

theorem peiList_addEdge_ne (g : Graph) (edge : Edge) {x : Int}
    (h : x ≠ edge.startVertex.vertexNumber) :
    peiList (addEdge g edge) x = peiList g x := by
  rw [peiList, addEdge_parentEdgeIndex, dlookup_dset_ne _ _ h]
  rfl

theorem mem_peiList_isSome {g : Graph} {x : Int} {p : Int × Int} (h : p ∈ peiList g x) :
    (dlookup g.parentEdgeIndex x).isSome = true := by
  rw [peiList] at h
  rcases hl : dlookup g.parentEdgeIndex x with _ | l
  · rw [hl] at h; simp at h
  · rfl

/-- Invariant preservation by `addEdge`. -/
theorem inv_addEdge {g : Graph} (hinv : GraphInv g) (edge : Edge) :
    GraphInv (addEdge g edge) := by
  have hfresh : dlookup g.edgeIndex (g.lastEdgeNumber + 1) = none := by
    rcases he : dlookup g.edgeIndex (g.lastEdgeNumber + 1) with _ | ed
    · rfl
    · have := hinv.edgeKeysLe (g.lastEdgeNumber + 1) (by rw [he]; rfl)
      omega
  constructor
  · rw [addEdge_edgeIndex]
    exact dkeys_nodup_dset edge hinv.edgeKeysNodup
  · intro e he
    rw [addEdge_lastEdgeNumber]
    by_cases h : e = g.lastEdgeNumber + 1
    · omega
    · rw [addEdge_edgeIndex, dlookup_dset_ne _ _ h] at he
      have := hinv.edgeKeysLe e he
      omega
  · intro x p hp
    rw [addEdge_lastEdgeNumber]
    by_cases hx : x = edge.startVertex.vertexNumber
    · subst hx
      rw [peiList_addEdge_self] at hp
      rcases List.mem_append.mp hp with h | h
      · have := hinv.peiSndLe _ p h; omega
      · simp at h
        subst h
        simp
    · rw [peiList_addEdge_ne g edge hx] at hp
      have := hinv.peiSndLe x p hp
      omega
  · intro v hv
    rw [addEdge_degreeCount]
    by_cases ha : v = edge.startVertex.vertexNumber
    · subst ha
      exact bumpCounters_snd_isSome _ _ _ _ (bumpCounters_snd_self _ _ _)
    · rw [addEdge_outDegreeCount, bumpCounters_fst_ne _ _ _ _ ha] at hv
      exact bumpCounters_snd_isSome _ _ _ _ (bumpCounters_snd_isSome _ _ _ _ (hinv.outDeg v hv))
  · intro v hv
    rw [addEdge_degreeCount]
    by_cases hb : v = edge.endVertex.vertexNumber
    · subst hb
      exact bumpCounters_snd_self _ _ _
    · rw [addEdge_inDegreeCount, bumpCounters_fst_ne _ _ _ _ hb] at hv
      exact bumpCounters_snd_isSome _ _ _ _ (bumpCounters_snd_isSome _ _ _ _ (hinv.inDeg v hv))
  · intro x y e
    by_cases hx : x = edge.startVertex.vertexNumber
    · subst hx
      rw [peiList_addEdge_self, addEdge_edgeIndex]
      by_cases he : e = g.lastEdgeNumber + 1
      · subst he
        rw [dlookup_dset_self]
        constructor
        · intro hmem
          rcases List.mem_append.mp hmem with h | h
          · have := hinv.peiSndLe _ _ h
            simp at this
          · simp at h
            exact ⟨edge, rfl, rfl, h.symm⟩
        · rintro ⟨ed, hed, hs, hb⟩
          cases hed
          simp [← hb]
      · rw [dlookup_dset_ne _ _ he]
        constructor
        · intro hmem
          rcases List.mem_append.mp hmem with h | h
          · exact (hinv.coherent _ y e).mp h
          · simp at h
            exact absurd h.2 he
        · intro hex
          exact List.mem_append.mpr (Or.inl ((hinv.coherent _ y e).mpr hex))
    · rw [peiList_addEdge_ne g edge hx, addEdge_edgeIndex]
      by_cases he : e = g.lastEdgeNumber + 1
      · subst he
        rw [dlookup_dset_self]
        constructor
        · intro hmem
          have := hinv.peiSndLe x _ hmem
          simp at this
        · rintro ⟨ed, hed, hs, hb⟩
          cases hed
          exact absurd hs.symm hx
      · rw [dlookup_dset_ne _ _ he]
        exact hinv.coherent x y e
  · intro x
    by_cases hx : x = edge.startVertex.vertexNumber
    · subst hx
      rw [peiList_addEdge_self, List.map_append]
      refine List.Nodup.append (hinv.sndNodup _) (by simp) ?_
      intro s hs hs'
      simp at hs'
      subst hs'
      rcases List.mem_map.mp hs with ⟨p, hp, hps⟩
      have := hinv.peiSndLe _ p hp
      omega
    · rw [peiList_addEdge_ne g edge hx]
      exact hinv.sndNodup x
  · intro x
    by_cases hx : x = edge.startVertex.vertexNumber
    · subst hx
      rw [peiList_addEdge_self, pIdxList_addEdge_self, List.map_append]
      exact (hinv.adjPerm _).append (by simp)
    · rw [peiList_addEdge_ne g edge hx, pIdxList_addEdge_ne g edge hx]
      exact hinv.adjPerm x
  · intro v
    by_cases hv : v = edge.startVertex.vertexNumber
    · subst hv
      rw [addEdge_parentIndex, addEdge_parentEdgeIndex, dlookup_dset_self, dlookup_dset_self]
      rfl
    · rw [addEdge_parentIndex, addEdge_parentEdgeIndex,
        dlookup_dset_ne _ _ hv, dlookup_dset_ne _ _ hv]
      exact hinv.domEq v

/-- Characterization of a successful `deleteEdge` under the invariant: both
`remove` calls find their entry and the resulting state is explicit. -/
theorem deleteEdge_spec {g : Graph} (hinv : GraphInv g) {n : Int} {ed : Edge}
    (hed : dlookup g.edgeIndex n = some ed) :
    ∃ pl2 el2,
      lremove (pIdxList g ed.startVertex.vertexNumber) ed.endVertex.vertexNumber = some pl2 ∧
      lremove (peiList g ed.startVertex.vertexNumber) (ed.endVertex.vertexNumber, n) = some el2 ∧
      deleteEdge g n = some
        { edgeIndex := derase g.edgeIndex n
          vertexIndex := g.vertexIndex
          parentIndex := dset g.parentIndex ed.startVertex.vertexNumber pl2
          parentEdgeIndex := dset g.parentEdgeIndex ed.startVertex.vertexNumber el2
          lastEdgeNumber := g.lastEdgeNumber
          inDegreeCount := (dropCounters g.inDegreeCount
            (dropCounters g.outDegreeCount g.degreeCount ed.startVertex.vertexNumber).2
            ed.endVertex.vertexNumber).1
          outDegreeCount :=
            (dropCounters g.outDegreeCount g.degreeCount ed.startVertex.vertexNumber).1
          degreeCount := (dropCounters g.inDegreeCount
            (dropCounters g.outDegreeCount g.degreeCount ed.startVertex.vertexNumber).2
            ed.endVertex.vertexNumber).2 } := by
  have hmem : (ed.endVertex.vertexNumber, n) ∈ peiList g ed.startVertex.vertexNumber :=
    (hinv.coherent _ _ n).mpr ⟨ed, hed, rfl, rfl⟩
  have hpeiSome := mem_peiList_isSome hmem
  have hpidxSome : (dlookup g.parentIndex ed.startVertex.vertexNumber).isSome = true := by
    rw [hinv.domEq]; exact hpeiSome
  have hbmem : ed.endVertex.vertexNumber ∈ pIdxList g ed.startVertex.vertexNumber := by
    refine (hinv.adjPerm _).mem_iff.mpr ?_
    exact List.mem_map.mpr ⟨_, hmem, rfl⟩
  obtain ⟨pl2, hpl2⟩ := Option.isSome_iff_exists.mp
    ((lremove_isSome_iff _ _).mpr hbmem)
  obtain ⟨el2, hel2⟩ := Option.isSome_iff_exists.mp
    ((lremove_isSome_iff _ _).mpr hmem)
  refine ⟨pl2, el2, hpl2, hel2, ?_⟩
  obtain ⟨pl, hpl⟩ := Option.isSome_iff_exists.mp hpidxSome
  obtain ⟨el, hel⟩ := Option.isSome_iff_exists.mp hpeiSome
  have hplL : pIdxList g ed.startVertex.vertexNumber = pl := by rw [pIdxList, hpl]; rfl
  have helL : peiList g ed.startVertex.vertexNumber = el := by rw [peiList, hel]; rfl
  rw [hplL] at hpl2
  rw [helL] at hel2
  show deleteEdge g n = _
  rw [deleteEdge, hed]
  simp only [hpl, hel, hpl2, hel2, Option.map]

/-- Invariant preservation by a successful `deleteEdge`. -/
theorem inv_deleteEdge {g g' : Graph} (hinv : GraphInv g) {n : Int}
    (h : deleteEdge g n = some g') : GraphInv g' := by
  rcases hed : dlookup g.edgeIndex n with _ | ed
  · rw [deleteEdge, hed] at h
    simp at h
  obtain ⟨pl2, el2, hpl2, hel2, heq⟩ := deleteEdge_spec hinv hed
  rw [heq] at h
  cases h
  have hpermP := lremove_perm hpl2
  have hpermE := lremove_perm hel2
  have hsubE := lremove_sublist hel2
  have hsndNew : ∀ y : Int, (y, n) ∉ el2 := by
    intro y hy
    have h1 : ((peiList g ed.startVertex.vertexNumber).map Prod.snd).Perm
        (n :: el2.map Prod.snd) := by
      have := hpermE.map Prod.snd
      simpa using this
    have h2 : (n :: el2.map Prod.snd).Nodup := h1.nodup_iff.mp (hinv.sndNodup _)
    have h3 : n ∉ el2.map Prod.snd := (List.nodup_cons.mp h2).1
    exact h3 (List.mem_map.mpr ⟨_, hy, rfl⟩)
  have hpeiL : ∀ x : Int, x ≠ ed.startVertex.vertexNumber →
      peiList { g with
        edgeIndex := derase g.edgeIndex n
        parentIndex := dset g.parentIndex ed.startVertex.vertexNumber pl2
        parentEdgeIndex := dset g.parentEdgeIndex ed.startVertex.vertexNumber el2
        inDegreeCount := (dropCounters g.inDegreeCount
          (dropCounters g.outDegreeCount g.degreeCount ed.startVertex.vertexNumber).2
          ed.endVertex.vertexNumber).1
        outDegreeCount :=
          (dropCounters g.outDegreeCount g.degreeCount ed.startVertex.vertexNumber).1
        degreeCount := (dropCounters g.inDegreeCount
          (dropCounters g.outDegreeCount g.degreeCount ed.startVertex.vertexNumber).2
          ed.endVertex.vertexNumber).2 } x = peiList g x := by
    intro x hx
    rw [peiList, peiList]
    show (dlookup (dset g.parentEdgeIndex ed.startVertex.vertexNumber el2) x).getD [] = _
    rw [dlookup_dset_ne _ _ hx]
  constructor
  · exact dkeys_nodup_derase n hinv.edgeKeysNodup
  · intro e he
    by_cases hne : e = n
    · subst hne
      rw [show ({ g with
          edgeIndex := derase g.edgeIndex e
          parentIndex := dset g.parentIndex ed.startVertex.vertexNumber pl2
          parentEdgeIndex := dset g.parentEdgeIndex ed.startVertex.vertexNumber el2
          inDegreeCount := (dropCounters g.inDegreeCount
            (dropCounters g.outDegreeCount g.degreeCount ed.startVertex.vertexNumber).2
            ed.endVertex.vertexNumber).1
          outDegreeCount :=
            (dropCounters g.outDegreeCount g.degreeCount ed.startVertex.vertexNumber).1
          degreeCount := (dropCounters g.inDegreeCount
            (dropCounters g.outDegreeCount g.degreeCount ed.startVertex.vertexNumber).2
            ed.endVertex.vertexNumber).2 } : Graph).edgeIndex = derase g.edgeIndex e from rfl,
        dlookup_derase_self hinv.edgeKeysNodup] at he
      simp at he
    · have : dlookup (derase g.edgeIndex n) e = dlookup g.edgeIndex e :=
        dlookup_derase_ne _ hne
      rw [show ({ g with
          edgeIndex := derase g.edgeIndex n
          parentIndex := dset g.parentIndex ed.startVertex.vertexNumber pl2
          parentEdgeIndex := dset g.parentEdgeIndex ed.startVertex.vertexNumber el2
          inDegreeCount := (dropCounters g.inDegreeCount
            (dropCounters g.outDegreeCount g.degreeCount ed.startVertex.vertexNumber).2
            ed.endVertex.vertexNumber).1
          outDegreeCount :=
            (dropCounters g.outDegreeCount g.degreeCount ed.startVertex.vertexNumber).1
          degreeCount := (dropCounters g.inDegreeCount
            (dropCounters g.outDegreeCount g.degreeCount ed.startVertex.vertexNumber).2
            ed.endVertex.vertexNumber).2 } : Graph).edgeIndex = derase g.edgeIndex n from rfl,
        this] at he
      exact hinv.edgeKeysLe e he
  · intro x p hp
    by_cases hx : x = ed.startVertex.vertexNumber
    · subst hx
      rw [peiList, show (dlookup (dset g.parentEdgeIndex ed.startVertex.vertexNumber el2)
        ed.startVertex.vertexNumber) = some el2 from dlookup_dset_self _ _ _] at hp
      exact hinv.peiSndLe _ p (hsubE.mem (by exact hp))
    · rw [hpeiL x hx] at hp
      exact hinv.peiSndLe x p hp
  · intro v hv
    rw [show (dlookup ((dropCounters g.inDegreeCount
        (dropCounters g.outDegreeCount g.degreeCount ed.startVertex.vertexNumber).2
        ed.endVertex.vertexNumber).2) v).isSome =
        (dlookup g.degreeCount v).isSome by
      rw [dropCounters_snd_isSome, dropCounters_snd_isSome]]
    rw [show (dlookup ((dropCounters g.outDegreeCount g.degreeCount
        ed.startVertex.vertexNumber).1) v).isSome =
        (dlookup g.outDegreeCount v).isSome from dropCounters_fst_isSome _ _ _ _] at hv
    exact hinv.outDeg v hv
  · intro v hv
    rw [show (dlookup ((dropCounters g.inDegreeCount
        (dropCounters g.outDegreeCount g.degreeCount ed.startVertex.vertexNumber).2
        ed.endVertex.vertexNumber).2) v).isSome =
        (dlookup g.degreeCount v).isSome by
      rw [dropCounters_snd_isSome, dropCounters_snd_isSome]]
    rw [show (dlookup ((dropCounters g.inDegreeCount
        (dropCounters g.outDegreeCount g.degreeCount ed.startVertex.vertexNumber).2
        ed.endVertex.vertexNumber).1) v).isSome =
        (dlookup g.inDegreeCount v).isSome from dropCounters_fst_isSome _ _ _ _] at hv
    exact hinv.inDeg v hv
  · intro x y e
    by_cases hx : x = ed.startVertex.vertexNumber
    · subst hx
      rw [peiList, show (dlookup (dset g.parentEdgeIndex ed.startVertex.vertexNumber el2)
        ed.startVertex.vertexNumber) = some el2 from dlookup_dset_self _ _ _]
      show ((y, e) ∈ el2 ↔ _)
      by_cases hne : e = n
      · subst hne
        constructor
        · intro hy
          exact absurd hy (hsndNew y)
        · rintro ⟨ed2, hed2, hs, hb⟩
          rw [show ({ g with
              edgeIndex := derase g.edgeIndex e
              parentIndex := dset g.parentIndex ed.startVertex.vertexNumber pl2
              parentEdgeIndex := dset g.parentEdgeIndex ed.startVertex.vertexNumber el2
              inDegreeCount := (dropCounters g.inDegreeCount
                (dropCounters g.outDegreeCount g.degreeCount ed.startVertex.vertexNumber).2
                ed.endVertex.vertexNumber).1
              outDegreeCount :=
                (dropCounters g.outDegreeCount g.degreeCount ed.startVertex.vertexNumber).1
              degreeCount := (dropCounters g.inDegreeCount
                (dropCounters g.outDegreeCount g.degreeCount ed.startVertex.vertexNumber).2
                ed.endVertex.vertexNumber).2 } : Graph).edgeIndex = derase g.edgeIndex e
              from rfl, dlookup_derase_self hinv.edgeKeysNodup] at hed2
          simp at hed2
      · have hlift : dlookup (derase g.edgeIndex n) e = dlookup g.edgeIndex e :=
          dlookup_derase_ne _ hne
        have hstep : (y, e) ∈ el2 ↔ (y, e) ∈ peiList g ed.startVertex.vertexNumber := by
          refine Iff.symm (lremove_mem_of_ne hel2 ?_)
          intro hcontra
          exact hne (congrArg Prod.snd hcontra)
        rw [hstep]
        rw [show ({ g with
            edgeIndex := derase g.edgeIndex n
            parentIndex := dset g.parentIndex ed.startVertex.vertexNumber pl2
            parentEdgeIndex := dset g.parentEdgeIndex ed.startVertex.vertexNumber el2
            inDegreeCount := (dropCounters g.inDegreeCount
              (dropCounters g.outDegreeCount g.degreeCount ed.startVertex.vertexNumber).2
              ed.endVertex.vertexNumber).1
            outDegreeCount :=
              (dropCounters g.outDegreeCount g.degreeCount ed.startVertex.vertexNumber).1
            degreeCount := (dropCounters g.inDegreeCount
              (dropCounters g.outDegreeCount g.degreeCount ed.startVertex.vertexNumber).2
              ed.endVertex.vertexNumber).2 } : Graph).edgeIndex = derase g.edgeIndex n
            from rfl, hlift]
        exact hinv.coherent _ y e
    · rw [hpeiL x hx]
      by_cases hne : e = n
      · subst hne
        constructor
        · intro hy
          obtain ⟨ed2, hed2, hs, hb⟩ := (hinv.coherent x y e).mp hy
          rw [hed] at hed2
          cases hed2
          exact absurd hs.symm hx
        · rintro ⟨ed2, hed2, hs, hb⟩
          rw [show ({ g with
              edgeIndex := derase g.edgeIndex e
              parentIndex := dset g.parentIndex ed.startVertex.vertexNumber pl2
              parentEdgeIndex := dset g.parentEdgeIndex ed.startVertex.vertexNumber el2
              inDegreeCount := (dropCounters g.inDegreeCount
                (dropCounters g.outDegreeCount g.degreeCount ed.startVertex.vertexNumber).2
                ed.endVertex.vertexNumber).1
              outDegreeCount :=
                (dropCounters g.outDegreeCount g.degreeCount ed.startVertex.vertexNumber).1
              degreeCount := (dropCounters g.inDegreeCount
                (dropCounters g.outDegreeCount g.degreeCount ed.startVertex.vertexNumber).2
                ed.endVertex.vertexNumber).2 } : Graph).edgeIndex = derase g.edgeIndex e
              from rfl, dlookup_derase_self hinv.edgeKeysNodup] at hed2
          simp at hed2
      · have hlift : dlookup (derase g.edgeIndex n) e = dlookup g.edgeIndex e :=
          dlookup_derase_ne _ hne
        rw [show ({ g with
            edgeIndex := derase g.edgeIndex n
            parentIndex := dset g.parentIndex ed.startVertex.vertexNumber pl2
            parentEdgeIndex := dset g.parentEdgeIndex ed.startVertex.vertexNumber el2
            inDegreeCount := (dropCounters g.inDegreeCount
              (dropCounters g.outDegreeCount g.degreeCount ed.startVertex.vertexNumber).2
              ed.endVertex.vertexNumber).1
            outDegreeCount :=
              (dropCounters g.outDegreeCount g.degreeCount ed.startVertex.vertexNumber).1
            degreeCount := (dropCounters g.inDegreeCount
              (dropCounters g.outDegreeCount g.degreeCount ed.startVertex.vertexNumber).2
              ed.endVertex.vertexNumber).2 } : Graph).edgeIndex = derase g.edgeIndex n
            from rfl, hlift]
        exact hinv.coherent x y e
  · intro x
    by_cases hx : x = ed.startVertex.vertexNumber
    · subst hx
      rw [peiList, show (dlookup (dset g.parentEdgeIndex ed.startVertex.vertexNumber el2)
        ed.startVertex.vertexNumber) = some el2 from dlookup_dset_self _ _ _]
      exact (hinv.sndNodup _).sublist (hsubE.map Prod.snd)
    · rw [hpeiL x hx]
      exact hinv.sndNodup x
  · intro x
    by_cases hx : x = ed.startVertex.vertexNumber
    · subst hx
      rw [peiList, pIdxList,
        show (dlookup (dset g.parentEdgeIndex ed.startVertex.vertexNumber el2)
          ed.startVertex.vertexNumber) = some el2 from dlookup_dset_self _ _ _,
        show (dlookup (dset g.parentIndex ed.startVertex.vertexNumber pl2)
          ed.startVertex.vertexNumber) = some pl2 from dlookup_dset_self _ _ _]
      show pl2.Perm (el2.map Prod.fst)
      have h1 : (pIdxList g ed.startVertex.vertexNumber).Perm
          (ed.endVertex.vertexNumber :: pl2) := hpermP
      have h2 : ((peiList g ed.startVertex.vertexNumber).map Prod.fst).Perm
          (ed.endVertex.vertexNumber :: el2.map Prod.fst) := by
        have := hpermE.map Prod.fst
        simpa using this
      have h3 : (ed.endVertex.vertexNumber :: pl2).Perm
          (ed.endVertex.vertexNumber :: el2.map Prod.fst) :=
        (h1.symm.trans (hinv.adjPerm _)).trans h2
      exact h3.cons_inv
    · rw [hpeiL x hx]
      rw [pIdxList, show ({ g with
          edgeIndex := derase g.edgeIndex n
          parentIndex := dset g.parentIndex ed.startVertex.vertexNumber pl2
          parentEdgeIndex := dset g.parentEdgeIndex ed.startVertex.vertexNumber el2
          inDegreeCount := (dropCounters g.inDegreeCount
            (dropCounters g.outDegreeCount g.degreeCount ed.startVertex.vertexNumber).2
            ed.endVertex.vertexNumber).1
          outDegreeCount :=
            (dropCounters g.outDegreeCount g.degreeCount ed.startVertex.vertexNumber).1
          degreeCount := (dropCounters g.inDegreeCount
            (dropCounters g.outDegreeCount g.degreeCount ed.startVertex.vertexNumber).2
            ed.endVertex.vertexNumber).2 } : Graph).parentIndex =
          dset g.parentIndex ed.startVertex.vertexNumber pl2 from rfl,
        dlookup_dset_ne _ _ hx]
      exact hinv.adjPerm x
  · intro v
    by_cases hv : v = ed.startVertex.vertexNumber
    · subst hv
      show (dlookup (dset g.parentIndex ed.startVertex.vertexNumber pl2)
          ed.startVertex.vertexNumber).isSome =
        (dlookup (dset g.parentEdgeIndex ed.startVertex.vertexNumber el2)
          ed.startVertex.vertexNumber).isSome
      rw [dlookup_dset_self, dlookup_dset_self]
      rfl
    · show (dlookup (dset g.parentIndex ed.startVertex.vertexNumber pl2) v).isSome =
        (dlookup (dset g.parentEdgeIndex ed.startVertex.vertexNumber el2) v).isSome
      rw [dlookup_dset_ne _ _ hv, dlookup_dset_ne _ _ hv]
      exact hinv.domEq v

/-- Operations that only touch `vertexIndex` preserve the invariant. -/
theorem inv_addVertex {g g' : Graph} (hinv : GraphInv g) {n : Int}
    (h : addVertex g n = some g') : GraphInv g' := by
  rw [addVertex] at h
  rcases hv : dlookup g.vertexIndex n with _ | v
  · rw [hv] at h
    cases h
    exact { hinv with }
  · rw [hv] at h
    simp at h

theorem inv_deleteVertex {g g' : Graph} (hinv : GraphInv g) {n : Int}
    (h : deleteVertex g n = some g') : GraphInv g' := by
  rw [deleteVertex] at h
  rcases hv : dlookup g.vertexIndex n with _ | v
  · rw [hv] at h
    simp at h
  · rw [hv] at h
    cases h
    exact { hinv with }

/-- Every reachable state satisfies the structural invariant. -/
theorem reachable_inv {g : Graph} (h : Reachable g) : GraphInv g := by
  induction h with
  | init => exact inv_empty
  | addE edge _ ih => exact inv_addEdge ih edge
  | delE n _ heq ih => exact inv_deleteEdge ih heq
  | addV n _ heq ih => exact inv_addVertex ih heq
  | delV n _ heq ih => exact inv_deleteVertex ih heq

/-! Value-level behaviour of the counter helpers on present keys. -/

theorem bumpCounters_eq_of_some {p t : List (Int × Int)} {k x y : Int}
    (hp : dlookup p k = some x) (ht : dlookup t k = some y) :
    bumpCounters p t k = (dset p k (x + 1), dset t k (y + 1)) := by
  unfold bumpCounters
  rw [hp, ht]

theorem dropCounters_eq_of_some {p t : List (Int × Int)} {k x y : Int}
    (hp : dlookup p k = some x) (ht : dlookup t k = some y) :
    dropCounters p t k = (dset p k (x - 1), dset t k (y - 1)) := by
  unfold dropCounters
  rw [hp, ht]

/-! ### Concrete states used in the claim analyses -/

/-- Convenience constructor for a concrete edge. -/
def mkEdge (a b : Int) : Edge := ⟨⟨a⟩, ⟨b⟩⟩

/-- Graph with the single edge 0 → 1 (edge number 0). -/
def gEdge01 : Graph := addEdge emptyGraph (mkEdge 0 1)

/-- State after adding edge 0 → 1 to the empty graph and deleting it again. -/
def gEdge01Deleted : Graph := (deleteEdge gEdge01 0).getD emptyGraph

/-- Graph with the single self-loop 0 → 0 (edge number 0). -/
def gSelfLoop : Graph := addEdge emptyGraph (mkEdge 0 0)

/-- State after adding the self-loop 0 → 0 and deleting it again. -/
def gSelfLoopDeleted : Graph := (deleteEdge gSelfLoop 0).getD emptyGraph

/-- Graph with interleaved parallel edges 0→2, 0→1, 0→2, 0→1 (numbers 0-3). -/
def gParallel : Graph :=
  addEdge (addEdge (addEdge (addEdge emptyGraph
    (mkEdge 0 2)) (mkEdge 0 1)) (mkEdge 0 2)) (mkEdge 0 1)

/-- State after deleting edge number 3 (the second 0 → 1) from `gParallel`. -/
def gParallelDeleted : Graph := (deleteEdge gParallel 3).getD emptyGraph

/-! ### Claim C2 -/

/-- Claim C2 (code bug): the invariant `degreeCount[v] = inDegreeCount[v] +
outDegreeCount[v]` fails in a reachable state.  Adding a self-loop on a fresh
vertex runs the in-degree `except KeyError` handler, which resets
`degreeCount[0]` to 1 although the out-degree block had already counted the
edge: the state after `addEdge(Edge(0,0))` has `degreeCount[0] = 1` but
`inDegreeCount[0] + outDegreeCount[0] = 2`. -/
theorem degreeCount_not_sum_after_selfLoop :
    Reachable gSelfLoop ∧
    counterVal gSelfLoop.degreeCount 0 = 1 ∧
    counterVal gSelfLoop.inDegreeCount 0 = 1 ∧
    counterVal gSelfLoop.outDegreeCount 0 = 1 ∧
    counterVal gSelfLoop.degreeCount 0 ≠
      counterVal gSelfLoop.inDegreeCount 0 + counterVal gSelfLoop.outDegreeCount 0 :=
  ⟨Reachable.addE _ Reachable.init, by decide, by decide, by decide, by decide⟩

/-! ### Claim C6 -/

/-- Claim C6 (code bug): on the graph with the single edge 0 → 1,
`getOutNeighbors(0)` returns the start vertex 0 itself (the source appends
`edge.startVertex` instead of `edge.endVertex`), and `getInNeighbors(1)`
raises a `NameError` because its body references the unbound name
`endVertex`. -/
theorem neighbors_queries_wrong :
    getOutNeighbors gEdge01 0 = [⟨0⟩] ∧
    getOutNeighbors gEdge01 0 ≠ [⟨1⟩] ∧
    getInNeighbors gEdge01 1 = Except.error "NameError: endVertex" :=
  ⟨by decide, by decide, rfl⟩

/-! ### Claim C8 -/

/-- Claim C8 (code bug): `getVerticesByOutDegree` reads `__inDegreeCount`
(line 363 of the source).  On the graph with the single edge 0 → 1 the call
`getVerticesByOutDegree(1)` returns vertex 1 — whose out-degree counter is
absent (0) — and not vertex 0, the only vertex with out-degree 1. -/
theorem getVerticesByOutDegree_scans_inDegree :
    getVerticesByOutDegree gEdge01 1 = Except.ok [⟨1⟩] ∧
    counterVal gEdge01.outDegreeCount 1 = 0 ∧
    counterVal gEdge01.outDegreeCount 0 = 1 :=
  ⟨rfl, by decide, by decide⟩

/-! ### Claim C9 -/

/-- Claim C9 (code bug): no `InvariantViolationError` exists in the source and
`deleteEdge` decrements counters blindly.  Adding the self-loop 0 → 0 (which
leaves `degreeCount[0] = 1` because of the C2 reset bug) and then deleting it
silently stores `degreeCount[0] = -1`. -/
theorem deleteEdge_stores_negative_degree :
    Reachable gSelfLoopDeleted ∧
    deleteEdge gSelfLoop 0 = some gSelfLoopDeleted ∧
    dlookup gSelfLoopDeleted.degreeCount 0 = some (-1) :=
  ⟨Reachable.delE 0 (Reachable.addE (mkEdge 0 0) Reachable.init)
      (by decide : deleteEdge gSelfLoop 0 = some gSelfLoopDeleted),
    by decide, by decide⟩

/-! ### Claim C7 -/

/-- Claim C7, counterexample: after `addEdge(Edge(0,1)); deleteEdge(0)` both
vertices have total degree 0, yet `getDegreeDistribution` returns the
non-empty table `{0: 2}` — the zero-degree vertices contribute entries,
because `deleteEdge` leaves zero-valued entries in `degreeCount`. -/
theorem getDegreeDistribution_zeroDegree_contributes :
    deleteEdge gEdge01 0 = some gEdge01Deleted ∧
    counterVal gEdge01Deleted.degreeCount 0 = 0 ∧
    counterVal gEdge01Deleted.degreeCount 1 = 0 ∧
    getDegreeDistribution gEdge01Deleted = [(0, 2)] :=
  ⟨by decide, by decide, by decide, by decide⟩

theorem mem_dset_elim {α : Type} {m : List (Int × α)} {k : Int} {v : α} {kv : Int × α}
    (h : kv ∈ dset m k v) : kv ∈ m ∨ kv = (k, v) := by
  induction m with
  | nil => simpa [dset] using h
  | cons hd tl ih =>
    by_cases hk : hd.1 = k
    · rw [dset, if_pos hk] at h
      rcases List.mem_cons.mp h with h | h
      · right; rw [h, hk]
      · left; exact List.mem_cons_of_mem hd h
    · rw [dset, if_neg hk] at h
      rcases List.mem_cons.mp h with h | h
      · left; rw [h]; exact List.mem_cons_self hd tl
      · rcases ih h with h | h
        · left; exact List.mem_cons_of_mem hd h
        · right; exact h

theorem dlookup_mem {α : Type} {m : List (Int × α)} {k : Int} {v : α}
    (h : dlookup m k = some v) : (k, v) ∈ m := by
  induction m with
  | nil => simp [dlookup] at h
  | cons hd tl ih =>
    obtain ⟨k0, v0⟩ := hd
    by_cases hk : k0 = k
    · rw [dlookup, if_pos hk] at h
      cases h
      subst hk
      exact List.mem_cons_self _ _
    · rw [dlookup, if_neg hk] at h
      exact List.mem_cons_of_mem _ (ih h)

/-- All `degreeCount` entries are positive in states reachable without
`deleteEdge`. -/
theorem degreeCount_pos_noDeleteEdge {g : Graph} (h : ReachableNoDeleteEdge g) :
    ∀ kv ∈ g.degreeCount, 0 < kv.2 := by
  induction h with
  | init => intro kv hkv; simp [emptyGraph] at hkv
  | addE edge hr ih =>
    intro kv hkv
    rw [addEdge_degreeCount] at hkv
    have step : ∀ (p t : List (Int × Int)) (k : Int), (∀ q ∈ t, 0 < q.2) →
        ∀ q ∈ (bumpCounters p t k).2, 0 < q.2 := by
      intro p t k ht q hq
      unfold bumpCounters at hq
      rcases hp : dlookup p k with _ | x
      · rw [hp] at hq
        rcases mem_dset_elim hq with hmem | hval
        · exact ht q hmem
        · rw [hval]; omega
      · rw [hp] at hq
        rcases hty : dlookup t k with _ | y
        · rw [hty] at hq
          rcases mem_dset_elim hq with hmem | hval
          · exact ht q hmem
          · rw [hval]; omega
        · rw [hty] at hq
          rcases mem_dset_elim hq with hmem | hval
          · exact ht q hmem
          · have := ht (k, y) (dlookup_mem hty)
            rw [hval]
            simp at this ⊢
            omega
    exact step _ _ _ (step _ _ _ ih) kv hkv
  | addV n hr heq ih =>
    intro kv hkv
    rw [addVertex] at heq
    rcases hv : dlookup _ n with _ | v <;> rw [hv] at heq
    · cases heq
      exact ih kv hkv
    · simp at heq
  | delV n hr heq ih =>
    intro kv hkv
    rw [deleteVertex] at heq
    rcases hv : dlookup _ n with _ | v <;> rw [hv] at heq
    · simp at heq
    · cases heq
      exact ih kv hkv

/-- Claim C7, amended: `getDegreeDistribution` tabulates exactly the recorded
`degreeCount` entries; in every state reachable without `deleteEdge` those
entries are all positive, so no vertex of zero total degree contributes and
every degree bucket of the returned table is positive.  (After `deleteEdge`
the counter keeps zero-valued entries and the original claim fails, see
`getDegreeDistribution_zeroDegree_contributes`.) -/
theorem getDegreeDistribution_noDeleteEdge_positive (g : Graph)
    (h : ReachableNoDeleteEdge g) :
    (g.degreeCount.all fun kv => decide (0 < kv.2)) = true ∧
    ((getDegreeDistribution g).all fun p => decide (0 < p.1)) = true := by
  have hpos := degreeCount_pos_noDeleteEdge h
  constructor
  · rw [List.all_eq_true]
    intro kv hkv
    exact decide_eq_true (hpos kv hkv)
  · rw [List.all_eq_true]
    have fold : ∀ (l : List (Int × Int)) (acc : List (Int × Int)),
        (∀ q ∈ acc, 0 < q.1) → (∀ kv ∈ l, 0 < kv.2) →
        ∀ q ∈ l.foldl (fun dist kv =>
          match dlookup dist kv.2 with
          | some c => dset dist kv.2 (c + 1)
          | none => dset dist kv.2 (1 : Int)) acc, 0 < q.1 := by
      intro l
      induction l with
      | nil => intro acc hacc _ q hq; exact hacc q hq
      | cons hd tl ih =>
        intro acc hacc hl q hq
        rw [List.foldl_cons] at hq
        have hd_pos : 0 < hd.2 := hl hd (List.mem_cons_self hd tl)
        have hl' : ∀ kv ∈ tl, 0 < kv.2 := fun kv hkv => hl kv (List.mem_cons_of_mem hd hkv)
        have hacc' : ∀ q2 ∈ (match dlookup acc hd.2 with
            | some c => dset acc hd.2 (c + 1)
            | none => dset acc hd.2 (1 : Int)), 0 < q2.1 := by
          intro q2 hq2
          rcases hc : dlookup acc hd.2 with _ | c <;> rw [hc] at hq2 <;>
            rcases mem_dset_elim hq2 with hmem | hval
          · exact hacc q2 hmem
          · rw [hval]; exact hd_pos
          · exact hacc q2 hmem
          · rw [hval]; exact hd_pos
        exact ih _ hacc' hl' q hq
    intro p hp
    refine decide_eq_true (fold g.degreeCount [] (by simp) hpos p ?_)
    exact hp

/-- Witness for `getDegreeDistribution_noDeleteEdge_positive` at the concrete
state with one edge 0 → 1. -/
theorem getDegreeDistribution_noDeleteEdge_positive_witness :
    ReachableNoDeleteEdge gEdge01 ∧
    (gEdge01.degreeCount.all fun kv => decide (0 < kv.2)) = true ∧
    ((getDegreeDistribution gEdge01).all fun p => decide (0 < p.1)) = true :=
  ⟨ReachableNoDeleteEdge.addE _ ReachableNoDeleteEdge.init,
    getDegreeDistribution_noDeleteEdge_positive gEdge01
      (ReachableNoDeleteEdge.addE _ ReachableNoDeleteEdge.init)⟩

/-! ### Claim C4 -/

/-- Claim C4, counterexample: with interleaved parallel edges 0→2, 0→1, 0→2,
0→1 (numbers 0-3), deleting edge 3 removes the pair `(1, 3)` from
`parentEdgeIndex[0]` but `list.remove(1)` removes the FIRST value-1 entry of
`parentIndex[0]` (position 1, which belongs to edge 1): the lists end as
`[2, 2, 1]` versus end-vertices `[2, 1, 2]` — same multiset, different
order, so they are not pointwise consistent. -/
theorem deleteEdge_adjacency_order_mismatch :
    Reachable gParallelDeleted ∧
    deleteEdge gParallel 3 = some gParallelDeleted ∧
    dlookup gParallelDeleted.parentIndex 0 = some [2, 2, 1] ∧
    (dlookup gParallelDeleted.parentEdgeIndex 0).map (List.map Prod.fst) = some [2, 1, 2] ∧
    ([2, 2, 1] : List Int) ≠ [2, 1, 2] :=
  ⟨Reachable.delE 3
      (Reachable.addE (mkEdge 0 1) (Reachable.addE (mkEdge 0 2)
        (Reachable.addE (mkEdge 0 1) (Reachable.addE (mkEdge 0 2) Reachable.init))))
      (by decide : deleteEdge gParallel 3 = some gParallelDeleted),
    by decide, by decide, by decide, by decide⟩

/-- Claim C4, amended: in every reachable state the two adjacency structures
agree in length and as multisets of end vertices (but not pointwise, see
`deleteEdge_adjacency_order_mismatch`); `deleteEdge` removes from
`parentEdgeIndex` exactly the entry carrying the deleted edge's number —
every pair survives iff its edge number is not the deleted one — while the
positional `parentIndex` entry it removes is the first value-equal one. -/
theorem adjacency_lists_multiset_consistent :
    (∀ g : Graph, Reachable g → ∀ v : Int,
      (pIdxList g v).length = (peiList g v).length ∧
      (pIdxList g v).Perm ((peiList g v).map Prod.fst)) ∧
    (∀ g g' : Graph, Reachable g → ∀ n : Int, deleteEdge g n = some g' →
      ∀ v : Int, ∀ p : Int × Int, (p ∈ peiList g' v ↔ (p ∈ peiList g v ∧ p.2 ≠ n))) := by
  constructor
  · intro g h v
    have hinv := reachable_inv h
    refine ⟨?_, hinv.adjPerm v⟩
    have hlen := (hinv.adjPerm v).length_eq
    simpa using hlen
  · intro g g' h n hdel v p
    have hinv := reachable_inv h
    have hinv' := inv_deleteEdge hinv hdel
    rcases hed : dlookup g.edgeIndex n with _ | ed
    · rw [deleteEdge, hed] at hdel
      simp at hdel
    obtain ⟨pl2, el2, hpl2, hel2, heq⟩ := deleteEdge_spec hinv hed
    rw [heq] at hdel
    cases hdel
    obtain ⟨y, e⟩ := p
    have hedge' : (derase g.edgeIndex n) = ({ g with
        edgeIndex := derase g.edgeIndex n
        parentIndex := dset g.parentIndex ed.startVertex.vertexNumber pl2
        parentEdgeIndex := dset g.parentEdgeIndex ed.startVertex.vertexNumber el2
        inDegreeCount := (dropCounters g.inDegreeCount
          (dropCounters g.outDegreeCount g.degreeCount ed.startVertex.vertexNumber).2
          ed.endVertex.vertexNumber).1
        outDegreeCount :=
          (dropCounters g.outDegreeCount g.degreeCount ed.startVertex.vertexNumber).1
        degreeCount := (dropCounters g.inDegreeCount
          (dropCounters g.outDegreeCount g.degreeCount ed.startVertex.vertexNumber).2
          ed.endVertex.vertexNumber).2 } : Graph).edgeIndex := rfl
    by_cases hne : e = n
    · subst hne
      constructor
      · intro hmem
        obtain ⟨ed2, hed2, _, _⟩ := (hinv'.coherent v y e).mp hmem
        rw [← hedge', dlookup_derase_self hinv.edgeKeysNodup] at hed2
        simp at hed2
      · rintro ⟨_, habs⟩
        exact absurd rfl habs
    · constructor
      · intro hmem
        obtain ⟨ed2, hed2, hs, hb⟩ := (hinv'.coherent v y e).mp hmem
        rw [← hedge', dlookup_derase_ne _ hne] at hed2
        exact ⟨(hinv.coherent v y e).mpr ⟨ed2, hed2, hs, hb⟩, hne⟩
      · rintro ⟨hmem, _⟩
        obtain ⟨ed2, hed2, hs, hb⟩ := (hinv.coherent v y e).mp hmem
        refine (hinv'.coherent v y e).mpr ⟨ed2, ?_, hs, hb⟩
        rw [← hedge', dlookup_derase_ne _ hne]
        exact hed2

/-- Witness for `adjacency_lists_multiset_consistent` at the parallel-edge
state: after deleting edge 3, `parentIndex[0]` is a permutation of the end
vertices of `parentEdgeIndex[0]`, the pair `(1, 1)` of surviving edge 1 is
kept, and no pair of the deleted edge 3 remains. -/
theorem adjacency_lists_multiset_consistent_witness :
    Reachable gParallel ∧
    deleteEdge gParallel 3 = some gParallelDeleted ∧
    ((pIdxList gParallelDeleted 0).length = (peiList gParallelDeleted 0).length ∧
      (pIdxList gParallelDeleted 0).Perm ((peiList gParallelDeleted 0).map Prod.fst)) ∧
    ((1, 1) ∈ peiList gParallelDeleted 0 ↔ ((1, 1) ∈ peiList gParallel 0 ∧ (1 : Int) ≠ 3)) ∧
    ((1, 3) ∈ peiList gParallelDeleted 0 ↔ ((1, 3) ∈ peiList gParallel 0 ∧ (3 : Int) ≠ 3)) := by
  have hreach : Reachable gParallel :=
    Reachable.addE (mkEdge 0 1) (Reachable.addE (mkEdge 0 2)
      (Reachable.addE (mkEdge 0 1) (Reachable.addE (mkEdge 0 2) Reachable.init)))
  have hreach' : Reachable gParallelDeleted :=
    Reachable.delE 3 hreach (by decide : deleteEdge gParallel 3 = some gParallelDeleted)
  exact ⟨hreach, by decide,
    adjacency_lists_multiset_consistent.1 gParallelDeleted hreach' 0,
    adjacency_lists_multiset_consistent.2 gParallel gParallelDeleted hreach 3
      (by decide : deleteEdge gParallel 3 = some gParallelDeleted) 0 (1, 1),
    adjacency_lists_multiset_consistent.2 gParallel gParallelDeleted hreach 3
      (by decide : deleteEdge gParallel 3 = some gParallelDeleted) 0 (1, 3)⟩

/-! ### Claim C1 -/

/-- Claim C1, counterexample: on the empty graph `addEdge(Edge(0,1))` assigns
edge number 0 (= `lastEdgeNumber + 1`) and `deleteEdge(0)` succeeds, but the
vertex index is NOT restored to its pre-add (empty) value: the two endpoint
vertices inserted by `addEdge` survive the deletion.  (The degree counters
are also left as zero-valued entries rather than removed.) -/
theorem roundtrip_not_restored_on_fresh_vertices :
    emptyGraph.lastEdgeNumber + 1 = 0 ∧
    deleteEdge (addEdge emptyGraph (mkEdge 0 1)) 0 = some gEdge01Deleted ∧
    gEdge01Deleted.vertexIndex ≠ emptyGraph.vertexIndex :=
  ⟨by decide, by decide, by decide⟩

/-- Round trip of the four counter updates of `addEdge`/`deleteEdge` when the
start vertex has an out-degree entry, the end vertex an in-degree entry, and
both have total-degree entries. -/
theorem counters_roundtrip (out deg ind : List (Int × Int)) (a b oa ib da db : Int)
    (ho : dlookup out a = some oa) (hi2 : dlookup ind b = some ib)
    (hda : dlookup deg a = some da) (hdb : dlookup deg b = some db) :
    (dropCounters (bumpCounters out deg a).1
      (bumpCounters ind (bumpCounters out deg a).2 b).2 a).1 = out ∧
    (dropCounters (bumpCounters ind (bumpCounters out deg a).2 b).1
      (dropCounters (bumpCounters out deg a).1
        (bumpCounters ind (bumpCounters out deg a).2 b).2 a).2 b).1 = ind ∧
    (dropCounters (bumpCounters ind (bumpCounters out deg a).2 b).1
      (dropCounters (bumpCounters out deg a).1
        (bumpCounters ind (bumpCounters out deg a).2 b).2 a).2 b).2 = deg := by
  have h1 : bumpCounters out deg a = (dset out a (oa + 1), dset deg a (da + 1)) :=
    bumpCounters_eq_of_some ho hda
  by_cases hab : b = a
  · subst hab
    have h2 : bumpCounters ind (dset deg b (da + 1)) b =
        (dset ind b (ib + 1), dset deg b ((da + 1) + 1)) := by
      rw [bumpCounters_eq_of_some hi2 (dlookup_dset_self _ _ _), dset_dset_self]
    have h3 : dropCounters (dset out b (oa + 1)) (dset deg b ((da + 1) + 1)) b =
        (out, dset deg b (da + 1)) := by
      rw [dropCounters_eq_of_some (dlookup_dset_self _ _ _) (dlookup_dset_self _ _ _),
        dset_dset_self, dset_dset_self, add_sub_cancel_right, add_sub_cancel_right,
        dset_eq_of_lookup ho]
    have h4 : dropCounters (dset ind b (ib + 1)) (dset deg b (da + 1)) b = (ind, deg) := by
      rw [dropCounters_eq_of_some (dlookup_dset_self _ _ _) (dlookup_dset_self _ _ _),
        dset_dset_self, dset_dset_self, add_sub_cancel_right, add_sub_cancel_right,
        dset_eq_of_lookup hi2, dset_eq_of_lookup hda]
    simp [h1, h2, h3, h4]
  · have hdegb : dlookup (dset deg a (da + 1)) b = some db := by
      rw [dlookup_dset_ne _ _ hab]; exact hdb
    have h2 : bumpCounters ind (dset deg a (da + 1)) b =
        (dset ind b (ib + 1), dset (dset deg a (da + 1)) b (db + 1)) :=
      bumpCounters_eq_of_some hi2 hdegb
    have hdega : dlookup (dset (dset deg a (da + 1)) b (db + 1)) a = some (da + 1) := by
      rw [dlookup_dset_ne _ _ (Ne.symm hab), dlookup_dset_self]
    have h3 : dropCounters (dset out a (oa + 1))
        (dset (dset deg a (da + 1)) b (db + 1)) a = (out, dset deg b (db + 1)) := by
      rw [dropCounters_eq_of_some (dlookup_dset_self _ _ _) hdega,
        dset_dset_self, add_sub_cancel_right, add_sub_cancel_right,
        dset_eq_of_lookup ho,
        dset_comm (db + 1) da (by rw [hdegb]; rfl) hab,
        dset_dset_self, dset_eq_of_lookup hda]
    have h4 : dropCounters (dset ind b (ib + 1)) (dset deg b (db + 1)) b = (ind, deg) := by
      rw [dropCounters_eq_of_some (dlookup_dset_self _ _ _) (dlookup_dset_self _ _ _),
        dset_dset_self, dset_dset_self, add_sub_cancel_right, add_sub_cancel_right,
        dset_eq_of_lookup hi2, dset_eq_of_lookup hdb]
    simp [h1, h2, h3, h4]

/-- Claim C1, amended: the add-then-delete round trip
`deleteEdge(addEdge(edge))` on the assigned number `lastEdgeNumber + 1`
restores the vertex index, the edge index and all three degree counters
exactly, PROVIDED both endpoints are already in the vertex index, the start
vertex already has an out-degree entry and the end vertex an in-degree entry.
Without these conditions `addEdge` inserts the missing endpoints (never
removed by `deleteEdge`, see `roundtrip_not_restored_on_fresh_vertices`),
creates zero-reset counter entries, and the `except KeyError` reset can lower
`degreeCount` below its pre-add value. -/
theorem roundtrip_restores_with_present_counters (g : Graph) (edge : Edge)
    (h : Reachable g)
    (hsv : (dlookup g.vertexIndex edge.startVertex.vertexNumber).isSome = true)
    (hev : (dlookup g.vertexIndex edge.endVertex.vertexNumber).isSome = true)
    (ho : (dlookup g.outDegreeCount edge.startVertex.vertexNumber).isSome = true)
    (hi2 : (dlookup g.inDegreeCount edge.endVertex.vertexNumber).isSome = true) :
    (deleteEdge (addEdge g edge) (g.lastEdgeNumber + 1)).map Graph.vertexIndex =
      some g.vertexIndex ∧
    (deleteEdge (addEdge g edge) (g.lastEdgeNumber + 1)).map Graph.edgeIndex =
      some g.edgeIndex ∧
    (deleteEdge (addEdge g edge) (g.lastEdgeNumber + 1)).map Graph.inDegreeCount =
      some g.inDegreeCount ∧
    (deleteEdge (addEdge g edge) (g.lastEdgeNumber + 1)).map Graph.outDegreeCount =
      some g.outDegreeCount ∧
    (deleteEdge (addEdge g edge) (g.lastEdgeNumber + 1)).map Graph.degreeCount =
      some g.degreeCount := by
  have hinv := reachable_inv h
  have hinv1 := inv_addEdge hinv edge
  have hfresh : dlookup g.edgeIndex (g.lastEdgeNumber + 1) = none := by
    rcases he : dlookup g.edgeIndex (g.lastEdgeNumber + 1) with _ | ed
    · rfl
    · have := hinv.edgeKeysLe (g.lastEdgeNumber + 1) (by rw [he]; rfl)
      omega
  have hed1 : dlookup (addEdge g edge).edgeIndex (g.lastEdgeNumber + 1) = some edge := by
    rw [addEdge_edgeIndex]
    exact dlookup_dset_self _ _ _
  obtain ⟨pl2, el2, hpl2, hel2, heq⟩ := deleteEdge_spec hinv1 hed1
  rw [heq]
  obtain ⟨oa, hoa⟩ := Option.isSome_iff_exists.mp ho
  obtain ⟨ib, hib⟩ := Option.isSome_iff_exists.mp hi2
  obtain ⟨da, hda⟩ := Option.isSome_iff_exists.mp (hinv.outDeg _ ho)
  obtain ⟨db, hdb⟩ := Option.isSome_iff_exists.mp (hinv.inDeg _ hi2)
  obtain ⟨hout, hind, hdeg⟩ :=
    counters_roundtrip g.outDegreeCount g.degreeCount g.inDegreeCount
      edge.startVertex.vertexNumber edge.endVertex.vertexNumber oa ib da db
      hoa hib hda hdb
  refine ⟨?_, ?_, ?_, ?_, ?_⟩
  · show some (addEdge g edge).vertexIndex = some g.vertexIndex
    rw [addEdge_vertexIndex_mem g edge hsv hev]
  · show some (derase (addEdge g edge).edgeIndex (g.lastEdgeNumber + 1)) = some g.edgeIndex
    rw [addEdge_edgeIndex, derase_dset_fresh edge hfresh]
  · show some (dropCounters (addEdge g edge).inDegreeCount
      (dropCounters (addEdge g edge).outDegreeCount (addEdge g edge).degreeCount
        edge.startVertex.vertexNumber).2 edge.endVertex.vertexNumber).1 =
      some g.inDegreeCount
    rw [addEdge_inDegreeCount, addEdge_outDegreeCount, addEdge_degreeCount, hind]
  · show some (dropCounters (addEdge g edge).outDegreeCount (addEdge g edge).degreeCount
      edge.startVertex.vertexNumber).1 = some g.outDegreeCount
    rw [addEdge_outDegreeCount, addEdge_degreeCount, hout]
  · show some (dropCounters (addEdge g edge).inDegreeCount
      (dropCounters (addEdge g edge).outDegreeCount (addEdge g edge).degreeCount
        edge.startVertex.vertexNumber).2 edge.endVertex.vertexNumber).2 =
      some g.degreeCount
    rw [addEdge_inDegreeCount, addEdge_outDegreeCount, addEdge_degreeCount, hdeg]

/-- Witness for `roundtrip_restores_with_present_counters`: add a second edge
0 → 1 on top of `gEdge01` and delete it again. -/
theorem roundtrip_restores_with_present_counters_witness :
    (dlookup gEdge01.vertexIndex 0).isSome = true ∧
    (dlookup gEdge01.vertexIndex 1).isSome = true ∧
    (dlookup gEdge01.outDegreeCount 0).isSome = true ∧
    (dlookup gEdge01.inDegreeCount 1).isSome = true ∧
    (deleteEdge (addEdge gEdge01 (mkEdge 0 1)) (gEdge01.lastEdgeNumber + 1)).map
      Graph.vertexIndex = some gEdge01.vertexIndex ∧
    (deleteEdge (addEdge gEdge01 (mkEdge 0 1)) (gEdge01.lastEdgeNumber + 1)).map
      Graph.edgeIndex = some gEdge01.edgeIndex ∧
    (deleteEdge (addEdge gEdge01 (mkEdge 0 1)) (gEdge01.lastEdgeNumber + 1)).map
      Graph.degreeCount = some gEdge01.degreeCount := by
  have hr : Reachable gEdge01 := Reachable.addE (mkEdge 0 1) Reachable.init
  have hmain := roundtrip_restores_with_present_counters gEdge01 (mkEdge 0 1) hr
    (by decide) (by decide) (by decide) (by decide)
  exact ⟨by decide, by decide, by decide, by decide, hmain.1, hmain.2.1, hmain.2.2.2.2⟩

/-! ### Behaviour of `getSCComponents` across `getLargest` modes -/

theorem attachSCC_zero (scc : List Int) (l : Int) (A : List (List Int)) :
    attachSCC 0 scc l A = (l, A ++ [scc]) := rfl

theorem attachSCC_neg {m : Int} (hm : m < 0) (scc : List Int) (l : Int) (A : List (List Int)) :
    attachSCC m scc l A = (l, A) := by
  rw [attachSCC, if_neg (by omega), if_neg (by omega)]

/-- `popComponent` always collects at least one vertex beyond its accumulator. -/
theorem popComponent_grows {v : Int} :
    ∀ {stack : List Int} {tr : List (Int × (Int × Int))} {acc s2 : List Int}
      {t2 : List (Int × (Int × Int))} {scc : List Int},
      popComponent v stack tr acc = Except.ok (s2, t2, scc) → acc.length < scc.length := by
  intro stack
  induction stack with
  | nil => intro tr acc s2 t2 scc h; simp [popComponent] at h
  | cons top rest ih =>
    intro tr acc s2 t2 scc h
    rw [popComponent] at h
    rcases ht : dlookup tr top with _ | t
    · rw [ht] at h; simp at h
    · simp only [ht] at h
      by_cases htop : top ≠ v
      · rw [if_pos htop] at h
        have := ih h
        simp at this
        omega
      · rw [if_neg htop] at h
        simp at h
        rw [← h.2.2]
        simp

/-- The `visit` child loop never changes the result accumulator or the
largest-size cell, provided the recursive calls do not. -/
theorem visitChildren_allSCC_pres (f : Int → TarjanSt → Except String TarjanSt)
    (hf : ∀ v st st', f v st = Except.ok st' →
      st'.allSCC = st.allSCC ∧ st'.largestComponentSize = st.largestComponentSize) :
    ∀ (cs : List Int) (v : Int) (st st' : TarjanSt),
      visitChildren f v cs st = Except.ok st' →
      st'.allSCC = st.allSCC ∧ st'.largestComponentSize = st.largestComponentSize := by
  intro cs
  induction cs with
  | nil =>
    intro v st st' h
    simp only [visitChildren] at h
    cases h
    exact ⟨rfl, rfl⟩
  | cons c rest ih =>
    intro v st st' h
    simp only [visitChildren] at h
    rcases ht : dlookup st.vertexTracker c with _ | t
    · rw [ht] at h; simp at h
    · simp only [ht] at h
      by_cases htk : t.2 ≠ 1
      · rw [if_pos htk] at h
        rcases ha : dlookup st.lowLinkNumber v with _ | a <;> simp only [ha] at h
        · rcases hfc : f c st with e | st1 <;> simp only [hfc] at h
          · simp at h
          · obtain ⟨h1, h2⟩ := hf c st st1 hfc
            rcases ha2 : dlookup st1.lowLinkNumber v with _ | a2 <;> simp only [ha2] at h
            · simp at h
            · rcases hb2 : dlookup st1.lowLinkNumber c with _ | b2 <;> simp only [hb2] at h
              · simp at h
              · obtain ⟨h3, h4⟩ := ih v _ st' h
                exact ⟨h3.trans h1, h4.trans h2⟩
        · rcases hb : dlookup st.visitNumber c with _ | b <;> simp only [hb] at h
          · rcases hfc : f c st with e | st1 <;> simp only [hfc] at h
            · simp at h
            · obtain ⟨h1, h2⟩ := hf c st st1 hfc
              rcases ha2 : dlookup st1.lowLinkNumber v with _ | a2 <;> simp only [ha2] at h
              · simp at h
              · rcases hb2 : dlookup st1.lowLinkNumber c with _ | b2 <;> simp only [hb2] at h
                · simp at h
                · obtain ⟨h3, h4⟩ := ih v _ st' h
                  exact ⟨h3.trans h1, h4.trans h2⟩
          · obtain ⟨h3, h4⟩ := ih v _ st' h
            exact ⟨h3, h4⟩
      · rw [if_neg htk] at h
        exact ih v _ st' h

/-- With a negative `getLargest`, `visit` preserves the result accumulator and
the largest-size cell (neither branch of the attachment step fires). -/
theorem visit_neg_pres {m : Int} (hm : m < 0) (pi : List (Int × List Int)) :
    ∀ (n : Nat) (v : Int) (st st' : TarjanSt), visit m pi n v st = Except.ok st' →
      st'.allSCC = st.allSCC ∧ st'.largestComponentSize = st.largestComponentSize := by
  intro n
  induction n with
  | zero => intro v st st' h; simp [visit] at h
  | succ k ih =>
    intro v st st' h
    simp only [visit] at h
    rcases ht : dlookup st.vertexTracker v with _ | t
    · rw [ht] at h; simp at h
    · simp only [ht] at h
      rcases hvc : visitChildren (visit m pi k) v ((dlookup pi v).getD [])
          { visitNumber := dset st.visitNumber v st.counter
            lowLinkNumber := dset st.lowLinkNumber v st.counter
            vertexTracker := dset st.vertexTracker v (1, t.2)
            stack := v :: st.stack
            counter := st.counter + 1
            largestComponentSize := st.largestComponentSize
            allSCC := st.allSCC } with e | st2 <;> simp only [hvc] at h
      · simp at h
      · obtain ⟨hA2, hL2⟩ := visitChildren_allSCC_pres (visit m pi k) ih _ v _ st2 hvc
        rcases hll : dlookup st2.lowLinkNumber v with _ | ll <;> simp only [hll] at h
        · simp at h
        · rcases hvn : dlookup st2.visitNumber v with _ | vn <;> simp only [hvn] at h
          · simp at h
          · by_cases heq : ll = vn
            · rw [if_pos heq] at h
              rcases hpop : popComponent v st2.stack st2.vertexTracker [] with e | w <;>
                simp only [hpop] at h
              · simp at h
              · obtain ⟨stack2, tracker2, scc⟩ := w
                simp only [attachSCC_neg hm] at h
                cases h
                exact ⟨hA2, hL2⟩
            · rw [if_neg heq] at h
              cases h
              exact ⟨hA2, hL2⟩

/-- With a negative `getLargest`, the outer loop preserves the accumulator. -/
theorem sccLoop_neg_pres {m : Int} (hm : m < 0) (pi : List (Int × List Int)) (fuel : Nat) :
    ∀ (vs : List (Int × Vertex)) (st st' : TarjanSt),
      sccLoop m pi fuel vs st = Except.ok st' → st'.allSCC = st.allSCC := by
  intro vs
  induction vs with
  | nil =>
    intro st st' h
    simp only [sccLoop] at h
    cases h
    rfl
  | cons kv rest ih =>
    intro st st' h
    simp only [sccLoop] at h
    rcases ht : dlookup st.vertexTracker kv.1 with _ | t <;> simp only [ht] at h
    · simp at h
    · by_cases h0 : t.1 = 0
      · rw [if_pos h0] at h
        rcases hv : visit m pi fuel kv.1
            { st with vertexTracker := dset st.vertexTracker kv.1 (1, t.2) } with e | st1 <;>
          simp only [hv] at h
        · simp at h
        · obtain ⟨hA1, _⟩ := visit_neg_pres hm pi fuel kv.1 _ st1 hv
          rw [ih st1 st' h, hA1]
      · rw [if_neg h0] at h
        exact ih st st' h

/-- Graph with two disjoint cycles: 10 ↔ 11 and 20 → 21 → 22 → 20. -/
def gTwoCycles : Graph :=
  addEdge (addEdge (addEdge (addEdge (addEdge emptyGraph
    (mkEdge 10 11)) (mkEdge 11 10)) (mkEdge 20 21)) (mkEdge 21 22)) (mkEdge 22 20)

/-! ### Simulation between `getLargest = 0` and `getLargest > 0` runs -/

/-- Equality of the traversal core of two Tarjan states: everything except
the result accumulator `allSCC` and the `largestComponentSize` cell.  The
control flow of `visit` reads only the core. -/
def coreEq (s t : TarjanSt) : Prop :=
  s.visitNumber = t.visitNumber ∧ s.lowLinkNumber = t.lowLinkNumber ∧
  s.vertexTracker = t.vertexTracker ∧ s.stack = t.stack ∧ s.counter = t.counter

/-- The attachment step of mode `m`, as a fold step over completed components. -/
def attachFold (m : Int) (la : Int × List (List Int)) (scc : List Int) :
    Int × List (List Int) :=
  attachSCC m scc la.1 la.2

/-- Relation between a mode-0 run and a mode-`m` run started from states with
equal cores: the final cores are equal, the mode-0 run appended some list `ds`
of non-empty components, and the mode-`m` accumulator is the fold of the
attachment step over the same `ds`. -/
def simRel (m : Int) (st0 stm st0' stm' : TarjanSt) : Prop :=
  coreEq st0' stm' ∧
  ∃ ds : List (List Int), st0'.allSCC = st0.allSCC ++ ds ∧ (∀ c ∈ ds, c ≠ []) ∧
    (stm'.largestComponentSize, stm'.allSCC) =
      ds.foldl (attachFold m) (stm.largestComponentSize, stm.allSCC)

/-- Relation between the results of the two runs: identical errors, or
`simRel`-related states. -/
def resRel (m : Int) (st0 stm : TarjanSt) :
    Except String TarjanSt → Except String TarjanSt → Prop
  | Except.error e, Except.error f => e = f
  | Except.ok s0', Except.ok sm' => simRel m st0 stm s0' sm'
  | _, _ => False

theorem simRel_of_no_attach {m : Int} {st0 stm st0' stm' : TarjanSt}
    (hc : coreEq st0' stm')
    (hA0 : st0'.allSCC = st0.allSCC) (hAm : stm'.allSCC = stm.allSCC)
    (hLm : stm'.largestComponentSize = stm.largestComponentSize) :
    simRel m st0 stm st0' stm' := by
  refine ⟨hc, [], by simp [hA0], by simp, ?_⟩
  simp [hAm, hLm]

theorem simRel_trans {m : Int} {a b c d e f : TarjanSt}
    (h1 : simRel m a b c d) (h2 : simRel m c d e f) : simRel m a b e f := by
  obtain ⟨hc1, ds1, hA1, hne1, hF1⟩ := h1
  obtain ⟨hc2, ds2, hA2, hne2, hF2⟩ := h2
  refine ⟨hc2, ds1 ++ ds2, ?_, ?_, ?_⟩
  · rw [hA2, hA1, List.append_assoc]
  · intro x hx
    rcases List.mem_append.mp hx with hx | hx
    · exact hne1 x hx
    · exact hne2 x hx
  · rw [List.foldl_append, ← hF1]
    exact hF2

theorem resRel_of_sim {m : Int} {a b c d : TarjanSt} {r0 rm : Except String TarjanSt}
    (h1 : simRel m a b c d) (h2 : resRel m c d r0 rm) : resRel m a b r0 rm := by
  rcases r0 with e0 | s0 <;> rcases rm with em | sm <;> simp only [resRel] at h2 ⊢
  · exact h2
  · exact simRel_trans h1 h2

/-- Transport of `resRel` along states with the same accumulators. -/
theorem resRel_cast {m : Int} {a b a' b' : TarjanSt} {r0 rm : Except String TarjanSt}
    (hA0 : a'.allSCC = a.allSCC) (hAm : b'.allSCC = b.allSCC)
    (hLm : b'.largestComponentSize = b.largestComponentSize)
    (h : resRel m a' b' r0 rm) : resRel m a b r0 rm := by
  rcases r0 with e0 | s0 <;> rcases rm with em | sm <;> simp only [resRel] at h ⊢
  · exact h
  · obtain ⟨hc, ds, h1, h2, h3⟩ := h
    exact ⟨hc, ds, by rw [h1, hA0], h2, by rw [h3, hAm, hLm]⟩

/-- The child loops of a mode-0 and a mode-`m` run stay in lockstep. -/
theorem visitChildren_sim (m : Int)
    (f0 fm : Int → TarjanSt → Except String TarjanSt)
    (hf : ∀ (v : Int) (st0 stm : TarjanSt), coreEq st0 stm →
      resRel m st0 stm (f0 v st0) (fm v stm)) :
    ∀ (cs : List Int) (v : Int) (st0 stm : TarjanSt), coreEq st0 stm →
      resRel m st0 stm (visitChildren f0 v cs st0) (visitChildren fm v cs stm) := by
  intro cs
  induction cs with
  | nil =>
    intro v st0 stm hc
    simp only [visitChildren]
    exact simRel_of_no_attach hc rfl rfl rfl
  | cons c rest ih =>
    intro v st0 stm hc
    obtain ⟨hVN, hLL, hTR, hST, hCO⟩ := hc
    simp only [visitChildren]
    rcases ht : dlookup st0.vertexTracker c with _ | t
    · have htm : dlookup stm.vertexTracker c = none := by rw [← hTR]; exact ht
      simp only [ht, htm]
      rfl
    · have htm : dlookup stm.vertexTracker c = some t := by rw [← hTR]; exact ht
      simp only [ht, htm]
      by_cases htk : t.2 ≠ 1
      · rw [if_pos htk, if_pos htk]
        rcases ha : dlookup st0.lowLinkNumber v with _ | a
        · have ham : dlookup stm.lowLinkNumber v = none := by rw [← hLL]; exact ha
          simp only [ha, ham]
          have hfc := hf c st0 stm ⟨hVN, hLL, hTR, hST, hCO⟩
          rcases hr0 : f0 c st0 with e0 | s01 <;> rcases hrm : fm c stm with em | sm1 <;>
            rw [hr0, hrm] at hfc <;> simp only [hr0, hrm] <;> simp only [resRel] at hfc
          · exact hfc
          · obtain ⟨hc1, ds1, hA1, hne1, hF1⟩ := hfc
            obtain ⟨hVN1, hLL1, hTR1, hST1, hCO1⟩ := hc1
            rcases ha2 : dlookup s01.lowLinkNumber v with _ | a2
            · have ha2m : dlookup sm1.lowLinkNumber v = none := by rw [← hLL1]; exact ha2
              simp only [ha2, ha2m]
              rfl
            · have ha2m : dlookup sm1.lowLinkNumber v = some a2 := by rw [← hLL1]; exact ha2
              rcases hb2 : dlookup s01.lowLinkNumber c with _ | b2
              · have hb2m : dlookup sm1.lowLinkNumber c = none := by rw [← hLL1]; exact hb2
                simp only [ha2, ha2m, hb2, hb2m]
                rfl
              · have hb2m : dlookup sm1.lowLinkNumber c = some b2 := by rw [← hLL1]; exact hb2
                simp only [ha2, ha2m, hb2, hb2m]
                refine resRel_of_sim ⟨⟨hVN1, hLL1, hTR1, hST1, hCO1⟩, ds1, hA1, hne1, hF1⟩ ?_
                refine @resRel_cast _ _ _
                  { s01 with lowLinkNumber := dset s01.lowLinkNumber v (pymin a2 b2) }
                  { sm1 with lowLinkNumber := dset sm1.lowLinkNumber v (pymin a2 b2) }
                  _ _ rfl rfl rfl ?_
                exact ih v _ _ ⟨hVN1, by simp [hLL1], hTR1, hST1, hCO1⟩
        · have ham : dlookup stm.lowLinkNumber v = some a := by rw [← hLL]; exact ha
          rcases hb : dlookup st0.visitNumber c with _ | b
          · have hbm : dlookup stm.visitNumber c = none := by rw [← hVN]; exact hb
            simp only [ha, ham, hb, hbm]
            have hfc := hf c st0 stm ⟨hVN, hLL, hTR, hST, hCO⟩
            rcases hr0 : f0 c st0 with e0 | s01 <;> rcases hrm : fm c stm with em | sm1 <;>
              rw [hr0, hrm] at hfc <;> simp only [hr0, hrm] <;> simp only [resRel] at hfc
            · exact hfc
            · obtain ⟨hc1, ds1, hA1, hne1, hF1⟩ := hfc
              obtain ⟨hVN1, hLL1, hTR1, hST1, hCO1⟩ := hc1
              rcases ha2 : dlookup s01.lowLinkNumber v with _ | a2
              · have ha2m : dlookup sm1.lowLinkNumber v = none := by rw [← hLL1]; exact ha2
                simp only [ha2, ha2m]
                rfl
              · have ha2m : dlookup sm1.lowLinkNumber v = some a2 := by rw [← hLL1]; exact ha2
                rcases hb2 : dlookup s01.lowLinkNumber c with _ | b2
                · have hb2m : dlookup sm1.lowLinkNumber c = none := by rw [← hLL1]; exact hb2
                  simp only [ha2, ha2m, hb2, hb2m]
                  rfl
                · have hb2m : dlookup sm1.lowLinkNumber c = some b2 := by
                    rw [← hLL1]; exact hb2
                  simp only [ha2, ha2m, hb2, hb2m]
                  refine resRel_of_sim ⟨⟨hVN1, hLL1, hTR1, hST1, hCO1⟩, ds1, hA1, hne1, hF1⟩ ?_
                  refine @resRel_cast _ _ _
                    { s01 with lowLinkNumber := dset s01.lowLinkNumber v (pymin a2 b2) }
                    { sm1 with lowLinkNumber := dset sm1.lowLinkNumber v (pymin a2 b2) }
                    _ _ rfl rfl rfl ?_
                  exact ih v _ _ ⟨hVN1, by simp [hLL1], hTR1, hST1, hCO1⟩
          · have hbm : dlookup stm.visitNumber c = some b := by rw [← hVN]; exact hb
            simp only [ha, ham, hb, hbm]
            refine @resRel_cast _ _ _
              { st0 with lowLinkNumber := dset st0.lowLinkNumber v (pymin a b) }
              { stm with lowLinkNumber := dset stm.lowLinkNumber v (pymin a b) }
              _ _ rfl rfl rfl ?_
            exact ih v _ _ ⟨hVN, by simp [hLL], hTR, hST, hCO⟩
      · rw [if_neg htk, if_neg htk]
        exact ih v st0 stm ⟨hVN, hLL, hTR, hST, hCO⟩

/-- A mode-0 and a mode-`m` `visit` from core-equal states stay in lockstep:
the traversal is identical and the accumulators are related by the attachment
fold over the same completed components. -/
theorem visit_sim (m : Int) (pi : List (Int × List Int)) :
    ∀ (n : Nat) (v : Int) (st0 stm : TarjanSt), coreEq st0 stm →
      resRel m st0 stm (visit 0 pi n v st0) (visit m pi n v stm) := by
  intro n
  induction n with
  | zero =>
    intro v st0 stm hc
    simp only [visit]
    rfl
  | succ k ih =>
    intro v st0 stm hc
    obtain ⟨hVN, hLL, hTR, hST, hCO⟩ := hc
    simp only [visit]
    rcases ht : dlookup st0.vertexTracker v with _ | t
    · have htm : dlookup stm.vertexTracker v = none := by rw [← hTR]; exact ht
      simp only [ht, htm]
      rfl
    · have htm : dlookup stm.vertexTracker v = some t := by rw [← hTR]; exact ht
      simp only [ht, htm]
      have hcE : coreEq
          { visitNumber := dset st0.visitNumber v st0.counter
            lowLinkNumber := dset st0.lowLinkNumber v st0.counter
            vertexTracker := dset st0.vertexTracker v (1, t.2)
            stack := v :: st0.stack
            counter := st0.counter + 1
            largestComponentSize := st0.largestComponentSize
            allSCC := st0.allSCC }
          { visitNumber := dset stm.visitNumber v stm.counter
            lowLinkNumber := dset stm.lowLinkNumber v stm.counter
            vertexTracker := dset stm.vertexTracker v (1, t.2)
            stack := v :: stm.stack
            counter := stm.counter + 1
            largestComponentSize := stm.largestComponentSize
            allSCC := stm.allSCC } :=
        ⟨by rw [hVN, hCO], by rw [hLL, hCO], by rw [hTR], by rw [hST], by rw [hCO]⟩
      have hChild := visitChildren_sim m (visit 0 pi k) (visit m pi k) ih
        ((dlookup pi v).getD []) v _ _ hcE
      rcases hvc0 : visitChildren (visit 0 pi k) v ((dlookup pi v).getD [])
          { visitNumber := dset st0.visitNumber v st0.counter
            lowLinkNumber := dset st0.lowLinkNumber v st0.counter
            vertexTracker := dset st0.vertexTracker v (1, t.2)
            stack := v :: st0.stack
            counter := st0.counter + 1
            largestComponentSize := st0.largestComponentSize
            allSCC := st0.allSCC } with e0 | s02 <;>
        rcases hvcm : visitChildren (visit m pi k) v ((dlookup pi v).getD [])
          { visitNumber := dset stm.visitNumber v stm.counter
            lowLinkNumber := dset stm.lowLinkNumber v stm.counter
            vertexTracker := dset stm.vertexTracker v (1, t.2)
            stack := v :: stm.stack
            counter := stm.counter + 1
            largestComponentSize := stm.largestComponentSize
            allSCC := stm.allSCC } with em | sm2 <;>
        rw [hvc0, hvcm] at hChild <;> simp only [hvc0, hvcm] <;>
        simp only [resRel] at hChild
      · exact hChild
      · obtain ⟨⟨hVN2, hLL2, hTR2, hST2, hCO2⟩, ds, hA, hne, hF⟩ := hChild
        rcases hll : dlookup s02.lowLinkNumber v with _ | ll
        · have hllm : dlookup sm2.lowLinkNumber v = none := by rw [← hLL2]; exact hll
          simp only [hll, hllm]
          rfl
        · have hllm : dlookup sm2.lowLinkNumber v = some ll := by rw [← hLL2]; exact hll
          rcases hvn : dlookup s02.visitNumber v with _ | vn
          · have hvnm : dlookup sm2.visitNumber v = none := by rw [← hVN2]; exact hvn
            simp only [hll, hllm, hvn, hvnm]
            rfl
          · have hvnm : dlookup sm2.visitNumber v = some vn := by rw [← hVN2]; exact hvn
            simp only [hll, hllm, hvn, hvnm]
            by_cases heq : ll = vn
            · rw [if_pos heq, if_pos heq]
              have hpopm : popComponent v sm2.stack sm2.vertexTracker [] =
                  popComponent v s02.stack s02.vertexTracker [] := by
                rw [hST2, hTR2]
              rcases hpop : popComponent v s02.stack s02.vertexTracker [] with e | w
              · rw [hpop] at hpopm
                simp only [hpop, hpopm]
                rfl
              · obtain ⟨stack2, tracker2, scc⟩ := w
                rw [hpop] at hpopm
                simp only [hpop, hpopm]
                simp only [resRel, attachSCC_zero]
                refine ⟨⟨hVN2, hLL2, rfl, rfl, hCO2⟩, ds ++ [scc], ?_, ?_, ?_⟩
                · show s02.allSCC ++ [scc] = st0.allSCC ++ (ds ++ [scc])
                  rw [hA, List.append_assoc]
                · intro x hx
                  rcases List.mem_append.mp hx with hx | hx
                  · exact hne x hx
                  · simp at hx
                    subst hx
                    have := popComponent_grows hpop
                    simp at this
                    exact List.ne_nil_of_length_pos this
                · show ((attachSCC m scc sm2.largestComponentSize sm2.allSCC).1,
                    (attachSCC m scc sm2.largestComponentSize sm2.allSCC).2) = _
                  rw [List.foldl_append, ← hF]
                  rfl
            · rw [if_neg heq, if_neg heq]
              exact ⟨⟨hVN2, hLL2, hTR2, hST2, hCO2⟩, ds, hA, hne, hF⟩

/-- The outer loops of a mode-0 and a mode-`m` run stay in lockstep. -/
theorem sccLoop_sim (m : Int) (pi : List (Int × List Int)) (fuel : Nat) :
    ∀ (vs : List (Int × Vertex)) (st0 stm : TarjanSt), coreEq st0 stm →
      resRel m st0 stm (sccLoop 0 pi fuel vs st0) (sccLoop m pi fuel vs stm) := by
  intro vs
  induction vs with
  | nil =>
    intro st0 stm hc
    simp only [sccLoop]
    exact simRel_of_no_attach hc rfl rfl rfl
  | cons kv rest ih =>
    intro st0 stm hc
    obtain ⟨hVN, hLL, hTR, hST, hCO⟩ := hc
    simp only [sccLoop]
    rcases ht : dlookup st0.vertexTracker kv.1 with _ | t
    · have htm : dlookup stm.vertexTracker kv.1 = none := by rw [← hTR]; exact ht
      simp only [ht, htm]
      rfl
    · have htm : dlookup stm.vertexTracker kv.1 = some t := by rw [← hTR]; exact ht
      simp only [ht, htm]
      by_cases h0 : t.1 = 0
      · rw [if_pos h0, if_pos h0]
        have hcE : coreEq { st0 with vertexTracker := dset st0.vertexTracker kv.1 (1, t.2) }
            { stm with vertexTracker := dset stm.vertexTracker kv.1 (1, t.2) } :=
          ⟨hVN, hLL, by simp [hTR], hST, hCO⟩
        have hVis := visit_sim m pi fuel kv.1 _ _ hcE
        rcases hv0 : visit 0 pi fuel kv.1
            { st0 with vertexTracker := dset st0.vertexTracker kv.1 (1, t.2) } with e0 | s01 <;>
          rcases hvm : visit m pi fuel kv.1
            { stm with vertexTracker := dset stm.vertexTracker kv.1 (1, t.2) } with em | sm1 <;>
          rw [hv0, hvm] at hVis <;> simp only [hv0, hvm] <;> simp only [resRel] at hVis
        · exact hVis
        · have hVis' : simRel m st0 stm s01 sm1 := by
            obtain ⟨hcq, ds, h1, h2, h3⟩ := hVis
            exact ⟨hcq, ds, h1, h2, h3⟩
          refine resRel_of_sim hVis' ?_
          exact ih s01 sm1 hVis'.1
      · rw [if_neg h0, if_neg h0]
        exact ih st0 stm ⟨hVN, hLL, hTR, hST, hCO⟩

/-- The result a `getLargest = m` run keeps, as a fold of the attachment step
over the components the traversal completes (in completion order). -/
def largestOnly (m : Int) (all : List (List Int)) : List (List Int) :=
  (all.foldl (attachFold m) (0, [])).2

/-- A completed mode-`m` run returns the attachment fold over the components
returned by the mode-0 run, and vice versa: if the mode-0 call completes, so
does the mode-`m` call. -/
theorem getSCComponents_mode_fold (g : Graph) (m : Int) (all : List (List Int))
    (h0 : getSCComponents g 0 = Except.ok all) :
    (∀ c ∈ all, c ≠ []) ∧ getSCComponents g m = Except.ok (largestOnly m all) := by
  rw [getSCComponents] at h0 ⊢
  rcases hl0 : sccLoop 0 g.parentIndex (g.vertexIndex.length + 1) g.vertexIndex
      { visitNumber := [], lowLinkNumber := []
        vertexTracker := g.vertexIndex.foldl (fun tr kv => dset tr kv.1 (0, 0)) []
        stack := [], counter := 0, largestComponentSize := 0, allSCC := [] } with e | stf0 <;>
    rw [hl0] at h0
  · simp at h0
  · have hsim := sccLoop_sim m g.parentIndex (g.vertexIndex.length + 1) g.vertexIndex
      { visitNumber := [], lowLinkNumber := []
        vertexTracker := g.vertexIndex.foldl (fun tr kv => dset tr kv.1 (0, 0)) []
        stack := [], counter := 0, largestComponentSize := 0, allSCC := [] }
      { visitNumber := [], lowLinkNumber := []
        vertexTracker := g.vertexIndex.foldl (fun tr kv => dset tr kv.1 (0, 0)) []
        stack := [], counter := 0, largestComponentSize := 0, allSCC := [] }
      ⟨rfl, rfl, rfl, rfl, rfl⟩
    rw [hl0] at hsim
    rcases hlm : sccLoop m g.parentIndex (g.vertexIndex.length + 1) g.vertexIndex
        { visitNumber := [], lowLinkNumber := []
          vertexTracker := g.vertexIndex.foldl (fun tr kv => dset tr kv.1 (0, 0)) []
          stack := [], counter := 0, largestComponentSize := 0, allSCC := [] } with em | stfm <;>
      rw [hlm] at hsim <;> simp only [resRel] at hsim
    · obtain ⟨_, ds, hA, hne, hF⟩ := hsim
      cases h0
      have hds : ds = stf0.allSCC := by
        rw [hA]
        rfl
      subst hds
      constructor
      · exact hne
      · show Except.ok stfm.allSCC = Except.ok (largestOnly m stf0.allSCC)
        rw [largestOnly]
        have : stfm.allSCC = (stf0.allSCC.foldl (attachFold m) (0, [])).2 := by
          rw [← hF]
        rw [this]

/-- Invariant of the mode-`m > 0` attachment fold: the accumulator holds at
most one component, the largest strictly-first one seen so far. -/
theorem attachFold_pos_spec {m : Int} (hm : 0 < m) :
    ∀ (ds processed : List (List Int)) (la : Int × List (List Int)),
      (∀ c ∈ ds, c ≠ []) →
      ((∀ c ∈ processed, (c.length : Int) ≤ la.1) ∧
        ((la.2 = [] ∧ la.1 = 0 ∧ processed = []) ∨
         (∃ c, la.2 = [c] ∧ (c.length : Int) = la.1 ∧ c ∈ processed))) →
      (∀ c ∈ processed ++ ds, (c.length : Int) ≤ (ds.foldl (attachFold m) la).1) ∧
        (((ds.foldl (attachFold m) la).2 = [] ∧ (ds.foldl (attachFold m) la).1 = 0 ∧
            processed ++ ds = []) ∨
         (∃ c, (ds.foldl (attachFold m) la).2 = [c] ∧
            (c.length : Int) = (ds.foldl (attachFold m) la).1 ∧ c ∈ processed ++ ds)) := by
  intro ds
  induction ds with
  | nil =>
    intro processed la hne hq
    simpa using hq
  | cons d rest ih =>
    intro processed la hne hq
    obtain ⟨hbound, hdisj⟩ := hq
    have hd_ne : d ≠ [] := hne d (List.mem_cons_self d rest)
    have hd_pos : (0 : Int) < d.length := by
      have := List.length_pos.mpr hd_ne
      exact_mod_cast this
    have hne' : ∀ c ∈ rest, c ≠ [] := fun c hc => hne c (List.mem_cons_of_mem d hc)
    rw [List.foldl_cons]
    have hstep : (∀ c ∈ processed ++ [d], (c.length : Int) ≤ (attachFold m la d).1) ∧
        (((attachFold m la d).2 = [] ∧ (attachFold m la d).1 = 0 ∧ processed ++ [d] = []) ∨
         (∃ c, (attachFold m la d).2 = [c] ∧ (c.length : Int) = (attachFold m la d).1 ∧
            c ∈ processed ++ [d])) := by
      rw [attachFold, attachSCC, if_pos hm]
      by_cases hgt : (d.length : Int) > la.1
      · rw [if_pos hgt]
        constructor
        · intro c hc
          rcases List.mem_append.mp hc with hc | hc
          · have := hbound c hc
            simp only []
            omega
          · simp at hc
            subst hc
            simp
        · right
          refine ⟨d, ?_, by simp, List.mem_append.mpr (Or.inr (by simp))⟩
          rcases hdisj with ⟨hA, _, _⟩ | ⟨c, hA, _, _⟩
          · rw [hA]
            simp
          · rw [hA]
            simp
      · rw [if_neg hgt]
        constructor
        · intro c hc
          rcases List.mem_append.mp hc with hc | hc
          · exact hbound c hc
          · simp at hc
            subst hc
            simp only []
            omega
        · rcases hdisj with ⟨hA, hl0, hp0⟩ | ⟨c, hA, hcl, hcp⟩
          · exfalso
            rw [hl0] at hgt
            omega
          · right
            exact ⟨c, hA, hcl, List.mem_append.mpr (Or.inl hcp)⟩
    have := ih (processed ++ [d]) (attachFold m la d) hne' hstep
    rw [List.append_cons processed d rest]
    exact this

/-- Claim C5: with `getLargest > 0`, `getSCComponents` keeps at most one
component — the strictly-largest completed one, which has maximal size among
all components the traversal finds (the mode-0 result); and on two disjoint
cycles of sizes 2 ({10,11}) and 3 ({20,21,22}) with `getLargest = 1` it
returns exactly one component, the 3-cycle {20,21,22}. -/
theorem getSCComponents_largest_mode :
    (∀ (g : Graph) (m : Int) (all : List (List Int)), 0 < m →
      getSCComponents g 0 = Except.ok all →
      getSCComponents g m = Except.ok (largestOnly m all) ∧
      (largestOnly m all).length ≤ 1 ∧
      (largestOnly m all = [] ↔ all = []) ∧
      ((largestOnly m all).all fun c =>
        decide (c ∈ all) && (all.all fun c2 => decide (c2.length ≤ c.length))) = true) ∧
    (getSCComponents gTwoCycles 1 = Except.ok [[22, 21, 20]] ∧
      ([22, 21, 20] : List Int).Perm [20, 21, 22]) := by
  constructor
  · intro g m all hm h0
    obtain ⟨hne, hres⟩ := getSCComponents_mode_fold g m all h0
    have hspec := attachFold_pos_spec hm all [] ((0 : Int), ([] : List (List Int))) hne
      (by simp)
    simp only [List.nil_append] at hspec
    obtain ⟨hbound, hdisj⟩ := hspec
    refine ⟨hres, ?_, ?_, ?_⟩
    · rcases hdisj with ⟨hA, _, _⟩ | ⟨c, hA, _, _⟩ <;> rw [largestOnly, hA] <;> simp
    · constructor
      · intro hemp
        rcases hdisj with ⟨_, _, hp⟩ | ⟨c, hA, _, _⟩
        · exact hp
        · rw [largestOnly] at hemp
          rw [hA] at hemp
          simp at hemp
      · intro hemp
        subst hemp
        rfl
    · rw [List.all_eq_true]
      intro c hc
      rcases hdisj with ⟨hA, _, _⟩ | ⟨c2, hA, hcl, hcm⟩
      · rw [largestOnly, hA] at hc
        simp at hc
      · rw [largestOnly, hA] at hc
        simp at hc
        subst hc
        rw [Bool.and_eq_true, List.all_eq_true]
        refine ⟨decide_eq_true hcm, fun c3 hc3 => decide_eq_true ?_⟩
        have h1 := hbound c3 hc3
        have h2 : (c.length : Int) = (all.foldl (attachFold m) (0, [])).1 := hcl
        omega
  · exact ⟨rfl, by decide⟩

/-- Witness for `getSCComponents_largest_mode` at the two-cycle graph: the
mode-0 run finds components [11,10] then [22,21,20], and mode 1 keeps only
the larger one. -/
theorem getSCComponents_largest_mode_witness :
    (0 : Int) < 1 ∧
    getSCComponents gTwoCycles 0 = Except.ok [[11, 10], [22, 21, 20]] ∧
    (getSCComponents gTwoCycles 1 = Except.ok (largestOnly 1 [[11, 10], [22, 21, 20]]) ∧
      (largestOnly 1 [[11, 10], [22, 21, 20]]).length ≤ 1 ∧
      (largestOnly 1 [[11, 10], [22, 21, 20]] = [] ↔ ([[11, 10], [22, 21, 20]] :
        List (List Int)) = []) ∧
      ((largestOnly 1 [[11, 10], [22, 21, 20]]).all fun c =>
        decide (c ∈ [[11, 10], [22, 21, 20]]) &&
          (([[11, 10], [22, 21, 20]] : List (List Int)).all fun c2 =>
            decide (c2.length ≤ c.length))) = true) :=
  ⟨by decide, rfl,
    getSCComponents_largest_mode.1 gTwoCycles 1 [[11, 10], [22, 21, 20]] (by decide) rfl⟩

/-! ### Reachability, SCCs, and the specification of `getOutComponent` -/

/-- Edge relation read off an adjacency dictionary: `b` is listed among the
children of `a`. -/
def edgeR (adj : List (Int × List Int)) (a b : Int) : Prop :=
  b ∈ (dlookup adj a).getD []

instance (adj : List (Int × List Int)) (a b : Int) : Decidable (edgeR adj a b) := by
  unfold edgeR
  infer_instance

/-- Reachability in at least one step. -/
inductive ReachPlus (adj : List (Int × List Int)) : Int → Int → Prop
  | single {a b : Int} : edgeR adj a b → ReachPlus adj a b
  | tail {a b c : Int} : ReachPlus adj a b → edgeR adj b c → ReachPlus adj a c

/-- Reflexive reachability. -/
def ReachStar (adj : List (Int × List Int)) (a b : Int) : Prop :=
  a = b ∨ ReachPlus adj a b

theorem reachPlus_trans {adj : List (Int × List Int)} {a b c : Int}
    (hab : ReachPlus adj a b) (hbc : ReachPlus adj b c) : ReachPlus adj a c := by
  induction hbc with
  | single e => exact hab.tail e
  | tail _ e ih => exact ih.tail e

theorem ReachPlus.head {adj : List (Int × List Int)} {a b c : Int}
    (hab : edgeR adj a b) (hbc : ReachPlus adj b c) : ReachPlus adj a c :=
  reachPlus_trans (ReachPlus.single hab) hbc

theorem reachStar_trans {adj : List (Int × List Int)} {a b c : Int}
    (hab : ReachStar adj a b) (hbc : ReachStar adj b c) : ReachStar adj a c := by
  rcases hab with rfl | hab
  · exact hbc
  · rcases hbc with rfl | hbc
    · exact Or.inr hab
    · exact Or.inr (reachPlus_trans hab hbc)

theorem ReachStar.trans_plus {adj : List (Int × List Int)} {a b c : Int}
    (hab : ReachStar adj a b) (hbc : ReachPlus adj b c) : ReachPlus adj a c := by
  rcases hab with rfl | hab
  · exact hbc
  · exact reachPlus_trans hab hbc

/-- The vertex-number set `S` is one SCC of the graph: non-empty, pairwise
mutually reachable, and maximal (any vertex mutually reachable with a member
is itself a member). -/
def IsSCC (adj : List (Int × List Int)) (S : List Int) : Prop :=
  S ≠ [] ∧ (∀ a ∈ S, ∀ b ∈ S, ReachStar adj a b) ∧
  (∀ a ∈ S, ∀ v : Int, ReachStar adj a v → ReachStar adj v a → v ∈ S)

/-- `x` is reachable (in at least one step) from some member of `S`. -/
def ReachFromS (adj : List (Int × List Int)) (S : List Int) (x : Int) : Prop :=
  ∃ s ∈ S, ReachPlus adj s x

/-- Collapsing one child value against the SCC: members become the sentinel. -/
def collapseVal (S : List Int) (c : Int) : Int :=
  if c ∈ S then -1 else c

/-- Value of the `stronglyCCLookup` dictionary: built by storing `''` under
every member of `S`. -/
theorem sccLookup_eq (S : List Int) (k : Int) :
    dlookup (S.foldl (fun lk each => dset lk each "") []) k =
      if k ∈ S then some "" else none := by
  have general : ∀ (l : List Int) (acc : List (Int × String)) (k : Int),
      dlookup (l.foldl (fun lk each => dset lk each "") acc) k =
        if k ∈ l then some "" else dlookup acc k := by
    intro l
    induction l with
    | nil => intro acc k; simp
    | cons hd tl ih =>
      intro acc k
      rw [List.foldl_cons, ih]
      by_cases hk : k ∈ tl
      · simp [hk]
      · by_cases hhd : k = hd
        · subst hhd
          simp [hk, dlookup_dset_self]
        · simp [hk, hhd, dlookup_dset_ne _ _ hhd]
  rw [general]
  rcases em (k ∈ S) with h | h <;> simp [h, dlookup]

/-- The collapsed-children fold of `getOutComponent` maps each child through
`collapseVal`. -/
theorem collapse_children_eq (S : List Int) (cs : List Int) :
    ∀ acc : List Int,
      cs.foldl (fun acc child =>
        match dlookup (S.foldl (fun lk each => dset lk each "") []) child with
        | some s => if s = "" then acc ++ [-1] else acc
        | none => acc ++ [child]) acc = acc ++ cs.map (collapseVal S) := by
  induction cs with
  | nil => intro acc; simp
  | cons c rest ih =>
    intro acc
    rw [List.foldl_cons, ih]
    by_cases hc : c ∈ S <;>
      simp [sccLookup_eq, hc, collapseVal, List.append_assoc]

/-- Membership in the sentinel's (pre-deduplication) child list after the
condensation fold: contributed by the initial list or by any processed
parent inside `S`. -/
theorem fold_sentinel_mem (S : List Int) :
    ∀ (entries cpi0 : List (Int × List Int)) (sent0 : List Int),
      dlookup cpi0 (-1) = some sent0 →
      (∀ kv ∈ entries, 0 ≤ kv.1) →
      ∃ sent, dlookup (outComponentFold (S.foldl (fun lk each => dset lk each "") [])
          entries cpi0) (-1) = some sent ∧
        ∀ x : Int, (x ∈ sent ↔ x ∈ sent0 ∨
          ∃ kv ∈ entries, kv.1 ∈ S ∧ x ∈ kv.2.map (collapseVal S)) := by
  intro entries
  induction entries with
  | nil =>
    intro cpi0 sent0 h0 _
    exact ⟨sent0, h0, by simp⟩
  | cons pcs rest ih =>
    intro cpi0 sent0 h0 hpos
    obtain ⟨p, cs⟩ := pcs
    have hp1 : p ≠ -1 := by
      have h := hpos (p, cs) (List.mem_cons_self _ _)
      simp at h
      omega
    simp only [outComponentFold, collapse_children_eq]
    by_cases hpS : p ∈ S
    · simp only [sccLookup_eq, hpS, if_pos, h0]
      have hstep : dlookup (dset cpi0 (-1) (sent0 ++ cs.map (collapseVal S))) (-1) =
          some (sent0 ++ cs.map (collapseVal S)) := dlookup_dset_self _ _ _
      obtain ⟨sent, hsent, hmem⟩ := ih _ _ hstep
        (fun kv hkv => hpos kv (List.mem_cons_of_mem _ hkv))
      refine ⟨sent, ?_, ?_⟩
      · rw [← hsent]
        rfl
      · intro x
        rw [hmem x, List.mem_append]
        constructor
        · rintro ((hx | hx) | ⟨kv, hkv, hkS, hkx⟩)
          · exact Or.inl hx
          · exact Or.inr ⟨(p, cs), List.mem_cons_self _ _, hpS, hx⟩
          · exact Or.inr ⟨kv, List.mem_cons_of_mem _ hkv, hkS, hkx⟩
        · rintro (hx | ⟨kv, hkv, hkS, hkx⟩)
          · exact Or.inl (Or.inl hx)
          · rcases List.mem_cons.mp hkv with heq | hkv
            · subst heq
              exact Or.inl (Or.inr hkx)
            · exact Or.inr ⟨kv, hkv, hkS, hkx⟩
    · simp only [sccLookup_eq, hpS, if_neg]
      have hstep : dlookup (dset cpi0 p (cs.map (collapseVal S))) (-1) = some sent0 := by
        rw [dlookup_dset_ne _ _ (Ne.symm (by omega : p ≠ -1))]
        exact h0
      obtain ⟨sent, hsent, hmem⟩ := ih _ _ hstep
        (fun kv hkv => hpos kv (List.mem_cons_of_mem _ hkv))
      refine ⟨sent, ?_, ?_⟩
      · rw [← hsent]
        rfl
      · intro x
        rw [hmem x]
        constructor
        · rintro (hx | ⟨kv, hkv, hkS, hkx⟩)
          · exact Or.inl hx
          · exact Or.inr ⟨kv, List.mem_cons_of_mem _ hkv, hkS, hkx⟩
        · rintro (hx | ⟨kv, hkv, hkS, hkx⟩)
          · exact Or.inl hx
          · rcases List.mem_cons.mp hkv with heq | hkv
            · subst heq
              exact absurd hkS hpS
            · exact Or.inr ⟨kv, hkv, hkS, hkx⟩

/-- Keys other than the sentinel that are never assigned by the condensation
fold (members of `S` never get their own entry; absent keys stay absent). -/
theorem fold_lookup_other (S : List Int) :
    ∀ (entries cpi0 : List (Int × List Int)) (x : Int), x ≠ -1 →
      (∀ kv ∈ entries, kv.1 ∈ S ∨ kv.1 ≠ x) →
      dlookup (outComponentFold (S.foldl (fun lk each => dset lk each "") [])
        entries cpi0) x = dlookup cpi0 x := by
  intro entries
  induction entries with
  | nil => intro cpi0 x _ _; rfl
  | cons pcs rest ih =>
    intro cpi0 x hx hcond
    obtain ⟨p, cs⟩ := pcs
    simp only [outComponentFold, collapse_children_eq]
    by_cases hpS : p ∈ S
    · simp only [sccLookup_eq, hpS, if_pos]
      rw [ih _ x hx (fun kv hkv => hcond kv (List.mem_cons_of_mem _ hkv))]
      exact dlookup_dset_ne _ _ hx
    · simp only [sccLookup_eq, hpS, if_neg]
      have hpx : p ≠ x := by
        rcases hcond (p, cs) (List.mem_cons_self _ _) with h | h
        · exact absurd h hpS
        · exact h
      rw [ih _ x hx (fun kv hkv => hcond kv (List.mem_cons_of_mem _ hkv))]
      exact dlookup_dset_ne _ _ (Ne.symm hpx)

/-- The condensation fold stores a parent outside `S` with all its children
collapsed through `collapseVal`. -/
theorem fold_lookup_entry (S : List Int) :
    ∀ (entries cpi0 : List (Int × List Int)) (p : Int) (cs : List Int),
      (p, cs) ∈ entries → p ∉ S → p ≠ -1 → (dkeys entries).Nodup →
      dlookup (outComponentFold (S.foldl (fun lk each => dset lk each "") [])
        entries cpi0) p = some (cs.map (collapseVal S)) := by
  intro entries
  induction entries with
  | nil => intro cpi0 p cs h; simp at h
  | cons qds rest ih =>
    intro cpi0 p cs hmem hpS hp1 hnodup
    obtain ⟨q, ds⟩ := qds
    simp only [dkeys, List.map_cons, List.nodup_cons] at hnodup
    rcases List.mem_cons.mp hmem with heq | hmem
    · injection heq with h1 h2
      rw [← h1, ← h2]
      rw [← h1] at hnodup
      simp only [outComponentFold, collapse_children_eq]
      simp only [sccLookup_eq, hpS, if_neg]
      have hcond : ∀ kv ∈ rest, kv.1 ∈ S ∨ kv.1 ≠ p := by
        intro kv hkv
        right
        intro hkp
        exact hnodup.1 (hkp ▸ List.mem_map.mpr ⟨kv, hkv, rfl⟩)
      rw [fold_lookup_other S rest _ p hp1 hcond]
      exact dlookup_dset_self _ _ _
    · simp only [outComponentFold, collapse_children_eq]
      by_cases hqS : q ∈ S
      · simp only [sccLookup_eq, hqS, if_pos]
        exact ih _ p cs hmem hpS hp1 hnodup.2
      · simp only [sccLookup_eq, hqS, if_neg]
        exact ih _ p cs hmem hpS hp1 hnodup.2

/-- Membership after deduplicating the sentinel's child list. -/
theorem dedupeSentinel_mem (l : List Int) (x : Int) :
    x ∈ dedupeSentinel l ↔ x ≠ -1 ∧ x ∈ l := by
  have general : ∀ (l acc : List Int) (x : Int),
      x ∈ l.foldl (fun acc y => if y ≠ -1 ∧ y ∉ acc then acc ++ [y] else acc) acc ↔
        x ∈ acc ∨ (x ≠ -1 ∧ x ∈ l) := by
    intro l
    induction l with
    | nil => intro acc x; simp
    | cons y rest ih =>
      intro acc x
      rw [List.foldl_cons]
      by_cases hy : y ≠ -1 ∧ y ∉ acc
      · rw [if_pos hy, ih]
        rw [show ∀ z : Int, (z ∈ acc ++ [y]) = (z ∈ acc ∨ z = y) from
          fun z => propext (by rw [List.mem_append, List.mem_singleton])]
        constructor
        · rintro ((hx | hx) | hx)
          · exact Or.inl hx
          · subst hx
            exact Or.inr ⟨hy.1, List.mem_cons_self _ _⟩
          · exact Or.inr ⟨hx.1, List.mem_cons_of_mem _ hx.2⟩
        · rintro (hx | ⟨hx1, hx2⟩)
          · exact Or.inl (Or.inl hx)
          · rcases List.mem_cons.mp hx2 with heq | hx3
            · subst heq
              exact Or.inl (Or.inr rfl)
            · exact Or.inr ⟨hx1, hx3⟩
      · rw [if_neg hy, ih]
        push_neg at hy
        constructor
        · rintro (hx | hx)
          · exact Or.inl hx
          · exact Or.inr ⟨hx.1, List.mem_cons_of_mem _ hx.2⟩
        · rintro (hx | ⟨hx1, hx⟩)
          · exact Or.inl hx
          · rcases List.mem_cons.mp hx with heq | hx
            · subst heq
              exact Or.inl (hy hx1)
            · exact Or.inr ⟨hx1, hx⟩
  rw [dedupeSentinel, general]
  simp

theorem dlookup_of_mem_nodup {α : Type} {m : List (Int × α)} {k : Int} {v : α}
    (h : (k, v) ∈ m) (hnd : (dkeys m).Nodup) : dlookup m k = some v := by
  induction m with
  | nil => simp at h
  | cons hd tl ih =>
    obtain ⟨k0, v0⟩ := hd
    simp only [dkeys, List.map_cons, List.nodup_cons] at hnd
    rcases List.mem_cons.mp h with heq | h
    · injection heq with h1 h2
      rw [dlookup, if_pos h1.symm, h2]
    · by_cases hk : k0 = k
      · exfalso
        subst hk
        exact hnd.1 (List.mem_map.mpr ⟨(k0, v), h, rfl⟩)
      · rw [dlookup, if_neg hk]
        exact ih h hnd.2

/-- Children of the sentinel inside the built condensation: exactly the
non-member, non-sentinel children of members of `S`. -/
theorem buildCollapsed_sentinel (adj : List (Int × List Int)) (S : List Int)
    (hpos : ∀ kv ∈ adj, 0 ≤ kv.1) (hnodup : (dkeys adj).Nodup) (x : Int) :
    x ∈ (dlookup (buildCollapsed adj S) (-1)).getD [] ↔
      (x ≠ -1 ∧ x ∉ S ∧ ∃ p ∈ S, edgeR adj p x) := by
  obtain ⟨sent, hsent, hmem⟩ := fold_sentinel_mem S adj [(-1, [])] []
    (by rw [dlookup]; rfl) hpos
  have hlook : dlookup (buildCollapsed adj S) (-1) = some (dedupeSentinel sent) := by
    simp only [buildCollapsed]
    rw [hsent]
    exact dlookup_dset_self _ _ _
  rw [hlook]
  show x ∈ dedupeSentinel sent ↔ _
  rw [dedupeSentinel_mem, hmem x]
  constructor
  · rintro ⟨hx1, hx | ⟨kv, hkv, hkS, hkx⟩⟩
    · simp at hx
    · obtain ⟨c, hc, hcoll⟩ := List.mem_map.mp hkx
      rw [collapseVal] at hcoll
      by_cases hcS : c ∈ S
      · rw [if_pos hcS] at hcoll
        exact absurd hcoll.symm hx1
      · rw [if_neg hcS] at hcoll
        subst hcoll
        refine ⟨hx1, hcS, kv.1, hkS, ?_⟩
        rw [edgeR, dlookup_of_mem_nodup (by exact hkv) hnodup]
        exact hc
  · rintro ⟨hx1, hxS, p, hpS, hedge⟩
    rw [edgeR] at hedge
    rcases hlp : dlookup adj p with _ | cs
    · rw [hlp] at hedge
      simp at hedge
    · rw [hlp] at hedge
      refine ⟨hx1, Or.inr ⟨(p, cs), dlookup_mem hlp, hpS, ?_⟩⟩
      refine List.mem_map.mpr ⟨x, hedge, ?_⟩
      rw [collapseVal, if_neg hxS]

/-- Children of a non-member, non-sentinel vertex inside the condensation:
its own children, collapsed. -/
theorem buildCollapsed_nonmember (adj : List (Int × List Int)) (S : List Int)
    (hpos : ∀ kv ∈ adj, 0 ≤ kv.1) (hnodup : (dkeys adj).Nodup)
    (p : Int) (hpS : p ∉ S) (hp1 : p ≠ -1) (y : Int) :
    y ∈ (dlookup (buildCollapsed adj S) p).getD [] ↔
      ∃ c, edgeR adj p c ∧ y = collapseVal S c := by
  have hskip : dlookup (buildCollapsed adj S) p =
      dlookup (outComponentFold (S.foldl (fun lk each => dset lk each "") []) adj
        [(-1, [])]) p := by
    simp only [buildCollapsed]
    exact dlookup_dset_ne _ _ hp1
  rcases hlp : dlookup adj p with _ | cs
  · have hnokey : ∀ kv ∈ adj, kv.1 ∈ S ∨ kv.1 ≠ p := by
      intro kv hkv
      right
      intro hkp
      rw [dlookup_eq_none_iff] at hlp
      exact hlp (hkp ▸ List.mem_map.mpr ⟨kv, hkv, rfl⟩)
    rw [hskip, fold_lookup_other S adj _ p hp1 hnokey]
    rw [show dlookup [((-1 : Int), ([] : List Int))] p = none by
      rw [dlookup, if_neg (Ne.symm hp1)]; rfl]
    constructor
    · intro h
      simp at h
    · rintro ⟨c, hc, _⟩
      rw [edgeR, hlp] at hc
      simp at hc
  · rw [hskip, fold_lookup_entry S adj _ p cs (dlookup_mem hlp) hpS hp1 hnodup]
    show y ∈ cs.map (collapseVal S) ↔ _
    rw [List.mem_map]
    constructor
    · rintro ⟨c, hc, hcy⟩
      refine ⟨c, ?_, hcy.symm⟩
      rw [edgeR, hlp]
      exact hc
    · rintro ⟨c, hc, hcy⟩
      rw [edgeR, hlp] at hc
      exact ⟨c, hc, hcy.symm⟩

/-- Members of `S` (other than the sentinel) own no entry in the
condensation. -/
theorem buildCollapsed_member (adj : List (Int × List Int)) (S : List Int)
    (p : Int) (hpS : p ∈ S) (hp1 : p ≠ -1) :
    (dlookup (buildCollapsed adj S) p).getD [] = [] := by
  have hskip : dlookup (buildCollapsed adj S) p =
      dlookup (outComponentFold (S.foldl (fun lk each => dset lk each "") []) adj
        [(-1, [])]) p := by
    simp only [buildCollapsed]
    exact dlookup_dset_ne _ _ hp1
  have hcond : ∀ kv ∈ adj, kv.1 ∈ S ∨ kv.1 ≠ p := by
    intro kv _
    by_cases hk : kv.1 = p
    · left; rw [hk]; exact hpS
    · right; exact hk
  rw [hskip, fold_lookup_other S adj _ p hp1 hcond]
  rw [show dlookup [((-1 : Int), ([] : List Int))] p = none by
    rw [dlookup, if_neg (Ne.symm hp1)]; rfl]
  rfl

/-- All values that can ever be appended by the out-component DFS. -/
def childUniverse (adjc : List (Int × List Int)) : List Int :=
  ((adjc.map Prod.snd).join).dedup

theorem adj_subset_universe (adjc : List (Int × List Int)) (v c : Int)
    (h : c ∈ (dlookup adjc v).getD []) : c ∈ childUniverse adjc := by
  rcases hl : dlookup adjc v with _ | cs
  · rw [hl] at h; simp at h
  · rw [hl] at h
    rw [childUniverse, List.mem_dedup]
    exact List.mem_join.mpr ⟨cs, List.mem_map.mpr ⟨(v, cs), dlookup_mem hl, rfl⟩, h⟩

theorem filter_notmem_mono (U v1 v2 : List Int) (h : ∀ x ∈ v1, x ∈ v2) :
    (U.filter (fun u => decide (u ∉ v2))).length ≤
      (U.filter (fun u => decide (u ∉ v1))).length := by
  induction U with
  | nil => simp
  | cons u U' ih =>
    simp only [List.filter_cons, decide_eq_true_eq]
    by_cases h1 : u ∈ v1
    · rw [if_neg (not_not_intro (h u h1)), if_neg (not_not_intro h1)]
      exact ih
    · by_cases h2 : u ∈ v2
      · rw [if_neg (not_not_intro h2), if_pos h1]
        simp only [List.length_cons]
        omega
      · rw [if_pos h2, if_pos h1]
        simp only [List.length_cons]
        omega

theorem filter_notmem_strict (U visited : List Int) (c : Int) (hcU : c ∈ U)
    (hcv : c ∉ visited) :
    (U.filter (fun u => decide (u ∉ visited ++ [c]))).length <
      (U.filter (fun u => decide (u ∉ visited))).length := by
  induction U with
  | nil => simp at hcU
  | cons u U' ih =>
    simp only [List.filter_cons, decide_eq_true_eq]
    have hmono := filter_notmem_mono U' visited (visited ++ [c])
      (fun x hx => List.mem_append.mpr (Or.inl hx))
    by_cases huc : u = c
    · subst huc
      have h1 : u ∈ visited ++ [u] := List.mem_append.mpr (Or.inr (by simp))
      rw [if_neg (not_not_intro h1), if_pos hcv]
      simp only [List.length_cons]
      omega
    · rcases List.mem_cons.mp hcU with heq | hcU'
      · exact absurd heq.symm huc
      · have hlt := ih hcU'
        by_cases hu : u ∈ visited
        · have hu2 : u ∈ visited ++ [c] := List.mem_append.mpr (Or.inl hu)
          rw [if_neg (not_not_intro hu2), if_neg (not_not_intro hu)]
          exact hlt
        · have hu2 : u ∉ visited ++ [c] := by
            rw [List.mem_append]
            rintro (hrr | hrr)
            · exact hu hrr
            · simp at hrr
              exact huc hrr
          rw [if_pos hu2, if_pos hu]
          simp only [List.length_cons]
          omega

/-- Specification of the `for child in children` loop of the out-component
DFS, assuming the recursive calls meet the DFS specification. -/
theorem dfsChildren_spec (adjc : List (Int × List Int)) (n : Nat)
    (hrec : ∀ (w : Int) (vis : List Int),
      ((childUniverse adjc).filter (fun u => decide (u ∉ vis))).length < n →
      ∃ ds : List Int, dfs adjc n w vis = some (vis ++ ds) ∧
        (∀ x ∈ ds, x ∈ childUniverse adjc) ∧
        (∀ x ∈ ds, ReachPlus adjc w x) ∧
        (∀ c ∈ (dlookup adjc w).getD [], c ∈ vis ++ ds) ∧
        (∀ x ∈ ds, ∀ ch ∈ (dlookup adjc x).getD [], ch ∈ vis ++ ds)) :
    ∀ (cs visited : List Int),
      (∀ c ∈ cs, c ∈ childUniverse adjc) →
      ((childUniverse adjc).filter (fun u => decide (u ∉ visited))).length ≤ n →
      ∃ ds : List Int, dfsChildren (dfs adjc n) cs visited = some (visited ++ ds) ∧
        (∀ x ∈ ds, x ∈ childUniverse adjc) ∧
        (∀ x ∈ ds, ∃ c ∈ cs, x = c ∨ ReachPlus adjc c x) ∧
        (∀ c ∈ cs, c ∈ visited ++ ds) ∧
        (∀ x ∈ ds, ∀ ch ∈ (dlookup adjc x).getD [], ch ∈ visited ++ ds) := by
  intro cs
  induction cs with
  | nil =>
    intro visited _ _
    refine ⟨[], by simp [dfsChildren], by simp, by simp, by simp, by simp⟩
  | cons c rest ih =>
    intro visited hsub hfuel
    by_cases hcv : c ∈ visited
    · obtain ⟨ds, hrun, hU, hsrc, hcov, hcl⟩ :=
        ih visited (fun c2 hc2 => hsub c2 (List.mem_cons_of_mem _ hc2)) hfuel
      refine ⟨ds, ?_, hU, ?_, ?_, hcl⟩
      · rw [dfsChildren, if_pos hcv]
        exact hrun
      · intro x hx
        obtain ⟨c2, hc2, hor⟩ := hsrc x hx
        exact ⟨c2, List.mem_cons_of_mem _ hc2, hor⟩
      · intro c2 hc2
        rcases List.mem_cons.mp hc2 with heq | hc2
        · subst heq
          exact List.mem_append.mpr (Or.inl hcv)
        · exact hcov c2 hc2
    · have hcU : c ∈ childUniverse adjc := hsub c (List.mem_cons_self _ _)
      have hlt := filter_notmem_strict (childUniverse adjc) visited c hcU hcv
      obtain ⟨ds1, hrun1, hU1, hreach1, hcov1, hcl1⟩ :=
        hrec c (visited ++ [c]) (by omega)
      have hmono1 : ((childUniverse adjc).filter
          (fun u => decide (u ∉ visited ++ [c] ++ ds1))).length ≤
          ((childUniverse adjc).filter (fun u => decide (u ∉ visited))).length := by
        refine filter_notmem_mono _ _ _ (fun x hx => ?_)
        exact List.mem_append.mpr (Or.inl (List.mem_append.mpr (Or.inl hx)))
      obtain ⟨ds2, hrun2, hU2, hsrc2, hcov2, hcl2⟩ :=
        ih (visited ++ [c] ++ ds1)
          (fun c2 hc2 => hsub c2 (List.mem_cons_of_mem _ hc2)) (by omega)
      have heq : visited ++ [c] ++ ds1 ++ ds2 = visited ++ ([c] ++ ds1 ++ ds2) := by
        simp [List.append_assoc]
      have hemb : ∀ z : Int, z ∈ visited ++ [c] ++ ds1 →
          z ∈ visited ++ ([c] ++ ds1 ++ ds2) := by
        intro z hz
        rw [← heq]
        exact List.mem_append.mpr (Or.inl hz)
      refine ⟨[c] ++ ds1 ++ ds2, ?_, ?_, ?_, ?_, ?_⟩
      · rw [dfsChildren, if_neg hcv, hrun1]
        show dfsChildren (dfs adjc n) rest (visited ++ [c] ++ ds1) =
          some (visited ++ ([c] ++ ds1 ++ ds2))
        rw [hrun2, heq]
      · intro x hx
        rcases List.mem_append.mp hx with hx | hx
        · rcases List.mem_append.mp hx with hx | hx
          · simp at hx
            subst hx
            exact hcU
          · exact hU1 x hx
        · exact hU2 x hx
      · intro x hx
        rcases List.mem_append.mp hx with hx | hx
        · rcases List.mem_append.mp hx with hx | hx
          · simp at hx
            subst hx
            exact ⟨x, List.mem_cons_self _ _, Or.inl rfl⟩
          · exact ⟨c, List.mem_cons_self _ _, Or.inr (hreach1 x hx)⟩
        · obtain ⟨c2, hc2, hor⟩ := hsrc2 x hx
          exact ⟨c2, List.mem_cons_of_mem _ hc2, hor⟩
      · intro c2 hc2
        rcases List.mem_cons.mp hc2 with heq2 | hc2
        · subst heq2
          refine List.mem_append.mpr (Or.inr ?_)
          simp
        · have h := hcov2 c2 hc2
          rw [← heq]
          exact h
      · intro x hx ch hch
        rcases List.mem_append.mp hx with hx | hx
        · rcases List.mem_append.mp hx with hx | hx
          · simp at hx
            subst hx
            exact hemb ch (hcov1 ch hch)
          · exact hemb ch (hcl1 x hx ch hch)
        · have h := hcl2 x hx ch hch
          rw [← heq]
          exact h

/-- Specification of the local `dfs` of `getOutComponent`, for any fuel
strictly larger than the number of unvisited universe elements. -/
theorem dfs_spec (adjc : List (Int × List Int)) :
    ∀ (fuel : Nat) (v : Int) (visited : List Int),
      ((childUniverse adjc).filter (fun u => decide (u ∉ visited))).length < fuel →
      ∃ ds : List Int, dfs adjc fuel v visited = some (visited ++ ds) ∧
        (∀ x ∈ ds, x ∈ childUniverse adjc) ∧
        (∀ x ∈ ds, ReachPlus adjc v x) ∧
        (∀ c ∈ (dlookup adjc v).getD [], c ∈ visited ++ ds) ∧
        (∀ x ∈ ds, ∀ ch ∈ (dlookup adjc x).getD [], ch ∈ visited ++ ds) := by
  intro fuel
  induction fuel with
  | zero =>
    intro v visited hf
    omega
  | succ n ih =>
    intro v visited hf
    obtain ⟨ds, hrun, hU, hsrc, hcov, hcl⟩ :=
      dfsChildren_spec adjc n ih ((dlookup adjc v).getD []) visited
        (fun c hc => adj_subset_universe adjc v c hc) (by omega)
    refine ⟨ds, ?_, hU, ?_, hcov, hcl⟩
    · rw [dfs]
      exact hrun
    · intro x hx
      obtain ⟨c, hc, hor⟩ := hsrc x hx
      have he : edgeR adjc v c := hc
      rcases hor with heq | hr
      · subst heq
        exact ReachPlus.single he
      · exact ReachPlus.head he hr

theorem outComponentFuel_sum (cpi : List (Int × List Int)) :
    ∀ acc : Nat, cpi.foldl (fun n kv => n + kv.2.length) acc =
      acc + ((cpi.map Prod.snd).join).length := by
  induction cpi with
  | nil => intro acc; simp
  | cons kv rest ih =>
    intro acc
    simp only [List.foldl_cons, List.map_cons, List.join]
    rw [ih]
    simp [List.length_append]
    omega

theorem childUniverse_lt_fuel (cpi : List (Int × List Int)) :
    ((childUniverse cpi).filter (fun u => decide (u ∉ ([] : List Int)))).length <
      outComponentFuel cpi := by
  have h1 : ((childUniverse cpi).filter
      (fun u => decide (u ∉ ([] : List Int)))) = childUniverse cpi := by
    apply List.filter_eq_self.mpr
    intro a _
    simp
  rw [h1, outComponentFuel, outComponentFuel_sum cpi 0]
  have h2 := List.Sublist.length_le (List.dedup_sublist ((cpi.map Prod.snd).join))
  rw [childUniverse]
  omega

theorem edgeR_bounds (adj : List (Int × List Int))
    (hkeys : ∀ kv ∈ adj, 0 ≤ kv.1 ∧ ∀ c ∈ kv.2, 0 ≤ c)
    {a b : Int} (h : edgeR adj a b) : 0 ≤ a ∧ 0 ≤ b := by
  rw [edgeR] at h
  rcases hl : dlookup adj a with _ | cs
  · rw [hl] at h
    simp at h
  · rw [hl] at h
    obtain ⟨h1, h2⟩ := hkeys (a, cs) (dlookup_mem hl)
    exact ⟨h1, h2 b h⟩

/-- A vertex outside an SCC that is reachable from it can never have an edge
back into the SCC, by maximality. -/
theorem scc_no_edge_back (adj : List (Int × List Int)) (S : List Int)
    (hscc : IsSCC adj S) :
    ∀ p, p ∉ S → ReachFromS adj S p → ∀ c ∈ S, ¬ edgeR adj p c := by
  intro p hpS hr c hcS hedge
  obtain ⟨s, hsS, hsp⟩ := hr
  have h1 : ReachStar adj c s := hscc.2.1 c hcS s hsS
  have h2 : ReachPlus adj c p := h1.trans_plus hsp
  have h3 : ReachStar adj p c := Or.inr (ReachPlus.single hedge)
  exact hpS (hscc.2.2 c hcS p (Or.inr h2) h3)

/-- Soundness of the collapsed graph: whatever is reachable from the sentinel
is a non-member reachable from the SCC in the original adjacency. -/
theorem collapsed_reach_sound (adj : List (Int × List Int)) (S : List Int)
    (hkeys : ∀ kv ∈ adj, 0 ≤ kv.1 ∧ ∀ c ∈ kv.2, 0 ≤ c)
    (hnodup : (dkeys adj).Nodup) (hscc : IsSCC adj S) :
    ∀ a x : Int, ReachPlus (buildCollapsed adj S) a x → a = -1 →
      x ≠ -1 ∧ x ∉ S ∧ ReachFromS adj S x := by
  have hpos : ∀ kv ∈ adj, 0 ≤ kv.1 := fun kv h => (hkeys kv h).1
  intro a x h
  induction h with
  | single e =>
    intro ha
    subst ha
    obtain ⟨h1, h2, p, hpS, hedge⟩ := (buildCollapsed_sentinel adj S hpos hnodup _).mp e
    exact ⟨h1, h2, p, hpS, ReachPlus.single hedge⟩
  | tail hb e ih =>
    intro ha
    obtain ⟨hb1, hbS, hbr⟩ := ih ha
    obtain ⟨c, hedge, hcoll⟩ :=
      (buildCollapsed_nonmember adj S hpos hnodup _ hbS hb1 _).mp e
    by_cases hcS : c ∈ S
    · exact absurd hedge (scc_no_edge_back adj S hscc _ hbS hbr c hcS)
    · rw [collapseVal, if_neg hcS] at hcoll
      subst hcoll
      obtain ⟨hc0, hx0⟩ := edgeR_bounds adj hkeys hedge
      obtain ⟨s, hsS, hsb⟩ := hbr
      exact ⟨by omega, hcS, s, hsS, hsb.tail hedge⟩

/-- Completeness of the collapsed graph: every non-member reachable from the
SCC is reachable from the sentinel. -/
theorem collapsed_reach_complete (adj : List (Int × List Int)) (S : List Int)
    (hkeys : ∀ kv ∈ adj, 0 ≤ kv.1 ∧ ∀ c ∈ kv.2, 0 ≤ c)
    (hnodup : (dkeys adj).Nodup) :
    ∀ s x : Int, s ∈ S → ReachPlus adj s x → x ∉ S →
      ReachPlus (buildCollapsed adj S) (-1) x := by
  have hpos : ∀ kv ∈ adj, 0 ≤ kv.1 := fun kv h => (hkeys kv h).1
  intro s x hsS h
  induction h with
  | single e =>
    intro hxS
    obtain ⟨hs0, hb0⟩ := edgeR_bounds adj hkeys e
    exact ReachPlus.single ((buildCollapsed_sentinel adj S hpos hnodup _).mpr
      ⟨by omega, hxS, s, hsS, e⟩)
  | @tail b c hb e ih =>
    intro hxS
    obtain ⟨hb0, hx0⟩ := edgeR_bounds adj hkeys e
    by_cases hbS : b ∈ S
    · exact ReachPlus.single ((buildCollapsed_sentinel adj S hpos hnodup _).mpr
        ⟨by omega, hxS, b, hbS, e⟩)
    · refine (ih hbS).tail ?_
      show c ∈ (dlookup (buildCollapsed adj S) b).getD []
      refine (buildCollapsed_nonmember adj S hpos hnodup b hbS (by omega) c).mpr ?_
      exact ⟨c, e, by rw [collapseVal, if_neg hxS]⟩

/-- C3: `getOutComponent(stronglyCC)` succeeds and returns exactly the
vertex numbers outside the given SCC that are reachable from it along
`parentIndex` edges, with the sentinel `-1` never leaking into the result;
stated for any graph whose `parentIndex` has non-negative, duplicate-free
keys and non-negative children, and any genuine SCC `S` of it. -/
theorem getOutComponent_spec (g : Graph) (S : List Int)
    (hkeys : ∀ kv ∈ g.parentIndex, 0 ≤ kv.1 ∧ ∀ c ∈ kv.2, 0 ≤ c)
    (hnodup : (dkeys g.parentIndex).Nodup)
    (hscc : IsSCC g.parentIndex S) :
    (getOutComponent g S).isSome = true ∧
    (∀ x : Int, x ∈ (getOutComponent g S).getD [] ↔
      x ∉ S ∧ ReachFromS g.parentIndex S x) ∧
    (-1 : Int) ∉ (getOutComponent g S).getD [] := by
  obtain ⟨ds, hdfs, hU, hreach, hinit, hclosed⟩ :=
    dfs_spec (buildCollapsed g.parentIndex S)
      (outComponentFuel (buildCollapsed g.parentIndex S)) (-1) []
      (childUniverse_lt_fuel _)
  have hres : getOutComponent g S = some ds := by
    show dfs (buildCollapsed g.parentIndex S)
        (outComponentFuel (buildCollapsed g.parentIndex S)) (-1) [] = some ds
    rw [hdfs, List.nil_append]
  have hsound : ∀ x ∈ ds, x ≠ -1 ∧ x ∉ S ∧ ReachFromS g.parentIndex S x := by
    intro x hx
    exact collapsed_reach_sound g.parentIndex S hkeys hnodup hscc (-1) x
      (hreach x hx) rfl
  have hcl : ∀ a y : Int, ReachPlus (buildCollapsed g.parentIndex S) a y →
      a = -1 → y ∈ ds := by
    intro a y h
    induction h with
    | single e =>
      intro ha
      subst ha
      have h2 := hinit _ e
      simpa using h2
    | tail hb e ih =>
      intro ha
      have h2 := hclosed _ (ih ha) _ e
      simpa using h2
  refine ⟨by rw [hres]; rfl, ?_, ?_⟩
  · intro x
    rw [hres]
    show x ∈ ds ↔ _
    constructor
    · intro hx
      exact ⟨(hsound x hx).2.1, (hsound x hx).2.2⟩
    · rintro ⟨hxS, s, hsS, hsp⟩
      exact hcl (-1) x
        (collapsed_reach_complete g.parentIndex S hkeys hnodup s x hsS hsp hxS) rfl
  · rw [hres]
    show ¬ (-1 : Int) ∈ ds
    intro hin
    exact (hsound _ hin).1 rfl

theorem getOutComponent_spec_witness :
    (∀ kv ∈ gEdge01.parentIndex, 0 ≤ kv.1 ∧ ∀ c ∈ kv.2, 0 ≤ c) ∧
    (dkeys gEdge01.parentIndex).Nodup ∧
    IsSCC gEdge01.parentIndex [0] ∧
    ((getOutComponent gEdge01 [0]).isSome = true ∧
      (∀ x : Int, x ∈ (getOutComponent gEdge01 [0]).getD [] ↔
        x ∉ ([0] : List Int) ∧ ReachFromS gEdge01.parentIndex [0] x) ∧
      (-1 : Int) ∉ (getOutComponent gEdge01 [0]).getD []) := by
  have hkeys : ∀ kv ∈ gEdge01.parentIndex, 0 ≤ kv.1 ∧ ∀ c ∈ kv.2, 0 ≤ c := by
    decide
  have hnodup : (dkeys gEdge01.parentIndex).Nodup := by decide
  have hpi : gEdge01.parentIndex = [(0, [1])] := by decide
  have hno : ∀ b : Int, ¬ edgeR gEdge01.parentIndex b 0 := by
    intro b he
    rw [edgeR, hpi] at he
    by_cases hb : (0 : Int) = b
    · rw [dlookup, if_pos hb] at he
      simp only [Option.getD_some, List.mem_singleton] at he
      exact absurd he (by decide)
    · rw [dlookup, if_neg hb] at he
      simp [dlookup] at he
  have hscc : IsSCC gEdge01.parentIndex [0] := by
    refine ⟨by decide, ?_, ?_⟩
    · intro a ha b hb
      simp only [List.mem_singleton] at ha hb
      subst ha
      subst hb
      exact Or.inl rfl
    · intro a ha v h1 h2
      simp only [List.mem_singleton] at ha
      subst ha
      rcases h2 with heq | hp
      · subst heq
        simp
      · cases hp with
        | single e => exact absurd e (hno _)
        | tail _ e => exact absurd e (hno _)
  exact ⟨hkeys, hnodup, hscc, getOutComponent_spec gEdge01 [0] hkeys hnodup hscc⟩

/-! ### Totality of the Tarjan traversal on closed graphs -/

theorem mem_dkeys_dset {α : Type} (m : List (Int × α)) (k : Int) (v : α) (x : Int)
    (h : x ∈ dkeys m) : x ∈ dkeys (dset m k v) := by
  by_cases hk : k ∈ dkeys m
  · rw [dkeys_dset_mem v hk]
    exact h
  · rw [dkeys_dset_fresh v hk]
    exact List.mem_append.mpr (Or.inl h)

theorem self_mem_dkeys_dset {α : Type} (m : List (Int × α)) (k : Int) (v : α) :
    k ∈ dkeys (dset m k v) := by
  rw [← dlookup_isSome_iff, dlookup_dset_self]
  rfl

theorem dlookup_dset_isSome_mono {α : Type} (m : List (Int × α)) (k : Int) (v : α)
    (x : Int) (h : (dlookup m x).isSome = true) :
    (dlookup (dset m k v) x).isSome = true := by
  by_cases hk : x = k
  · subst hk
    rw [dlookup_dset_self]
    rfl
  · rw [dlookup_dset_ne m v hk]
    exact h

theorem filter_imp_mono {α : Type} (l : List α) (p q : α → Bool)
    (h : ∀ x ∈ l, q x = true → p x = true) :
    (l.filter q).length ≤ (l.filter p).length := by
  induction l with
  | nil => simp
  | cons a l' ih =>
    have ih' := ih (fun x hx => h x (List.mem_cons_of_mem _ hx))
    simp only [List.filter_cons]
    by_cases hq : q a = true
    · rw [if_pos hq, if_pos (h a (List.mem_cons_self _ _) hq)]
      simp only [List.length_cons]
      omega
    · rw [if_neg hq]
      by_cases hp : p a = true
      · rw [if_pos hp]
        simp only [List.length_cons]
        omega
      · rw [if_neg hp]
        exact ih'

theorem filter_imp_strict {α : Type} [DecidableEq α] (l : List α) (p q : α → Bool)
    (h : ∀ x ∈ l, q x = true → p x = true) (a : α) (ha : a ∈ l)
    (hpa : p a = true) (hqa : q a = false) :
    (l.filter q).length < (l.filter p).length := by
  induction l with
  | nil => simp at ha
  | cons b l' ih =>
    have hmono := filter_imp_mono l' p q (fun x hx => h x (List.mem_cons_of_mem _ hx))
    simp only [List.filter_cons]
    by_cases hba : b = a
    · subst hba
      rw [if_pos hpa, if_neg (by rw [hqa]; exact Bool.false_ne_true)]
      simp only [List.length_cons]
      omega
    · have ha' : a ∈ l' := by
        rcases List.mem_cons.mp ha with h1 | h1
        · exact absurd h1.symm hba
        · exact h1
      have ihs := ih (fun x hx => h x (List.mem_cons_of_mem _ hx)) ha'
      by_cases hqb : q b = true
      · rw [if_pos hqb, if_pos (h b (List.mem_cons_self _ _) hqb)]
        simp only [List.length_cons]
        omega
      · rw [if_neg hqb]
        by_cases hpb : p b = true
        · rw [if_pos hpb]
          simp only [List.length_cons]
          omega
        · rw [if_neg hpb]
          exact ihs

/-- Number of vertices of the universe `V` whose discovery number has not yet
been assigned: the measure bounding the depth of the `visit` recursion. -/
def unvisitedCount (V : List Int) (st : TarjanSt) : Nat :=
  (V.filter (fun x => decide (dlookup st.visitNumber x = none))).length

/-- Well-formedness of a Tarjan state over the vertex universe `V`: the
tracker covers `V`, the stack stays inside the tracker's domain, and a vertex
whose tracker visit flag is still 0 has no discovery number. -/
def TInv (V : List Int) (st : TarjanSt) : Prop :=
  (∀ x ∈ V, x ∈ dkeys st.vertexTracker) ∧
  (∀ x ∈ st.stack, x ∈ dkeys st.vertexTracker) ∧
  (∀ x t, dlookup st.vertexTracker x = some t → t.1 = 0 →
    dlookup st.visitNumber x = none)

theorem unvisitedCount_le (V : List Int) (st st' : TarjanSt)
    (h : ∀ x, (dlookup st.visitNumber x).isSome = true →
      (dlookup st'.visitNumber x).isSome = true) :
    unvisitedCount V st' ≤ unvisitedCount V st := by
  refine filter_imp_mono V _ _ (fun x _ hq => ?_)
  rw [decide_eq_true_eq] at hq ⊢
  rcases ho : dlookup st.visitNumber x with _ | v
  · rfl
  · have h2 := h x (by rw [ho]; rfl)
    rw [hq] at h2
    simp at h2

theorem trackerInit_lookup (vs : List (Int × Vertex)) :
    ∀ (acc : List (Int × (Int × Int))) (x : Int),
      dlookup (vs.foldl (fun tr kv => dset tr kv.1 ((0 : Int), (0 : Int))) acc) x =
        if x ∈ dkeys vs then some (0, 0) else dlookup acc x := by
  induction vs with
  | nil =>
    intro acc x
    simp [dkeys]
  | cons kv rest ih =>
    intro acc x
    simp only [List.foldl_cons]
    rw [ih]
    by_cases hx : x ∈ dkeys rest
    · rw [if_pos hx, if_pos]
      simp only [dkeys, List.map_cons, List.mem_cons]
      right
      exact hx
    · rw [if_neg hx]
      by_cases hk : x = kv.1
      · subst hk
        rw [dlookup_dset_self, if_pos]
        simp [dkeys]
      · rw [dlookup_dset_ne _ _ hk, if_neg]
        simp only [dkeys, List.map_cons, List.mem_cons]
        push_neg
        exact ⟨hk, by simpa [dkeys] using hx⟩

theorem popComponent_ok (v : Int) :
    ∀ (l1 l2 : List Int) (tr : List (Int × (Int × Int))) (scc : List Int),
      v ∈ l1 → (∀ x ∈ l1, x ∈ dkeys tr) →
      ∃ l1' tr2 scc2,
        popComponent v (l1 ++ l2) tr scc = Except.ok (l1' ++ l2, tr2, scc2) ∧
        (∀ x, x ∈ dkeys tr2 ↔ x ∈ dkeys tr) ∧
        (∀ x t2, dlookup tr2 x = some t2 → ∃ t, dlookup tr x = some t ∧ t2.1 = t.1) ∧
        (∀ x ∈ l1', x ∈ l1) := by
  intro l1
  induction l1 with
  | nil =>
    intro l2 tr scc hv
    simp at hv
  | cons top rest ih =>
    intro l2 tr scc hv hdom
    have htop : top ∈ dkeys tr := hdom top (List.mem_cons_self _ _)
    obtain ⟨t, ht⟩ := Option.isSome_iff_exists.mp ((dlookup_isSome_iff _ _).mpr htop)
    have hdset : ∀ x, x ∈ dkeys (dset tr top (t.1, 1)) ↔ x ∈ dkeys tr := by
      intro x
      rw [dkeys_dset_mem _ htop]
    have hflag : ∀ x t2, dlookup (dset tr top (t.1, 1)) x = some t2 →
        ∃ t0, dlookup tr x = some t0 ∧ t2.1 = t0.1 := by
      intro x t2 hx
      by_cases hxk : x = top
      · subst hxk
        rw [dlookup_dset_self] at hx
        injection hx with hx
        exact ⟨t, ht, by rw [← hx]⟩
      · rw [dlookup_dset_ne _ _ hxk] at hx
        exact ⟨t2, hx, rfl⟩
    by_cases htv : top = v
    · subst htv
      refine ⟨rest, dset tr top (t.1, 1), scc ++ [top], ?_, hdset, hflag, ?_⟩
      · show popComponent top (top :: (rest ++ l2)) tr scc = _
        rw [popComponent]
        simp only [ht]
        rw [if_neg (by simp)]
      · intro x hx
        exact List.mem_cons_of_mem _ hx
    · have hv' : v ∈ rest := by
        rcases List.mem_cons.mp hv with h1 | h1
        · exact absurd h1.symm htv
        · exact h1
      have hdom' : ∀ x ∈ rest, x ∈ dkeys (dset tr top (t.1, 1)) := by
        intro x hx
        rw [hdset]
        exact hdom x (List.mem_cons_of_mem _ hx)
      obtain ⟨l1', tr2, scc2, hrun, hkeys2, hflag2, hsub⟩ :=
        ih l2 (dset tr top (t.1, 1)) (scc ++ [top]) hv' hdom'
      refine ⟨l1', tr2, scc2, ?_, ?_, ?_, ?_⟩
      · show popComponent v (top :: (rest ++ l2)) tr scc = _
        rw [popComponent]
        simp only [ht]
        rw [if_pos htv]
        exact hrun
      · intro x
        rw [hkeys2 x, hdset x]
      · intro x t2 hx
        obtain ⟨t1, ht1, he1⟩ := hflag2 x t2 hx
        obtain ⟨t0, ht0, he0⟩ := hflag x t1 ht1
        exact ⟨t0, ht0, by rw [he1, he0]⟩
      · intro x hx
        exact List.mem_cons_of_mem _ (hsub x hx)

/-- The child loop of `visit` completes and preserves the state invariant,
assuming the recursive calls at the remaining fuel do. -/
theorem visitChildren_ok (m : Int) (pi : List (Int × List Int)) (V : List Int) (n : Nat)
    (hrec : ∀ (w : Int) (st : TarjanSt), TInv V st → w ∈ V →
      dlookup st.visitNumber w = none → unvisitedCount V st < n →
      ∃ st', visit m pi n w st = Except.ok st' ∧ TInv V st' ∧
        (∀ x, (dlookup st.visitNumber x).isSome = true →
          (dlookup st'.visitNumber x).isSome = true) ∧
        (∀ x, (dlookup st.lowLinkNumber x).isSome = true →
          (dlookup st'.lowLinkNumber x).isSome = true) ∧
        (dlookup st'.lowLinkNumber w).isSome = true ∧
        (∃ ext, st'.stack = ext ++ st.stack)) :
    ∀ (cs : List Int) (v : Int) (st : TarjanSt), TInv V st → (∀ c ∈ cs, c ∈ V) →
      (dlookup st.lowLinkNumber v).isSome = true →
      unvisitedCount V st < n →
      ∃ st2, visitChildren (visit m pi n) v cs st = Except.ok st2 ∧ TInv V st2 ∧
        (∀ x, (dlookup st.visitNumber x).isSome = true →
          (dlookup st2.visitNumber x).isSome = true) ∧
        (∀ x, (dlookup st.lowLinkNumber x).isSome = true →
          (dlookup st2.lowLinkNumber x).isSome = true) ∧
        (∃ ext, st2.stack = ext ++ st.stack) := by
  intro cs
  induction cs with
  | nil =>
    intro v st hinv _ _ _
    exact ⟨st, rfl, hinv, fun x h => h, fun x h => h, [], rfl⟩
  | cons c rest ih =>
    intro v st hinv hcs hvll hcount
    have hcV : c ∈ V := hcs c (List.mem_cons_self _ _)
    have hcdom : c ∈ dkeys st.vertexTracker := hinv.1 c hcV
    obtain ⟨t, ht⟩ := Option.isSome_iff_exists.mp ((dlookup_isSome_iff _ _).mpr hcdom)
    by_cases ht2 : t.2 ≠ 1
    · obtain ⟨a, ha⟩ := Option.isSome_iff_exists.mp hvll
      rcases hvn : dlookup st.visitNumber c with _ | b
      · -- the child is unvisited: recurse into it
        obtain ⟨st1, hrun1, hinv1, hmvn1, hmll1, hllc1, ext1, hst1⟩ :=
          hrec c st hinv hcV hvn hcount
        obtain ⟨a2, ha2⟩ := Option.isSome_iff_exists.mp (hmll1 v hvll)
        obtain ⟨b2, hb2⟩ := Option.isSome_iff_exists.mp hllc1
        obtain ⟨st2, hrun2, hinv2, hmvn2, hmll2, ext2, hst2⟩ :=
          ih v { st1 with lowLinkNumber := dset st1.lowLinkNumber v (pymin a2 b2) }
            hinv1 (fun c2 hc2 => hcs c2 (List.mem_cons_of_mem _ hc2))
            (by rw [dlookup_dset_self]; rfl)
            (by
              have h1 := unvisitedCount_le V st st1 hmvn1
              have h2 : unvisitedCount V
                  { st1 with lowLinkNumber := dset st1.lowLinkNumber v (pymin a2 b2) } =
                  unvisitedCount V st1 := rfl
              omega)
        refine ⟨st2, ?_, hinv2, ?_, ?_, ?_⟩
        · rw [visitChildren]
          simp only [ht]
          rw [if_pos ht2]
          simp only [ha, hvn, hrun1, ha2, hb2]
          exact hrun2
        · intro x hx
          exact hmvn2 x (hmvn1 x hx)
        · intro x hx
          exact hmll2 x (dlookup_dset_isSome_mono _ _ _ x (hmll1 x hx))
        · refine ⟨ext2 ++ ext1, ?_⟩
          rw [hst2]
          show ext2 ++ st1.stack = (ext2 ++ ext1) ++ st.stack
          rw [hst1, List.append_assoc]
      · -- child already has a discovery number: only the low link is updated
        obtain ⟨st2, hrun2, hinv2, hmvn2, hmll2, ext2, hst2⟩ :=
          ih v { st with lowLinkNumber := dset st.lowLinkNumber v (pymin a b) }
            hinv (fun c2 hc2 => hcs c2 (List.mem_cons_of_mem _ hc2))
            (by rw [dlookup_dset_self]; rfl) hcount
        refine ⟨st2, ?_, hinv2, hmvn2, ?_, ext2, hst2⟩
        · rw [visitChildren]
          simp only [ht]
          rw [if_pos ht2]
          simp only [ha, hvn]
          exact hrun2
        · intro x hx
          exact hmll2 x (dlookup_dset_isSome_mono _ _ _ x hx)
    · -- visit flag says the child is finished: skip it
      obtain ⟨st2, hrun2, hinv2, hmvn2, hmll2, ext2, hst2⟩ :=
        ih v st hinv (fun c2 hc2 => hcs c2 (List.mem_cons_of_mem _ hc2)) hvll hcount
      refine ⟨st2, ?_, hinv2, hmvn2, hmll2, ext2, hst2⟩
      rw [visitChildren]
      simp only [ht]
      rw [if_neg ht2]
      exact hrun2

/-- `visit` completes on any unvisited universe vertex once the fuel exceeds
the number of unvisited vertices, preserving the state invariant. -/
theorem visit_ok (m : Int) (pi : List (Int × List Int)) (V : List Int)
    (hpi : ∀ kv ∈ pi, ∀ c ∈ kv.2, c ∈ V) :
    ∀ (n : Nat) (w : Int) (st : TarjanSt), TInv V st → w ∈ V →
      dlookup st.visitNumber w = none → unvisitedCount V st < n →
      ∃ st', visit m pi n w st = Except.ok st' ∧ TInv V st' ∧
        (∀ x, (dlookup st.visitNumber x).isSome = true →
          (dlookup st'.visitNumber x).isSome = true) ∧
        (∀ x, (dlookup st.lowLinkNumber x).isSome = true →
          (dlookup st'.lowLinkNumber x).isSome = true) ∧
        (dlookup st'.lowLinkNumber w).isSome = true ∧
        (∃ ext, st'.stack = ext ++ st.stack) := by
  intro n
  induction n with
  | zero =>
    intro w st _ _ _ hc
    omega
  | succ k ih =>
    intro w st hinv hwV hwnone hcount
    have hwdom : w ∈ dkeys st.vertexTracker := hinv.1 w hwV
    obtain ⟨t, ht⟩ := Option.isSome_iff_exists.mp ((dlookup_isSome_iff _ _).mpr hwdom)
    have hchild : ∀ c ∈ (dlookup pi w).getD [], c ∈ V := by
      rcases hlp : dlookup pi w with _ | cs
      · intro c hc
        simp at hc
      · intro c hc
        exact hpi (w, cs) (dlookup_mem hlp) c hc
    have hinvA : TInv V
        { visitNumber := dset st.visitNumber w st.counter
          lowLinkNumber := dset st.lowLinkNumber w st.counter
          vertexTracker := dset st.vertexTracker w (1, t.2)
          stack := w :: st.stack
          counter := st.counter + 1
          largestComponentSize := st.largestComponentSize
          allSCC := st.allSCC } := by
      refine ⟨?_, ?_, ?_⟩
      · intro x hx
        exact mem_dkeys_dset _ _ _ x (hinv.1 x hx)
      · intro x hx
        rcases List.mem_cons.mp hx with rfl | hx
        · exact self_mem_dkeys_dset _ _ _
        · exact mem_dkeys_dset _ _ _ x (hinv.2.1 x hx)
      · intro x t' hx h0
        have hx' : dlookup (dset st.vertexTracker w (1, t.2)) x = some t' := hx
        by_cases hxw : x = w
        · subst hxw
          rw [dlookup_dset_self] at hx'
          injection hx' with hx'
          rw [← hx'] at h0
          have h1 : (1 : Int) = 0 := h0
          exact absurd h1 (by decide)
        · rw [dlookup_dset_ne _ _ hxw] at hx'
          show dlookup (dset st.visitNumber w st.counter) x = none
          rw [dlookup_dset_ne _ _ hxw]
          exact hinv.2.2 x t' hx' h0
    have hcountA : unvisitedCount V
        { visitNumber := dset st.visitNumber w st.counter
          lowLinkNumber := dset st.lowLinkNumber w st.counter
          vertexTracker := dset st.vertexTracker w (1, t.2)
          stack := w :: st.stack
          counter := st.counter + 1
          largestComponentSize := st.largestComponentSize
          allSCC := st.allSCC } < k := by
      have hstrict := filter_imp_strict V
        (fun x => decide (dlookup st.visitNumber x = none))
        (fun x => decide (dlookup (dset st.visitNumber w st.counter) x = none))
        (by
          intro x _ hq
          simp only [decide_eq_true_eq] at hq ⊢
          by_cases hxw : x = w
          · subst hxw
            rw [dlookup_dset_self] at hq
            simp at hq
          · rw [dlookup_dset_ne _ _ hxw] at hq
            exact hq)
        w hwV (by simp only [decide_eq_true_eq]; exact hwnone)
        (by
          show decide (dlookup (dset st.visitNumber w st.counter) w = none) = false
          rw [dlookup_dset_self]
          rfl)
      have he1 : unvisitedCount V st =
          (V.filter (fun x => decide (dlookup st.visitNumber x = none))).length := rfl
      have he2 : unvisitedCount V
          { visitNumber := dset st.visitNumber w st.counter
            lowLinkNumber := dset st.lowLinkNumber w st.counter
            vertexTracker := dset st.vertexTracker w (1, t.2)
            stack := w :: st.stack
            counter := st.counter + 1
            largestComponentSize := st.largestComponentSize
            allSCC := st.allSCC } =
          (V.filter
            (fun x => decide (dlookup (dset st.visitNumber w st.counter) x = none))).length :=
        rfl
      omega
    obtain ⟨st2, hrun2, hinv2, hmvn2, hmll2, ext2, hst2⟩ :=
      visitChildren_ok m pi V k ih ((dlookup pi w).getD []) w
        { visitNumber := dset st.visitNumber w st.counter
          lowLinkNumber := dset st.lowLinkNumber w st.counter
          vertexTracker := dset st.vertexTracker w (1, t.2)
          stack := w :: st.stack
          counter := st.counter + 1
          largestComponentSize := st.largestComponentSize
          allSCC := st.allSCC }
        hinvA hchild (by rw [dlookup_dset_self]; rfl) hcountA
    obtain ⟨ll, hll⟩ := Option.isSome_iff_exists.mp
      (hmll2 w (by rw [dlookup_dset_self]; rfl))
    obtain ⟨vn, hvn2⟩ := Option.isSome_iff_exists.mp
      (hmvn2 w (by rw [dlookup_dset_self]; rfl))
    have hstt : st2.stack = (ext2 ++ [w]) ++ st.stack := by
      rw [hst2]
      simp
    have hmvnA : ∀ x, (dlookup st.visitNumber x).isSome = true →
        (dlookup st2.visitNumber x).isSome = true := by
      intro x hx
      exact hmvn2 x (dlookup_dset_isSome_mono _ _ _ x hx)
    have hmllA : ∀ x, (dlookup st.lowLinkNumber x).isSome = true →
        (dlookup st2.lowLinkNumber x).isSome = true := by
      intro x hx
      exact hmll2 x (dlookup_dset_isSome_mono _ _ _ x hx)
    by_cases hlv : ll = vn
    · have hvmem : w ∈ ext2 ++ [w] := List.mem_append.mpr (Or.inr (by simp))
      have hdoms : ∀ x ∈ ext2 ++ [w], x ∈ dkeys st2.vertexTracker := by
        intro x hx
        apply hinv2.2.1 x
        rw [hstt]
        exact List.mem_append.mpr (Or.inl hx)
      obtain ⟨l1', tr2, scc2, hpop0, hkeys2, hflag2, hsub1⟩ :=
        popComponent_ok w (ext2 ++ [w]) st.stack st2.vertexTracker [] hvmem hdoms
      have hpop : popComponent w st2.stack st2.vertexTracker [] =
          Except.ok (l1' ++ st.stack, tr2, scc2) := by
        rw [hstt]
        exact hpop0
      refine ⟨{ st2 with
                stack := l1' ++ st.stack
                vertexTracker := tr2
                largestComponentSize :=
                  (attachSCC m scc2 st2.largestComponentSize st2.allSCC).1
                allSCC := (attachSCC m scc2 st2.largestComponentSize st2.allSCC).2 },
        ?_, ?_, ?_, ?_, ?_, ?_⟩
      · simp only [visit, ht, hrun2, hll, hvn2]
        rw [if_pos hlv]
        simp only [hpop]
      · refine ⟨?_, ?_, ?_⟩
        · intro x hx
          exact (hkeys2 x).mpr (hinv2.1 x hx)
        · intro x hx
          rcases List.mem_append.mp hx with hx | hx
          · refine (hkeys2 x).mpr (hinv2.2.1 x ?_)
            rw [hstt]
            exact List.mem_append.mpr (Or.inl (hsub1 x hx))
          · refine (hkeys2 x).mpr (hinv2.2.1 x ?_)
            rw [hstt]
            exact List.mem_append.mpr (Or.inr hx)
        · intro x t' hx h0
          have hx' : dlookup tr2 x = some t' := hx
          obtain ⟨t3, ht3, he3⟩ := hflag2 x t' hx'
          exact hinv2.2.2 x t3 ht3 (he3 ▸ h0)
      · intro x hx
        exact hmvnA x hx
      · intro x hx
        exact hmllA x hx
      · show (dlookup st2.lowLinkNumber w).isSome = true
        rw [hll]
        rfl
      · exact ⟨l1', rfl⟩
    · refine ⟨st2, ?_, hinv2, hmvnA, hmllA, ?_, ext2 ++ [w], hstt⟩
      · simp only [visit, ht, hrun2, hll, hvn2]
        rw [if_neg hlv]
      · rw [hll]
        rfl

/-- The outer vertex loop of `getSCComponents` completes on any state
satisfying the invariant with enough fuel. -/
theorem sccLoop_ok (m : Int) (pi : List (Int × List Int)) (V : List Int)
    (hpi : ∀ kv ∈ pi, ∀ c ∈ kv.2, c ∈ V) (fuel : Nat) :
    ∀ (vs : List (Int × Vertex)) (st : TarjanSt),
      TInv V st → (∀ kv ∈ vs, kv.1 ∈ V) → unvisitedCount V st < fuel →
      ∃ st', sccLoop m pi fuel vs st = Except.ok st' := by
  intro vs
  induction vs with
  | nil =>
    intro st _ _ _
    exact ⟨st, rfl⟩
  | cons kv rest ih =>
    intro st hinv hvs hcount
    have hkV : kv.1 ∈ V := hvs kv (List.mem_cons_self _ _)
    obtain ⟨t, ht⟩ := Option.isSome_iff_exists.mp
      ((dlookup_isSome_iff _ _).mpr (hinv.1 kv.1 hkV))
    by_cases h0 : t.1 = 0
    · have hvn : dlookup st.visitNumber kv.1 = none := hinv.2.2 kv.1 t ht h0
      have hinvB : TInv V
          { st with vertexTracker := dset st.vertexTracker kv.1 (1, t.2) } := by
        refine ⟨?_, ?_, ?_⟩
        · intro x hx
          exact mem_dkeys_dset _ _ _ x (hinv.1 x hx)
        · intro x hx
          exact mem_dkeys_dset _ _ _ x (hinv.2.1 x hx)
        · intro x t' hx h0'
          have hx' : dlookup (dset st.vertexTracker kv.1 (1, t.2)) x = some t' := hx
          by_cases hxk : x = kv.1
          · subst hxk
            exact hvn
          · rw [dlookup_dset_ne _ _ hxk] at hx'
            exact hinv.2.2 x t' hx' h0'
      obtain ⟨st1, hrun1, hinv1, hmvn1, _, _, _⟩ :=
        visit_ok m pi V hpi fuel kv.1
          { st with vertexTracker := dset st.vertexTracker kv.1 (1, t.2) }
          hinvB hkV hvn hcount
      obtain ⟨st', hrun'⟩ :=
        ih st1 hinv1 (fun kv2 h2 => hvs kv2 (List.mem_cons_of_mem _ h2))
          (by
            have h1 := unvisitedCount_le V
              { st with vertexTracker := dset st.vertexTracker kv.1 (1, t.2) } st1 hmvn1
            have h2 : unvisitedCount V
                { st with vertexTracker := dset st.vertexTracker kv.1 (1, t.2) } =
                unvisitedCount V st := rfl
            omega)
      refine ⟨st', ?_⟩
      rw [sccLoop]
      simp only [ht]
      rw [if_pos h0]
      simp only [hrun1]
      exact hrun'
    · obtain ⟨st', hrun'⟩ :=
        ih st hinv (fun kv2 h2 => hvs kv2 (List.mem_cons_of_mem _ h2)) hcount
      refine ⟨st', ?_⟩
      rw [sccLoop]
      simp only [ht]
      rw [if_neg h0]
      exact hrun'

/-- On a closed graph (every adjacency child is an indexed vertex), the full
Tarjan traversal of `getSCComponents` completes for any mode. -/
theorem getSCComponents_total (g : Graph) (m : Int)
    (hclosed : ∀ kv ∈ g.parentIndex, ∀ c ∈ kv.2, c ∈ dkeys g.vertexIndex) :
    ∃ st, sccLoop m g.parentIndex (g.vertexIndex.length + 1) g.vertexIndex
      { visitNumber := [], lowLinkNumber := []
        vertexTracker := g.vertexIndex.foldl (fun tr kv => dset tr kv.1 (0, 0)) []
        stack := [], counter := 0, largestComponentSize := 0, allSCC := [] } =
      Except.ok st := by
  apply sccLoop_ok m g.parentIndex (dkeys g.vertexIndex) hclosed
    (g.vertexIndex.length + 1) g.vertexIndex
  · refine ⟨?_, ?_, ?_⟩
    · intro x hx
      rw [← dlookup_isSome_iff]
      show (dlookup (g.vertexIndex.foldl
        (fun tr kv => dset tr kv.1 ((0 : Int), (0 : Int))) []) x).isSome = true
      rw [trackerInit_lookup g.vertexIndex [] x, if_pos hx]
      rfl
    · intro x hx
      simp at hx
    · intro x t _ _
      rfl
  · intro kv hkv
    exact List.mem_map.mpr ⟨kv, hkv, rfl⟩
  · have h1 : ((dkeys g.vertexIndex).filter
        (fun x => decide (dlookup ([] : List (Int × Int)) x = none))).length ≤
        (dkeys g.vertexIndex).length :=
      List.Sublist.length_le (List.filter_sublist _)
    have h2 : (dkeys g.vertexIndex).length = g.vertexIndex.length :=
      List.length_map _ _
    have h3 : unvisitedCount (dkeys g.vertexIndex)
        { visitNumber := [], lowLinkNumber := []
          vertexTracker := g.vertexIndex.foldl (fun tr kv => dset tr kv.1 (0, 0)) []
          stack := [], counter := 0, largestComponentSize := 0, allSCC := [] } =
        ((dkeys g.vertexIndex).filter
          (fun x => decide (dlookup ([] : List (Int × Int)) x = none))).length := rfl
    omega

/-- C10 (amended): for every closed graph (no dangling adjacency children)
and every negative `getLargest`, neither attachment branch of `visit` fires,
so the traversal completes having dropped every component, and
`getSCComponents` returns the empty list. -/
theorem getSCComponents_negative_empty (g : Graph) (m : Int) (hm : m < 0)
    (hclosed : ∀ kv ∈ g.parentIndex, ∀ c ∈ kv.2, c ∈ dkeys g.vertexIndex) :
    getSCComponents g m = Except.ok [] := by
  obtain ⟨st, hrun⟩ := getSCComponents_total g m hclosed
  have hA := sccLoop_neg_pres hm g.parentIndex _ g.vertexIndex _ st hrun
  simp only [getSCComponents, hrun]
  rw [hA]

/-- Witness for `getSCComponents_negative_empty`: the two-cycle graph is
closed, and with `getLargest = -1` the call completes and returns the empty
list. -/
theorem getSCComponents_negative_empty_witness :
    (-1 : Int) < 0 ∧
    (∀ kv ∈ gTwoCycles.parentIndex, ∀ c ∈ kv.2, c ∈ dkeys gTwoCycles.vertexIndex) ∧
    getSCComponents gTwoCycles (-1) = Except.ok [] :=
  ⟨by decide, by decide,
    getSCComponents_negative_empty gTwoCycles (-1) (by decide) (by decide)⟩

/-- The reachable state `addEdge(0,1); deleteVertex(1)`: `deleteVertex` only
removes the `vertexIndex` entry, so `parentIndex[0] = [1]` dangles. -/
def gDangling : Graph :=
  (deleteVertex (addEdge emptyGraph (mkEdge 0 1)) 1).getD emptyGraph

/-- C10 (counterexample to the every-graph form): on the reachable state
`addEdge(0,1); deleteVertex(1)` the adjacency still references the deleted
vertex 1, so with `getLargest = -1` the child loop of `visit` evaluates
`vertexTracker[1]` and raises an uncaught `KeyError`: the traversal does not
complete and nothing, in particular not the empty list, is returned. -/
theorem getSCComponents_negative_keyError :
    Reachable gDangling ∧ (-1 : Int) < 0 ∧
    getSCComponents gDangling (-1) = Except.error "KeyError" :=
  ⟨Reachable.delV 1 (Reachable.addE (mkEdge 0 1) Reachable.init)
      (by decide : deleteVertex (addEdge emptyGraph (mkEdge 0 1)) 1 = some gDangling),
    by decide,
    (rfl : getSCComponents gDangling (-1) = Except.error "KeyError")⟩

end Pygel
